import Mathlib

/-!
# In-memory inverted index (`lib/storage/inmemory_inverted_index.go`)

A shallow embedding of the index table, the pending queue, the tag-filter
evaluator and the snapshot (de)serializer, followed by theorems about them.

Conventions of the embedding

* A Go byte slice is a `List Byte`; a `uint64`/`uint32` value is a `Nat`
  (reduced `% 2 ^ 64` where Go converts), a Go `int` is an `Int` whose
  arithmetic wraps explicitly (`int64OfUint64`, `mulInt64`).
* The Go map `map[string]*uint64set.Set` is an association list with unique
  keys (`AList`); the order of its entries stands for the order in which one
  `range` over the map visits them, which Go leaves unspecified.
* A Go function that can panic returns `Run`; a function that returns an
  `error` returns the error as data.
-/

namespace InmemoryInvertedIndex

/-! ## Bytes and fixed-width integers (package `lib/encoding`) -/

/-- One byte of a Go byte slice. -/
abbrev Byte := Fin 256

/-- The low eight bits of a number, as a byte (Go `byte(x)`). -/
def byteOf (n : Nat) : Byte := ⟨n % 256, Nat.mod_lt _ (by decide)⟩

/-- Big-endian bytes of the low `w` bytes of `u`, most significant first. -/
def putUintBE : Nat → Nat → List Byte
  | 0, _ => []
  | w + 1, u => byteOf (u / 256 ^ w) :: putUintBE w u

/-- The number a big-endian byte string denotes. -/
def getUintBE (bs : List Byte) : Nat :=
  bs.foldl (fun acc b => acc * 256 + b.val) 0

/-- Modelled from the spec: `encoding.MarshalUint64` is not among the sources;
the spec fixes every integer of the snapshot to a fixed width in one byte
order, here eight bytes, big-endian, appended to `dst`. -/
def MarshalUint64 (dst : List Byte) (u : Nat) : List Byte := dst ++ putUintBE 8 u

/-- Modelled from the spec: `encoding.MarshalUint32` is not among the sources;
four bytes, big-endian, appended to `dst`. -/
def MarshalUint32 (dst : List Byte) (u : Nat) : List Byte := dst ++ putUintBE 4 u

/-- Modelled from the spec: `encoding.UnmarshalUint64` is not among the
sources; it reads the first eight bytes. Indexing a shorter slice is a Go
run-time panic, rendered as `none`. -/
def UnmarshalUint64 (src : List Byte) : Option Nat :=
  if src.length < 8 then none else some (getUintBE (src.take 8))

/-- Modelled from the spec: `encoding.UnmarshalUint32` is not among the
sources; it reads the first four bytes, `none` standing for the panic on a
shorter slice. -/
def UnmarshalUint32 (src : List Byte) : Option Nat :=
  if src.length < 4 then none else some (getUintBE (src.take 4))

/-- Modelled from the spec: `encoding.MarshalBytes` is not among the sources;
the spec lays a key out as `keyLength: u64` followed by the key bytes. -/
def MarshalBytes (dst b : List Byte) : List Byte :=
  MarshalUint64 dst (b.length % 2 ^ 64) ++ b

/-- Modelled from the spec: `encoding.UnmarshalBytes` is not among the
sources; it reads a `u64` length and that many bytes and returns the tail and
the bytes, or, when the input is too short, the unconsumed input and no bytes
(the error). -/
def UnmarshalBytes (src : List Byte) : List Byte × Option (List Byte) :=
  match UnmarshalUint64 src with
  | none => (src, none)
  | some n =>
    if (src.drop 8).length < n then (src, none)
    else ((src.drop 8).drop n, some ((src.drop 8).take n))

/-- Go conversion `int(x)` of a `uint64` on a 64-bit platform. -/
def int64OfUint64 (u : Nat) : Int :=
  if u % 2 ^ 64 < 2 ^ 63 then ((u % 2 ^ 64 : Nat) : Int) else ((u % 2 ^ 64 : Nat) : Int) - 2 ^ 64

/-- Go multiplication of two `int` values: the product wraps modulo `2 ^ 64`
into the signed range. -/
def mulInt64 (a b : Int) : Int := (a * b + 2 ^ 63) % 2 ^ 64 - 2 ^ 63

/-! ## Posting sets (package `lib/uint64set`) -/

/-- Modelled from the spec: `uint64set.Set` is not among the sources; the spec
treats it as an opaque set of integer ids with union, intersection,
subtraction, clone and cardinality. It is a finite set of numbers: `Add` is
`insert`, `Union` is `∪`, `Intersect` is `∩`, `Subtract` is `\`, `Len` is
`card`, and `Clone` is the identity on values. -/
abbrev Set64 := Finset Nat

/-- Modelled from the spec: the ids of a set in ascending order. -/
def Set64.sortedElems (s : Set64) : List Nat :=
  Quot.liftOn s.val (List.insertionSort (· ≤ ·)) (fun a b (h : a.Perm b) =>
    List.eq_of_perm_of_sorted
      (((List.perm_insertionSort (· ≤ ·) a).trans h).trans (List.perm_insertionSort (· ≤ ·) b).symm)
      (List.sorted_insertionSort (· ≤ ·) a) (List.sorted_insertionSort (· ≤ ·) b))

/-- Modelled from the spec: `uint64set.Set.AppendTo` is not among the
sources; it appends the ids of the set to `dst`. -/
def Set64.AppendTo (s : Set64) (dst : List Nat) : List Nat := dst ++ s.sortedElems

/-! ## Data model -/

/-- A pending entry: tenant (two `uint32`) and metric id (`uint64`). -/
structure pendingHourMetricIDEntry where
  AccountID : Nat
  ProjectID : Nat
  MetricID : Nat
deriving DecidableEq, Repr

/-- The Go map `map[string]*uint64set.Set`. -/
abbrev Table := AList (fun _ : List Byte => Set64)

/-- The index: the table `m` and the pending list. The mutex is not
modelled; every function below runs with the lock it takes in the source. -/
structure inmemoryInvertedIndex where
  m : Table
  pendingEntries : List pendingHourMetricIDEntry

/-- The posting set stored under a key, empty when the key is absent. -/
def Table.posting (m : Table) (k : List Byte) : Set64 := (m.lookup k).getD ∅

/-- Outcome of a Go call that may panic. -/
inductive Run (α : Type) where
  | ret (a : α)
  | panic
deriving DecidableEq, Repr

/-- The errors `unmarshalMetricIDs` returns, with the numbers its message
prints. -/
inductive MetricIDsError where
  /-- Message `cannot unmarshal metricIDs len from %d bytes; want at least 8 bytes`. -/
  | len (got : Nat)
  /-- Message `not enough bytes for unmarshaling %d metricIDs; want %d bytes; got %d bytes`. -/
  | notEnough (metricIDsLen : Int) (want : Int) (got : Nat)
deriving DecidableEq, Repr

/-- The errors `Unmarshal` returns, with the numbers its message prints. -/
inductive UnmarshalError where
  /-- Message `cannot read len(iidx.m) from %d bytes; want at least 8 bytes`. -/
  | tableLen (got : Nat)
  /-- Message `cannot unmarshal key #%d for iidx.m: %s`. -/
  | key (i : Nat)
  /-- Message `cannot unmarshal value #%d for iidx.m: %s`. -/
  | value (i : Nat) (cause : MetricIDsError)
  /-- Message `cannot unmarshal pendingEntriesLen from %d bytes; want at least %d bytes`. -/
  | pendingLen (got : Nat)
  /-- Message `cannot unmarshal %d pending entries from %d bytes; want at least %d bytes`. -/
  | pendingEntries (pendingEntriesLen : Int) (got : Nat) (want : Int)
deriving DecidableEq, Repr

/-- Outcome of one decoding stage: a value, an error returned together with
a tail, or a panic. -/
inductive Stage (ε α : Type) where
  | ok (a : α)
  | error (tail : List Byte) (e : ε)
  | panic

/-- Function `newInmemoryInvertedIndex`. -/
def newInmemoryInvertedIndex : inmemoryInvertedIndex := { m := ∅, pendingEntries := [] }

/-! ## Serializer -/

/-- Function `marshalMetricIDs`. -/
def marshalMetricIDs (dst : List Byte) (metricIDs : List Nat) : List Byte :=
  metricIDs.foldl (fun dst metricID => MarshalUint64 dst metricID)
    (MarshalUint64 dst (metricIDs.length % 2 ^ 64))

/-- Method `Marshal`. The entries are visited in the order of the
association list. -/
def Marshal (iidx : inmemoryInvertedIndex) (dst : List Byte) : List Byte :=
  let dst := MarshalUint64 dst (iidx.m.entries.length % 2 ^ 64)
  let dst := iidx.m.entries.foldl
    (fun dst kv => marshalMetricIDs (MarshalBytes dst kv.1) (Set64.AppendTo kv.2 [])) dst
  let dst := MarshalUint64 dst (iidx.pendingEntries.length % 2 ^ 64)
  iidx.pendingEntries.foldl
    (fun dst e => MarshalUint64 (MarshalUint32 (MarshalUint32 dst e.AccountID) e.ProjectID) e.MetricID)
    dst

/-- The loop of `unmarshalMetricIDs`: `n` iterations still to run. -/
def unmarshalMetricIDsLoop : Nat → List Nat → List Byte → Run (List Byte × List Nat)
  | 0, dst, src => .ret (src, dst)
  | n + 1, dst, src =>
    match UnmarshalUint64 src with
    | none => .panic
    | some metricID => unmarshalMetricIDsLoop n (dst ++ [metricID]) (src.drop 8)

/-- Function `unmarshalMetricIDs`. -/
def unmarshalMetricIDs (dst : List Nat) (src : List Byte) :
    Stage MetricIDsError (List Byte × List Nat) :=
  if src.length < 8 then
    .error src (.len src.length)
  else
    match UnmarshalUint64 src with
    | none => .panic
    | some u =>
      let metricIDsLen := int64OfUint64 u
      let src := src.drop 8
      if (src.length : Int) < mulInt64 8 metricIDsLen then
        .error src (.notEnough metricIDsLen (mulInt64 8 metricIDsLen) src.length)
      else
        match unmarshalMetricIDsLoop metricIDsLen.toNat dst src with
        | .panic => .panic
        | .ret r => .ok r

/-- The first loop of `Unmarshal`: `n` iterations still to run, `i` the loop
counter, `m` the map under construction. -/
def unmarshalTableLoop :
    Nat → Nat → Table → List Byte → Stage UnmarshalError (Table × List Byte)
  | 0, _, m, src => .ok (m, src)
  | n + 1, i, m, src =>
    match UnmarshalBytes src with
    | (tail, none) => .error tail (.key i)
    | (tail, some k) =>
      match unmarshalMetricIDs [] tail with
      | .panic => .panic
      | .error tail e => .error tail (.value i e)
      | .ok (tail, metricIDs) =>
        let v : Set64 := metricIDs.foldl (fun v metricID => insert metricID v) ∅
        unmarshalTableLoop n (i + 1) (m.insert k v) tail

/-- The second loop of `Unmarshal`: `n` iterations still to run. -/
def unmarshalPendingLoop :
    Nat → List pendingHourMetricIDEntry → List Byte → Run (List Byte × List pendingHourMetricIDEntry)
  | 0, pendingEntries, src => .ret (src, pendingEntries)
  | n + 1, pendingEntries, src =>
    match UnmarshalUint32 src with
    | none => .panic
    | some accountID =>
      match UnmarshalUint32 (src.drop 4) with
      | none => .panic
      | some projectID =>
        match UnmarshalUint64 ((src.drop 4).drop 4) with
        | none => .panic
        | some metricID =>
          unmarshalPendingLoop n
            (pendingEntries ++ [{ AccountID := accountID, ProjectID := projectID, MetricID := metricID }])
            (((src.drop 4).drop 4).drop 8)

/-- Method `Unmarshal`: the index afterwards, the returned tail and the
returned error (`none` for `nil`). -/
def Unmarshal (iidx : inmemoryInvertedIndex) (src : List Byte) :
    Run (inmemoryInvertedIndex × List Byte × Option UnmarshalError) :=
  if src.length < 8 then
    .ret (iidx, src, some (.tableLen src.length))
  else
    match UnmarshalUint64 src with
    | none => .panic
    | some u =>
      let mLen := int64OfUint64 u
      match unmarshalTableLoop mLen.toNat 0 ∅ (src.drop 8) with
      | .panic => .panic
      | .error tail e => .ret (iidx, tail, some e)
      | .ok (m, src) =>
        let iidx : inmemoryInvertedIndex := { iidx with m := m }
        if src.length < 8 then
          .ret (iidx, src, some (.pendingLen src.length))
        else
          match UnmarshalUint64 src with
          | none => .panic
          | some u =>
            let pendingEntriesLen := int64OfUint64 u
            let src := src.drop 8
            if (src.length : Int) < mulInt64 pendingEntriesLen 16 then
              .ret (iidx, src,
                some (.pendingEntries pendingEntriesLen src.length (mulInt64 pendingEntriesLen 16)))
            else
              match unmarshalPendingLoop pendingEntriesLen.toNat iidx.pendingEntries src with
              | .panic => .panic
              | .ret (src, pendingEntries) =>
                .ret ({ iidx with pendingEntries := pendingEntries }, src, none)

/-! ## Introspection -/

/-- Method `GetUniqueTagPairsLen`; `none` is the nil receiver. -/
def GetUniqueTagPairsLen (iidx : Option inmemoryInvertedIndex) : Nat :=
  match iidx with
  | none => 0
  | some iidx => iidx.m.entries.length

/-- Method `GetEntriesCount`; `none` is the nil receiver. -/
def GetEntriesCount (iidx : Option inmemoryInvertedIndex) : Nat :=
  match iidx with
  | none => 0
  | some iidx => iidx.m.entries.foldl (fun n kv => n + kv.2.card) 0

/-- Method `GetPendingMetricIDsLen`; `none` is the nil receiver. -/
def GetPendingMetricIDsLen (iidx : Option inmemoryInvertedIndex) : Nat :=
  match iidx with
  | none => 0
  | some iidx => iidx.pendingEntries.length

/-! ## Tag-filter evaluator -/

/-- The part of `tagFilter` (declared outside the sources) that the index
reads: the byte-string `prefix` field (here `pfx`), the negation flag, and
`matchSuffix`, whose Go result `(bool, error)` is `some b` for `(b, nil)` and
`none` for an error. -/
structure tagFilter where
  pfx : List Byte
  isNegative : Bool
  matchSuffix : List Byte → Option Bool

/-- The part of `TagFilters` the index reads. -/
structure TagFilters where
  tfs : List tagFilter
  commonPrefix : List Byte

/-- The scan of `getMetricIDsForTagFilterLocked` over the entries of the
map, `m` being the set accumulated so far; `p` is the filter's own part of
the key, after the common part. -/
def scanTable (tf : tagFilter) (p : List Byte) :
    List (Sigma fun _ : List Byte => Set64) → Set64 → Run Set64
  | [], m => .ret m
  | kv :: rest, m =>
    if kv.1.length < p.length ∨ kv.1.take p.length ≠ p then
      scanTable tf p rest m
    else
      match tf.matchSuffix (kv.1.drop p.length) with
      | none => .panic
      | some false => scanTable tf p rest m
      | some true => scanTable tf p rest (m ∪ kv.2)

/-- Method `getMetricIDsForTagFilterLocked`. -/
def getMetricIDsForTagFilterLocked (iidx : inmemoryInvertedIndex) (tf : tagFilter)
    (commonPrefix : List Byte) : Run Set64 :=
  if ¬ (commonPrefix.isPrefixOf tf.pfx = true) then
    .panic
  else
    scanTable tf (tf.pfx.drop commonPrefix.length) iidx.m.entries ∅

/-- The first loop of `UpdateMetricIDsForTagFilters`: the pointer `tfFirst`
to the first filter that is not negative, as its position (counted from `i`)
and the filter it points to; `none` is the nil pointer. -/
def findFirst : List tagFilter → Nat → Option (Nat × tagFilter)
  | [], _ => none
  | tf :: rest, i => if tf.isNegative then findFirst rest (i + 1) else some (i, tf)

/-- The second loop of `UpdateMetricIDsForTagFilters` from position `i` on:
`tfFirst` is the position of the seed filter (the test `tf == tfFirst`
compares pointers into the slice, that is, positions); the outcome is `none`
when the loop returned from the function early and the running result
otherwise. -/
def applyFilters (iidx : inmemoryInvertedIndex) (commonPrefix : List Byte) (tfFirst : Option Nat) :
    List tagFilter → Nat → Set64 → Run (Option Set64)
  | [], _, result => .ret (some result)
  | tf :: rest, i, result =>
    if tfFirst = some i then
      applyFilters iidx commonPrefix tfFirst rest (i + 1) result
    else
      match getMetricIDsForTagFilterLocked iidx tf commonPrefix with
      | .panic => .panic
      | .ret m =>
        let result := if tf.isNegative then result \ m else result ∩ m
        if result.card = 0 then .ret none
        else applyFilters iidx commonPrefix tfFirst rest (i + 1) result

/-- Method `UpdateMetricIDsForTagFilters`; `none` is the nil receiver. The
value is the accumulator `metricIDs` after the call. -/
def UpdateMetricIDsForTagFilters (iidx : Option inmemoryInvertedIndex)
    (metricIDs allMetricIDs : Set64) (tfs : TagFilters) : Run Set64 :=
  match iidx with
  | none => .ret metricIDs
  | some iidx =>
    let tfFirst := findFirst tfs.tfs 0
    let seed : Run Set64 :=
      match tfFirst with
      | none => .ret allMetricIDs
      | some (_, tf) =>
        match getMetricIDsForTagFilterLocked iidx tf tfs.commonPrefix with
        | .panic => .panic
        | .ret result => .ret (result ∩ allMetricIDs)
    match seed with
    | .panic => .panic
    | .ret result =>
      match applyFilters iidx tfs.commonPrefix (tfFirst.map Prod.fst) tfs.tfs 0 result with
      | .panic => .panic
      | .ret none => .ret metricIDs
      | .ret (some result) => .ret (metricIDs ∪ result)

/-! ## Pending queue -/

/-- Method `addMetricIDLocked`. An existing set is updated through its
pointer; in the association list the updated entry is written back. -/
def addMetricIDLocked (m : Table) (key : List Byte) (metricID : Nat) : Table :=
  match m.lookup key with
  | none => m.insert key (insert metricID (∅ : Set64))
  | some v => m.insert key (insert metricID v)

/-- A tag of a decoded metric name. -/
structure Tag where
  Key : List Byte
  Value : List Byte
deriving DecidableEq, Repr

/-- The part of `MetricName` the index reads. -/
structure MetricName where
  MetricGroup : List Byte
  Tags : List Tag
deriving DecidableEq, Repr

/-- The three outcomes of `idb.searchMetricName` that the index tells
apart: the stored name, `io.EOF`, any other error. -/
inductive SearchResult where
  | found (metricName : List Byte)
  | eof
  | failed
deriving DecidableEq, Repr

/-- The collaborators of the drain that lie outside the sources, taken as
parameters: the resolver `idb.searchMetricName` (by metric id, account id,
project id), `MetricName.Unmarshal` (`none` for an error), and the key
encoders `marshalTagValue` and `Tag.Marshal` (each appends to `dst`). -/
structure Resolver where
  searchMetricName : Nat → Nat → Nat → SearchResult
  unmarshalMetricName : List Byte → Option MetricName
  marshalTagValue : List Byte → List Byte → List Byte
  marshalTag : Tag → List Byte → List Byte

/-- The errors `addPendingEntriesLocked` returns. -/
inductive DrainError where
  /-- Message `cannot find metricName by metricID %d: %s`. -/
  | cannotFind (metricID : Nat)
  /-- Message `cannot unmarshal metricName %q: %s`. -/
  | cannotUnmarshal (metricName : List Byte)
deriving DecidableEq, Repr

/-- The loop of `addPendingEntriesLocked`, `n` iterations still to run and
`i` the position of the next one. `entries` is the slice being ranged over
and `pending` is `iidx.pendingEntries`, which was cut to length zero over the
same backing array: the `append` of a re-queued entry therefore also writes
the cell `pending.length` of `entries` (nothing when that cell lies beyond
`entries`). Each iteration reads its entry from `entries` as it then is. -/
def addPendingEntriesLoop (idb : Resolver) :
    Nat → Nat → List pendingHourMetricIDEntry → Table → List pendingHourMetricIDEntry →
      Table × List pendingHourMetricIDEntry × Option DrainError
  | 0, _, _, m, pending => (m, pending, none)
  | n + 1, i, entries, m, pending =>
    match entries[i]? with
    | none => (m, pending, none)
    | some e =>
      match idb.searchMetricName e.MetricID e.AccountID e.ProjectID with
      | .eof => addPendingEntriesLoop idb n (i + 1) (entries.set pending.length e) m (pending ++ [e])
      | .failed => (m, pending, some (.cannotFind e.MetricID))
      | .found metricName =>
        match idb.unmarshalMetricName metricName with
        | none => (m, pending, some (.cannotUnmarshal metricName))
        | some mn =>
          let m := addMetricIDLocked m
            (idb.marshalTagValue (idb.marshalTagValue [] []) mn.MetricGroup) e.MetricID
          let m := mn.Tags.foldl (fun m tag => addMetricIDLocked m (idb.marshalTag tag []) e.MetricID) m
          addPendingEntriesLoop idb n (i + 1) entries m pending

/-- Method `addPendingEntriesLocked`: the index afterwards and the returned
error (`none` for `nil`). -/
def addPendingEntriesLocked (idb : Resolver) (iidx : inmemoryInvertedIndex) :
    inmemoryInvertedIndex × Option DrainError :=
  let r := addPendingEntriesLoop idb iidx.pendingEntries.length 0 iidx.pendingEntries iidx.m []
  ({ m := r.1, pendingEntries := r.2.1 }, r.2.2)

/-- Method `AddMetricID`; an error of the drain is a panic. -/
def AddMetricID (idb : Resolver) (iidx : inmemoryInvertedIndex) (e : pendingHourMetricIDEntry) :
    Run inmemoryInvertedIndex :=
  match addPendingEntriesLocked idb { iidx with pendingEntries := iidx.pendingEntries ++ [e] } with
  | (iidx, none) => .ret iidx
  | (_, some _) => .panic

/-! ## Reference definitions used to state the theorems -/

/-- A state a running Go program can hold and marshal: every length is a
non-negative `int`, the ids of one posting set fit a slice of 8-byte words
and the pending entries a slice of 16-byte records (so their byte sizes are
`int` values too), and every field is in the range of its Go type. -/
structure Representable (iidx : inmemoryInvertedIndex) : Prop where
  entries_lt : iidx.m.entries.length < 2 ^ 63
  key_lt : ∀ kv ∈ iidx.m.entries, kv.1.length < 2 ^ 63
  ids_lt : ∀ kv ∈ iidx.m.entries, 8 * kv.2.card < 2 ^ 63
  id_range : ∀ kv ∈ iidx.m.entries, ∀ id ∈ kv.2, id < 2 ^ 64
  pending_lt : 16 * iidx.pendingEntries.length < 2 ^ 63
  pending_range : ∀ e ∈ iidx.pendingEntries,
    e.AccountID < 2 ^ 32 ∧ e.ProjectID < 2 ^ 32 ∧ e.MetricID < 2 ^ 64

/-- The set the spec assigns to a filter list, for a given value `lookup` of
every filter: the allowed scope `A` intersected with the lookups of the
filters that are not negated, minus the union of the lookups of the negated
ones. With no filter that is not negated the intersection is just `A`. -/
def expectedResult (lookup : tagFilter → Set64) (A : Set64) (tfs : List tagFilter) : Set64 :=
  (tfs.filter (fun tf => !tf.isNegative)).foldr (fun tf r => lookup tf ∩ r) A \
    (tfs.filter (fun tf => tf.isNegative)).foldr (fun tf r => lookup tf ∪ r) ∅

/-- The resolver answered `io.EOF` for the entry: not yet available. -/
def notYetAvailable (idb : Resolver) (e : pendingHourMetricIDEntry) : Bool :=
  match idb.searchMetricName e.MetricID e.AccountID e.ProjectID with
  | .eof => true
  | _ => false

/-- The decoded name of an entry that resolves: the resolver found a stored
name and the name decodes. -/
def resolvedName (idb : Resolver) (e : pendingHourMetricIDEntry) : Option MetricName :=
  match idb.searchMetricName e.MetricID e.AccountID e.ProjectID with
  | .found metricName => idb.unmarshalMetricName metricName
  | _ => none

/-- The entry fails fatally: a resolver error other than `io.EOF`, or a
stored name that cannot be decoded. -/
def failsFatally (idb : Resolver) (e : pendingHourMetricIDEntry) : Bool :=
  match idb.searchMetricName e.MetricID e.AccountID e.ProjectID with
  | .eof => false
  | .failed => true
  | .found metricName => (idb.unmarshalMetricName metricName).isNone

/-- The keys a decoded name yields: the metric-group key (the empty tag name
marshaled, then the metric group marshaled) and the marshaled form of each
tag. -/
def keysOfName (idb : Resolver) (mn : MetricName) : List (List Byte) :=
  idb.marshalTagValue (idb.marshalTagValue [] []) mn.MetricGroup ::
    mn.Tags.map (fun tag => idb.marshalTag tag [])

/-- The entry resolves to a name that yields the key `K`. -/
def yieldsKey (idb : Resolver) (K : List Byte) (e : pendingHourMetricIDEntry) : Bool :=
  match resolvedName idb e with
  | some mn => decide (K ∈ keysOfName idb mn)
  | none => false

/-- The drain as a fold over a list of entries that is not written to while
it is read; the theorem `addPendingEntriesLoop_eq_drainList` shows that the
loop over the shared backing array computes the same. -/
def drainList (idb : Resolver) :
    List pendingHourMetricIDEntry → Table → List pendingHourMetricIDEntry →
      Table × List pendingHourMetricIDEntry × Option DrainError
  | [], m, pending => (m, pending, none)
  | e :: rest, m, pending =>
    match idb.searchMetricName e.MetricID e.AccountID e.ProjectID with
    | .eof => drainList idb rest m (pending ++ [e])
    | .failed => (m, pending, some (.cannotFind e.MetricID))
    | .found metricName =>
      match idb.unmarshalMetricName metricName with
      | none => (m, pending, some (.cannotUnmarshal metricName))
      | some mn =>
        drainList idb rest
          (mn.Tags.foldl (fun m tag => addMetricIDLocked m (idb.marshalTag tag []) e.MetricID)
            (addMetricIDLocked m
              (idb.marshalTagValue (idb.marshalTagValue [] []) mn.MetricGroup) e.MetricID))
          pending

/-! ## The snapshot layout of the spec -/

/-- The `postings` of one entry: one `u64` per metric id. -/
def layoutIDs : List Nat → List Byte
  | [] => []
  | metricID :: rest => putUintBE 8 metricID ++ layoutIDs rest

/-- One table entry: `keyLength`, the key bytes, `postingCount`, the
postings. -/
def layoutEntry (key : List Byte) (metricIDs : List Nat) : List Byte :=
  putUintBE 8 (key.length % 2 ^ 64) ++ key ++
    (putUintBE 8 (metricIDs.length % 2 ^ 64) ++ layoutIDs metricIDs)

/-- The table entries one after the other, in the order of the list. -/
def layoutEntries : List (Sigma fun _ : List Byte => Set64) → List Byte
  | [] => []
  | kv :: rest => layoutEntry kv.1 kv.2.sortedElems ++ layoutEntries rest

/-- The pending entries: `accountID: u32`, `projectID: u32`, `metricID: u64`
each, in queue order. -/
def layoutPending : List pendingHourMetricIDEntry → List Byte
  | [] => []
  | e :: rest =>
    putUintBE 4 e.AccountID ++ putUintBE 4 e.ProjectID ++ putUintBE 8 e.MetricID ++
      layoutPending rest

/-- The whole snapshot: `entryCount`, the entries, `pendingCount`, the pending
entries. -/
def layoutSnapshot (iidx : inmemoryInvertedIndex) : List Byte :=
  putUintBE 8 (iidx.m.entries.length % 2 ^ 64) ++ layoutEntries iidx.m.entries ++
    (putUintBE 8 (iidx.pendingEntries.length % 2 ^ 64) ++ layoutPending iidx.pendingEntries)

/-- The conditions of `Representable` on the table entries. -/
def EntriesOK (es : List (Sigma fun _ : List Byte => Set64)) : Prop :=
  ∀ kv ∈ es, kv.1.length < 2 ^ 63 ∧ 8 * kv.2.card < 2 ^ 63 ∧ ∀ id ∈ kv.2, id < 2 ^ 64

/-- The records the first loop of `Unmarshal` decodes from the input, in
input order: for each of `n` iterations the key read by `UnmarshalBytes` and
the metric ids read by `unmarshalMetricIDs`, together with the bytes left
after the last record; `none` when some record cannot be read. -/
def decodedEntries : Nat → List Byte → Option (List (List Byte × List Nat) × List Byte)
  | 0, src => some ([], src)
  | n + 1, src =>
    match UnmarshalBytes src with
    | (_, none) => none
    | (tail, some k) =>
      match unmarshalMetricIDs [] tail with
      | .ok (tail, metricIDs) =>
        match decodedEntries n tail with
        | some (rest, tail) => some ((k, metricIDs) :: rest, tail)
        | none => none
      | _ => none

/-- The metric ids of the last record with key `k`, as a set; `none` when no
record has that key. -/
def lastDecoded (es : List (List Byte × List Nat)) (k : List Byte) : Option Set64 :=
  (es.reverse.find? (fun e => decide (e.1 = k))).map (fun e => e.2.toFinset)

/-! ## Further methods and the definitions the later theorems compare them with -/

/-- The value of `unsafe.Sizeof(pendingHourMetricIDEntry{})`: two `uint32`
fields and one `uint64` field. -/
def sizeofPendingEntry : Nat := 16

/-- Method `SizeBytes`. The size estimate `uint64set.Set.SizeBytes` lies
outside the sources and is the parameter `setSizeBytes`; `n` is a `uint64`,
so every conversion and addition is taken modulo `2 ^ 64`. -/
def SizeBytes (setSizeBytes : Set64 → Nat) (iidx : inmemoryInvertedIndex) : Nat :=
  let n := iidx.m.entries.foldl
    (fun n kv => ((n + kv.1.length % 2 ^ 64) % 2 ^ 64 + setSizeBytes kv.2 % 2 ^ 64) % 2 ^ 64) 0
  (n + (iidx.pendingEntries.length % 2 ^ 64) * sizeofPendingEntry % 2 ^ 64) % 2 ^ 64

/-- The size the spec assigns to an index: the sum over the stored keys of
the key length plus the size estimate of the key's posting set, plus 16
bytes per pending entry. -/
def referenceSizeBytes (setSizeBytes : Set64 → Nat) (iidx : inmemoryInvertedIndex) : Nat :=
  (∑ k in iidx.m.keys.toFinset, (k.length + setSizeBytes (iidx.m.posting k))) +
    16 * iidx.pendingEntries.length

/-- The total posting count of the spec: the sum over the stored keys of the
cardinality of the key's posting set. -/
def referenceEntriesCount (iidx : inmemoryInvertedIndex) : Nat :=
  ∑ k in iidx.m.keys.toFinset, (iidx.m.posting k).card

/-- The second loop of `UpdateMetricIDsForTagFilters` with its early return
taken out: every filter but the seed is applied. -/
def applyFiltersNoReturn (iidx : inmemoryInvertedIndex) (commonPrefix : List Byte)
    (tfFirst : Option Nat) : List tagFilter → Nat → Set64 → Run Set64
  | [], _, result => .ret result
  | tf :: rest, i, result =>
    if tfFirst = some i then
      applyFiltersNoReturn iidx commonPrefix tfFirst rest (i + 1) result
    else
      match getMetricIDsForTagFilterLocked iidx tf commonPrefix with
      | .panic => .panic
      | .ret m =>
        applyFiltersNoReturn iidx commonPrefix tfFirst rest (i + 1)
          (if tf.isNegative then result \ m else result ∩ m)

/-- The variant of `UpdateMetricIDsForTagFilters` without the short-circuit:
the same seed, every remaining filter applied, then the final union. -/
def UpdateMetricIDsForTagFiltersNoReturn (iidx : Option inmemoryInvertedIndex)
    (metricIDs allMetricIDs : Set64) (tfs : TagFilters) : Run Set64 :=
  match iidx with
  | none => .ret metricIDs
  | some iidx =>
    let tfFirst := findFirst tfs.tfs 0
    let seed : Run Set64 :=
      match tfFirst with
      | none => .ret allMetricIDs
      | some (_, tf) =>
        match getMetricIDsForTagFilterLocked iidx tf tfs.commonPrefix with
        | .panic => .panic
        | .ret result => .ret (result ∩ allMetricIDs)
    match seed with
    | .panic => .panic
    | .ret result =>
      match applyFiltersNoReturn iidx tfs.commonPrefix (tfFirst.map Prod.fst) tfs.tfs 0 result with
      | .panic => .panic
      | .ret result => .ret (metricIDs ∪ result)

/-- The error was returned from the pending section of `Unmarshal` (the
pending count or the pending entries), after the table had been assigned. -/
def UnmarshalError.inPendingSection : UnmarshalError → Bool
  | .tableLen _ => false
  | .key _ => false
  | .value _ _ => false
  | .pendingLen _ => true
  | .pendingEntries _ _ _ => true

/-- The suffix predicate of the filter returns no error on any remainder the
scan of `getMetricIDsForTagFilterLocked` feeds it: the bytes, after the
filter's own part of the `prefix`, of a stored key that starts with that
part. -/
def noErrorOnStoredKeys (iidx : inmemoryInvertedIndex) (commonPrefix : List Byte)
    (tf : tagFilter) : Prop :=
  ∀ kv ∈ iidx.m.entries, tf.pfx.drop commonPrefix.length <+: kv.1 →
    (tf.matchSuffix (kv.1.drop (tf.pfx.drop commonPrefix.length).length)).isSome = true

/-- The contents of the accumulator after a call of the evaluator over
values: what the call returns, and the contents it was given when the call
panics (the only write to the accumulator is the final union). -/
def accumulatorAfter (metricIDs : Set64) (r : Run Set64) : Set64 :=
  match r with
  | .ret out => out
  | .panic => metricIDs

/-! ## The evaluator over a heap of set objects

The table holds pointers `*uint64set.Set`, and the evaluator works through
pointers too (`result`, `m`, `metricIDs`, `allMetricIDs`). This second
embedding of the evaluator keeps the pointers: a set object lives at an
address of a heap, and every `Union`, `Intersect` and `Subtract` writes the
object of its receiver. -/

/-- The `uint64set.Set` objects of the program, by address. -/
abbrev Heap := List Set64

/-- The set at an address; an address that holds no object reads as the empty
set. -/
def Heap.read (h : Heap) (a : Nat) : Set64 := (h[a]?).getD ∅

/-- The map `iidx.m` with its values as pointers into the heap. -/
abbrev PtrTable := AList (fun _ : List Byte => Nat)

/-- The index with the set pointers of its map kept as pointers. -/
structure inmemoryInvertedIndexPtr where
  m : PtrTable
  pendingEntries : List pendingHourMetricIDEntry

/-- Outcome of a call that works on the heap: it returned a value or it
panicked, and in both cases left a heap. -/
inductive HeapRun (α : Type) where
  | ret (h : Heap) (a : α)
  | panic (h : Heap)

/-- The heap a call leaves. -/
def HeapRun.heap {α : Type} : HeapRun α → Heap
  | .ret h _ => h
  | .panic h => h

/-- The index as values: every pointer of the map replaced by the set it
points to. -/
def inmemoryInvertedIndexPtr.deref (iidx : inmemoryInvertedIndexPtr) (h : Heap) :
    inmemoryInvertedIndex :=
  { m := ⟨iidx.m.entries.map (fun kv => ⟨kv.1, h.read kv.2⟩), by
      have hk : (iidx.m.entries.map
          (fun kv => (⟨kv.1, h.read kv.2⟩ : Sigma fun _ : List Byte => Set64))).keys =
          iidx.m.entries.keys := by
        simp [List.keys, List.map_map, Function.comp_def]
      exact List.nodupKeys_iff_pairwise.mpr (by
        have := iidx.m.nodupKeys
        unfold List.NodupKeys at this
        rw [← hk] at this
        exact List.nodupKeys_iff_pairwise.mp this)⟩
    pendingEntries := iidx.pendingEntries }

/-- The scan of `getMetricIDsForTagFilterLocked` over the entries of the map,
with `m` the address of the local set: `m.Union(v)` writes the object at `m`
and reads the object the entry points to. -/
def scanTableHeap (tf : tagFilter) (p : List Byte) (m : Nat) :
    List (Sigma fun _ : List Byte => Nat) → Heap → HeapRun Unit
  | [], h => .ret h ()
  | kv :: rest, h =>
    if kv.1.length < p.length ∨ kv.1.take p.length ≠ p then
      scanTableHeap tf p m rest h
    else
      match tf.matchSuffix (kv.1.drop p.length) with
      | none => .panic h
      | some false => scanTableHeap tf p m rest h
      | some true => scanTableHeap tf p m rest (h.set m (h.read m ∪ h.read kv.2))

/-- Method `getMetricIDsForTagFilterLocked` over the heap: `var m
uint64set.Set` is a new object (it is returned by address, so it lives on
the heap), at the first free address; the value is that address. -/
def getMetricIDsForTagFilterLockedHeap (iidx : inmemoryInvertedIndexPtr) (tf : tagFilter)
    (commonPrefix : List Byte) (h : Heap) : HeapRun Nat :=
  if ¬ (commonPrefix.isPrefixOf tf.pfx = true) then
    .panic h
  else
    match scanTableHeap tf (tf.pfx.drop commonPrefix.length) h.length iidx.m.entries
        (h ++ [∅]) with
    | .panic h2 => .panic h2
    | .ret h2 _ => .ret h2 h.length

/-- The second loop of `UpdateMetricIDsForTagFilters` over the heap, `result`
being the address of the running result; the value is `false` when the loop
returned from the function early. -/
def applyFiltersHeap (iidx : inmemoryInvertedIndexPtr) (commonPrefix : List Byte)
    (tfFirst : Option Nat) (result : Nat) : List tagFilter → Nat → Heap → HeapRun Bool
  | [], _, h => .ret h true
  | tf :: rest, i, h =>
    if tfFirst = some i then
      applyFiltersHeap iidx commonPrefix tfFirst result rest (i + 1) h
    else
      match getMetricIDsForTagFilterLockedHeap iidx tf commonPrefix h with
      | .panic h2 => .panic h2
      | .ret h2 m =>
        let h3 : Heap := h2.set result
          (if tf.isNegative then h2.read result \ h2.read m else h2.read result ∩ h2.read m)
        if (h3.read result).card = 0 then .ret h3 false
        else applyFiltersHeap iidx commonPrefix tfFirst result rest (i + 1) h3

/-- Method `UpdateMetricIDsForTagFilters` over the heap; `metricIDs` and
`allMetricIDs` are the addresses the caller passes, `none` is the nil
receiver. `Clone` allocates a new object. -/
def UpdateMetricIDsForTagFiltersHeap (iidx : Option inmemoryInvertedIndexPtr)
    (metricIDs allMetricIDs : Nat) (tfs : TagFilters) (h : Heap) : HeapRun Unit :=
  match iidx with
  | none => .ret h ()
  | some iidx =>
    let tfFirst := findFirst tfs.tfs 0
    let seed : HeapRun Nat :=
      match tfFirst with
      | none => .ret (h ++ [h.read allMetricIDs]) h.length
      | some (_, tf) =>
        match getMetricIDsForTagFilterLockedHeap iidx tf tfs.commonPrefix h with
        | .panic h2 => .panic h2
        | .ret h2 result => .ret (h2.set result (h2.read result ∩ h2.read allMetricIDs)) result
    match seed with
    | .panic h2 => .panic h2
    | .ret h2 result =>
      match applyFiltersHeap iidx tfs.commonPrefix (tfFirst.map Prod.fst) result tfs.tfs 0 h2 with
      | .panic h3 => .panic h3
      | .ret h3 false => .ret h3 ()
      | .ret h3 true => .ret (h3.set metricIDs (h3.read metricIDs ∪ h3.read result)) ()

/-! ## Concrete inputs -/

/-- The bytes of `tag1=`. -/
def bytesTag1 : List Byte := [116, 97, 103, 49, 61]

/-- The bytes of `value1`. -/
def bytesValue1 : List Byte := [118, 97, 108, 117, 101, 49]

/-- The bytes of `value2`. -/
def bytesValue2 : List Byte := [118, 97, 108, 117, 101, 50]

/-- The table of the spec's scenario: `tag1=value1` holds `1, 2, 3` and
`tag1=value2` holds `3, 4`; no pending entry. -/
def scenarioIndex : inmemoryInvertedIndex :=
  { m := AList.insert (bytesTag1 ++ bytesValue1) ({1, 2, 3} : Set64)
      (AList.insert (bytesTag1 ++ bytesValue2) ({3, 4} : Set64) ∅)
    pendingEntries := [] }

/-- The positive filter of the scenario: keys `tag1=` followed by `value1` or
`value2`. -/
def scenarioFilter : tagFilter :=
  { pfx := bytesTag1
    isNegative := false
    matchSuffix := fun b => some (b == bytesValue1 || b == bytesValue2) }

/-- A positive filter on `tag1=` that accepts no suffix. -/
def rejectingFilter : tagFilter :=
  { pfx := bytesTag1, isNegative := false, matchSuffix := fun _ => some false }

/-- A positive filter on `tag1=` whose suffix predicate returns an error. -/
def erringFilter : tagFilter :=
  { pfx := bytesTag1, isNegative := false, matchSuffix := fun _ => none }

/-- A resolver for the examples: metric id 1 has the stored name `[1]`, metric
id 2 is not yet available, every other id fails; the stored name `[1]`
decodes to the metric group `[10]` with the one tag `[20] = [21]`; keys are
written with a separator byte `1`. -/
def exampleResolver : Resolver :=
  { searchMetricName := fun metricID _ _ =>
      if metricID = 1 then .found [1] else if metricID = 2 then .eof else .failed
    unmarshalMetricName := fun b =>
      if b = [1] then some { MetricGroup := [10], Tags := [{ Key := [20], Value := [21] }] }
      else none
    marshalTagValue := fun dst src => dst ++ src ++ [1]
    marshalTag := fun tag dst => dst ++ tag.Key ++ [1] ++ tag.Value ++ [1] }

/-- An index with an empty table and three pending entries: one that is not
yet available, one that resolves, and the first once more. -/
def exampleIndex : inmemoryInvertedIndex :=
  { m := ∅
    pendingEntries := [⟨0, 0, 2⟩, ⟨0, 0, 1⟩, ⟨0, 0, 2⟩] }

/-- An index whose third pending entry fails fatally. -/
def exampleIndexFatal : inmemoryInvertedIndex :=
  { m := ∅
    pendingEntries := [⟨0, 0, 2⟩, ⟨0, 0, 1⟩, ⟨0, 0, 3⟩, ⟨0, 0, 1⟩] }

/-- A state with one key holding two ids and one pending entry. -/
def exampleSnapshotState : inmemoryInvertedIndex :=
  { m := AList.insert [1, 2] ({7, 3} : Set64) ∅
    pendingEntries := [⟨1, 2, 3⟩] }

/-- An index that holds one key and one pending entry before `Unmarshal`. -/
def priorIndex : inmemoryInvertedIndex :=
  { m := AList.insert [9] ({100} : Set64) ∅
    pendingEntries := [⟨7, 8, 9⟩] }

/-- A snapshot with two records for the same key `[1, 2]`, the first with the
ids `3, 7` and the second with the id `5`, and no pending entry. -/
def snapshotTwice : List Byte :=
  putUintBE 8 2 ++ (layoutEntry [1, 2] [3, 7] ++ layoutEntry [1, 2] [5]) ++ putUintBE 8 0

/-- An empty table followed by the pending count `2 ^ 60` and nothing else. -/
def snapshotHugePending : List Byte := putUintBE 8 0 ++ putUintBE 8 (2 ^ 60)

/-- An empty table followed by the pending count `2 ^ 64 - 1` and nothing
else. -/
def snapshotNegativePending : List Byte := putUintBE 8 0 ++ putUintBE 8 (2 ^ 64 - 1)

/-- One entry with the empty key and the posting count `2 ^ 61`, and nothing
else. -/
def snapshotHugePostings : List Byte :=
  putUintBE 8 1 ++ (putUintBE 8 0 ++ putUintBE 8 (2 ^ 61))

/-- The table of the scenario with its sets on a heap: the sets of the two
keys at the addresses 0 and 1. -/
def scenarioIndexPtr : inmemoryInvertedIndexPtr :=
  { m := AList.insert (bytesTag1 ++ bytesValue1) 0 (AList.insert (bytesTag1 ++ bytesValue2) 1 ∅)
    pendingEntries := [] }

/-- A heap for the scenario: the two sets of the table, an accumulator
holding `9` at address 2 and the allowed scope at address 3. -/
def scenarioHeap : Heap := [{1, 2, 3}, {3, 4}, {9}, {1, 2, 3, 4, 5}]

/-- A positive filter like the one of the scenario, except that its suffix
predicate returns an error on the empty remainder, which no stored key
has. -/
def partialFilter : tagFilter :=
  { pfx := bytesTag1
    isNegative := false
    matchSuffix := fun b =>
      if b = [] then none else some (b == bytesValue1 || b == bytesValue2) }

/-- A positive filter on `tag1=` that accepts only `value1`. -/
def value1Filter : tagFilter :=
  { pfx := bytesTag1, isNegative := false, matchSuffix := fun b => some (b == bytesValue1) }

/-! # Theorems -/

/-! ## The filter lookup -/

theorem keyGuard_iff (p k : List Byte) :
    ¬ (k.length < p.length ∨ k.take p.length ≠ p) ↔ p <+: k := by
  constructor
  · intro h
    have h2 : k.take p.length = p := by
      by_contra hc
      exact h (Or.inr hc)
    rw [← h2]
    exact List.take_prefix _ _
  · intro h hc
    rcases hc with hc | hc
    · have := h.length_le
      omega
    · exact hc (List.prefix_iff_eq_take.mp h).symm

theorem scanTable_spec (tf : tagFilter) (p : List Byte)
    (es : List (Sigma fun _ : List Byte => Set64))
    (ht : ∀ kv ∈ es, p <+: kv.1 → (tf.matchSuffix (kv.1.drop p.length)).isSome = true) (m : Set64) :
    ∃ s, scanTable tf p es m = .ret s ∧
      ∀ id, id ∈ s ↔ id ∈ m ∨ ∃ kv ∈ es, p <+: kv.1 ∧
        tf.matchSuffix (kv.1.drop p.length) = some true ∧ id ∈ kv.2 := by
  induction es generalizing m with
  | nil => exact ⟨m, rfl, by simp⟩
  | cons kv rest ih =>
    have ihr := fun m => ih (fun kv h => ht kv (List.mem_cons_of_mem _ h)) m
    unfold scanTable
    by_cases hg : kv.1.length < p.length ∨ kv.1.take p.length ≠ p
    · rw [if_pos hg]
      obtain ⟨s, hs, hmem⟩ := ihr m
      refine ⟨s, hs, fun id => ?_⟩
      rw [hmem]
      have hnp : ¬ p <+: kv.1 := fun h => (keyGuard_iff p kv.1).mpr h hg
      simp [hnp]
    · rw [if_neg hg]
      have hp : p <+: kv.1 := (keyGuard_iff p kv.1).mp hg
      have hsome := ht kv (List.mem_cons_self _ _) hp
      cases hm : tf.matchSuffix (kv.1.drop p.length) with
      | none => rw [hm] at hsome; cases hsome
      | some b =>
        cases b with
        | false =>
          obtain ⟨s, hs, hmem⟩ := ihr m
          refine ⟨s, hs, fun id => ?_⟩
          rw [hmem]
          simp [hm]
        | true =>
          obtain ⟨s, hs, hmem⟩ := ihr (m ∪ kv.2)
          refine ⟨s, hs, fun id => ?_⟩
          rw [hmem]
          simp only [Finset.mem_union, List.mem_cons, exists_eq_or_imp, hp, hm, true_and]
          tauto

theorem lookup_spec (iidx : inmemoryInvertedIndex) (c p : List Byte) (tf : tagFilter)
    (hpfx : tf.pfx = c ++ p)
    (ht : ∀ kv ∈ iidx.m.entries, p <+: kv.1 → (tf.matchSuffix (kv.1.drop p.length)).isSome = true) :
    ∃ s, getMetricIDsForTagFilterLocked iidx tf c = .ret s ∧
      ∀ id, id ∈ s ↔ ∃ k v, iidx.m.lookup k = some v ∧ p <+: k ∧
        tf.matchSuffix (k.drop p.length) = some true ∧ id ∈ v := by
  unfold getMetricIDsForTagFilterLocked
  have h1 : c.isPrefixOf tf.pfx = true := by
    rw [List.isPrefixOf_iff_prefix, hpfx]
    exact List.prefix_append _ _
  have h2 : tf.pfx.drop c.length = p := by rw [hpfx, List.drop_left]
  rw [if_neg (by simp [h1]), h2]
  obtain ⟨s, hs, hmem⟩ := scanTable_spec tf p iidx.m.entries ht ∅
  refine ⟨s, hs, fun id => ?_⟩
  rw [hmem]
  constructor
  · rintro (h | ⟨kv, hkv, h3, h4, h5⟩)
    · simp at h
    · refine ⟨kv.1, kv.2, ?_, h3, h4, h5⟩
      exact AList.mem_lookup_iff.mpr hkv
  · rintro ⟨k, v, hl, h3, h4, h5⟩
    exact Or.inr ⟨⟨k, v⟩, AList.mem_lookup_iff.mp hl, h3, h4, h5⟩

/-- C4: for a filter whose `prefix` is the common part `c` followed by `p` and
whose suffix predicate never errors, `getMetricIDsForTagFilterLocked` returns
a set (it does not panic) whose members are exactly the ids found in the
posting set of some stored key that starts with `p` and whose bytes after `p`
the predicate accepts; when no key qualifies the returned set is empty. -/
theorem getMetricIDsForTagFilterLocked_exact (iidx : inmemoryInvertedIndex) (c p : List Byte)
    (tf : tagFilter) (hpfx : tf.pfx = c ++ p) (ht : ∀ b, (tf.matchSuffix b).isSome = true) :
    ∃ s, getMetricIDsForTagFilterLocked iidx tf c = .ret s ∧
      (∀ id, id ∈ s ↔ ∃ k v, iidx.m.lookup k = some v ∧ p <+: k ∧
        tf.matchSuffix (k.drop p.length) = some true ∧ id ∈ v) ∧
      ((∀ k v, iidx.m.lookup k = some v → p <+: k →
        tf.matchSuffix (k.drop p.length) ≠ some true) → s = ∅) := by
  obtain ⟨s, hs, hmem⟩ := lookup_spec iidx c p tf hpfx (fun kv _ _ => ht _)
  refine ⟨s, hs, hmem, fun hno => ?_⟩
  apply Finset.eq_empty_of_forall_not_mem
  intro id hid
  obtain ⟨k, v, hl, h3, h4, _⟩ := (hmem id).mp hid
  exact hno k v hl h3 h4

/-- Witness of `getMetricIDsForTagFilterLocked_exact`: the filter of the
scenario over the table of the scenario. -/
theorem getMetricIDsForTagFilterLocked_exact_witness :
    scenarioFilter.pfx = [] ++ bytesTag1 ∧
    (∀ b, (scenarioFilter.matchSuffix b).isSome = true) ∧
    ∃ s, getMetricIDsForTagFilterLocked scenarioIndex scenarioFilter [] = .ret s ∧
      (∀ id, id ∈ s ↔ ∃ k v, scenarioIndex.m.lookup k = some v ∧ bytesTag1 <+: k ∧
        scenarioFilter.matchSuffix (k.drop bytesTag1.length) = some true ∧ id ∈ v) ∧
      ((∀ k v, scenarioIndex.m.lookup k = some v → bytesTag1 <+: k →
        scenarioFilter.matchSuffix (k.drop bytesTag1.length) ≠ some true) → s = ∅) :=
  ⟨rfl, fun _ => rfl,
    getMetricIDsForTagFilterLocked_exact scenarioIndex [] bytesTag1 scenarioFilter rfl
      (fun _ => rfl)⟩

/-! ## The evaluator -/

theorem lookup_returns (iidx : inmemoryInvertedIndex) (c : List Byte) (tf : tagFilter)
    (hpfx : c <+: tf.pfx) (ht : ∀ b, (tf.matchSuffix b).isSome = true) :
    ∃ s, getMetricIDsForTagFilterLocked iidx tf c = .ret s := by
  obtain ⟨p, hp⟩ := hpfx
  obtain ⟨s, hs, _⟩ := lookup_spec iidx c p tf hp.symm (fun kv _ _ => ht _)
  exact ⟨s, hs⟩

/-- The value of a lookup that returns, the empty set for one that panics. -/
theorem lookup_function (iidx : inmemoryInvertedIndex) (c : List Byte) (tfs : List tagFilter)
    (hpfx : ∀ tf ∈ tfs, c <+: tf.pfx) (ht : ∀ tf ∈ tfs, ∀ b, (tf.matchSuffix b).isSome = true) :
    ∃ L : tagFilter → Set64, ∀ tf ∈ tfs, getMetricIDsForTagFilterLocked iidx tf c = .ret (L tf) := by
  classical
  refine ⟨fun tf => match getMetricIDsForTagFilterLocked iidx tf c with
    | .ret s => s
    | .panic => ∅, fun tf htf => ?_⟩
  obtain ⟨s, hs⟩ := lookup_returns iidx c tf (hpfx tf htf) (ht tf htf)
  simp [hs]

theorem lookup_returns_onKeys (iidx : inmemoryInvertedIndex) (c : List Byte) (tf : tagFilter)
    (hpfx : c <+: tf.pfx) (ht : noErrorOnStoredKeys iidx c tf) :
    ∃ s, getMetricIDsForTagFilterLocked iidx tf c = .ret s := by
  obtain ⟨p, hp⟩ := hpfx
  have hd : tf.pfx.drop c.length = p := by rw [← hp, List.drop_left]
  unfold noErrorOnStoredKeys at ht
  rw [hd] at ht
  obtain ⟨s, hs, _⟩ := lookup_spec iidx c p tf hp.symm ht
  exact ⟨s, hs⟩

/-- A function that gives the value of every lookup that returns. -/
theorem lookup_function_of_returns (iidx : inmemoryInvertedIndex) (c : List Byte)
    (tfs : List tagFilter)
    (h : ∀ tf ∈ tfs, ∃ s, getMetricIDsForTagFilterLocked iidx tf c = .ret s) :
    ∃ L : tagFilter → Set64, ∀ tf ∈ tfs, getMetricIDsForTagFilterLocked iidx tf c = .ret (L tf) := by
  refine ⟨fun tf => match getMetricIDsForTagFilterLocked iidx tf c with
    | .ret s => s
    | .panic => ∅, fun tf htf => ?_⟩
  obtain ⟨s, hs⟩ := h tf htf
  simp [hs]

theorem mem_expectedResult (L : tagFilter → Set64) (A : Set64) (tfs : List tagFilter) (id : Nat) :
    id ∈ expectedResult L A tfs ↔
      id ∈ A ∧ ∀ tf ∈ tfs, (id ∈ L tf ↔ tf.isNegative = false) := by
  have hpos : ∀ l : List tagFilter,
      id ∈ (l.filter (fun tf => !tf.isNegative)).foldr (fun tf r => L tf ∩ r) A ↔
        id ∈ A ∧ ∀ tf ∈ l, tf.isNegative = false → id ∈ L tf := by
    intro l
    induction l with
    | nil => simp
    | cons tf rest ih =>
      cases hn : tf.isNegative
      · simp only [List.filter_cons, hn, Bool.not_false, if_true, List.foldr_cons,
          Finset.mem_inter, ih, List.mem_cons, forall_eq_or_imp, true_implies]
        tauto
      · simp [List.filter_cons, hn, ih]
  have hneg : ∀ l : List tagFilter,
      id ∈ (l.filter (fun tf => tf.isNegative)).foldr (fun tf r => L tf ∪ r) ∅ ↔
        ∃ tf ∈ l, tf.isNegative = true ∧ id ∈ L tf := by
    intro l
    induction l with
    | nil => simp
    | cons tf rest ih =>
      cases hn : tf.isNegative <;> simp [List.filter_cons, hn, ih]
  unfold expectedResult
  rw [Finset.mem_sdiff, hpos, hneg]
  constructor
  · rintro ⟨⟨hA, hp⟩, hn⟩
    refine ⟨hA, fun tf htf => ?_⟩
    cases hneg : tf.isNegative
    · simpa using hp tf htf hneg
    · constructor
      · intro hid
        exact absurd ⟨tf, htf, hneg, hid⟩ hn
      · intro hc
        cases hc
  · rintro ⟨hA, h⟩
    refine ⟨⟨hA, fun tf htf hneg => (h tf htf).mpr hneg⟩, ?_⟩
    rintro ⟨tf, htf, hneg, hid⟩
    have := (h tf htf).mp hid
    rw [hneg] at this
    cases this

theorem applyFilters_spec (iidx : inmemoryInvertedIndex) (c : List Byte) (L : tagFilter → Set64)
    (tfFirst : Option Nat) (tfs : List tagFilter)
    (hL : ∀ tf ∈ tfs, getMetricIDsForTagFilterLocked iidx tf c = .ret (L tf))
    (i : Nat) (result : Set64)
    (hseed : ∀ j tf, tfs[j]? = some tf → tfFirst = some (i + j) →
      tf.isNegative = false ∧ result ⊆ L tf) :
    ∃ o, applyFilters iidx c tfFirst tfs i result = .ret o ∧
      ∀ id, id ∈ o.getD ∅ ↔ id ∈ result ∧ ∀ tf ∈ tfs, (id ∈ L tf ↔ tf.isNegative = false) := by
  induction tfs generalizing i result with
  | nil => exact ⟨some result, rfl, by simp⟩
  | cons tf rest ih =>
    have hLr : ∀ tf ∈ rest, getMetricIDsForTagFilterLocked iidx tf c = .ret (L tf) :=
      fun tf h => hL tf (List.mem_cons_of_mem _ h)
    unfold applyFilters
    by_cases hf : tfFirst = some i
    · rw [if_pos hf]
      obtain ⟨hneg, hsub⟩ := hseed 0 tf (by simp) (by simpa using hf)
      obtain ⟨o, ho, hmem⟩ := ih hLr (i + 1) result (fun j tf2 h1 h2 =>
        hseed (j + 1) tf2 (by simpa using h1) (by rw [h2]; congr 1; omega))
      refine ⟨o, ho, fun id => ?_⟩
      rw [hmem]
      simp only [List.mem_cons, forall_eq_or_imp, hneg, iff_true]
      constructor
      · rintro ⟨h1, h2⟩
        exact ⟨h1, hsub h1, h2⟩
      · rintro ⟨h1, _, h2⟩
        exact ⟨h1, h2⟩
    · rw [if_neg hf, hL tf (List.mem_cons_self _ _)]
      simp only
      have hstep : ∀ id, id ∈ (if tf.isNegative = true then result \ L tf else result ∩ L tf) ↔
          id ∈ result ∧ (id ∈ L tf ↔ tf.isNegative = false) := by
        intro id
        cases hn : tf.isNegative <;> simp
      by_cases hc : (if tf.isNegative = true then result \ L tf else result ∩ L tf).card = 0
      · rw [if_pos hc]
        refine ⟨none, rfl, fun id => ?_⟩
        have hempty := Finset.card_eq_zero.mp hc
        have hnot : ¬ (id ∈ result ∧ (id ∈ L tf ↔ tf.isNegative = false)) := by
          rw [← hstep, hempty]
          simp
        simp only [Option.getD_none, Finset.not_mem_empty, List.mem_cons, forall_eq_or_imp,
          false_iff]
        tauto
      · rw [if_neg hc]
        obtain ⟨o, ho, hmem⟩ := ih hLr (i + 1)
          (if tf.isNegative = true then result \ L tf else result ∩ L tf)
          (fun j tf2 h1 h2 => by
            obtain ⟨h3, h4⟩ := hseed (j + 1) tf2 (by simpa using h1) (by rw [h2]; congr 1; omega)
            refine ⟨h3, fun x hx => h4 ((hstep x).mp hx).1⟩)
        refine ⟨o, ho, fun id => ?_⟩
        rw [hmem, hstep]
        simp only [List.mem_cons, forall_eq_or_imp]
        tauto

theorem findFirst_none (tfs : List tagFilter) (i : Nat) (h : findFirst tfs i = none) :
    ∀ tf ∈ tfs, tf.isNegative = true := by
  induction tfs generalizing i with
  | nil => simp
  | cons tf rest ih =>
    unfold findFirst at h
    cases hn : tf.isNegative
    · simp [hn] at h
    · simp only [hn, if_true] at h
      intro tf2 h2
      rcases List.mem_cons.mp h2 with h3 | h3
      · rw [h3, hn]
      · exact ih (i + 1) h tf2 h3

theorem findFirst_some (tfs : List tagFilter) (i k : Nat) (tf : tagFilter)
    (h : findFirst tfs i = some (k, tf)) :
    ∃ j, k = i + j ∧ tfs[j]? = some tf ∧ tf.isNegative = false := by
  induction tfs generalizing i with
  | nil => simp [findFirst] at h
  | cons tf2 rest ih =>
    unfold findFirst at h
    cases hn : tf2.isNegative
    · simp only [hn, Bool.false_eq_true, if_false, Option.some.injEq, Prod.mk.injEq] at h
      obtain ⟨h1, h2⟩ := h
      exact ⟨0, by omega, by simp [h2], by rw [← h2, hn]⟩
    · simp only [hn, if_true] at h
      obtain ⟨j, h1, h2, h3⟩ := ih (i + 1) h
      exact ⟨j + 1, by omega, by simpa using h2, h3⟩

theorem update_spec (iidx : inmemoryInvertedIndex) (acc A : Set64) (tfs : TagFilters)
    (L : tagFilter → Set64)
    (hL : ∀ tf ∈ tfs.tfs, getMetricIDsForTagFilterLocked iidx tf tfs.commonPrefix = .ret (L tf)) :
    UpdateMetricIDsForTagFilters (some iidx) acc A tfs = .ret (acc ∪ expectedResult L A tfs.tfs) := by
  unfold UpdateMetricIDsForTagFilters
  simp only
  cases hff : findFirst tfs.tfs 0 with
  | none =>
    simp only [Option.map_none']
    obtain ⟨o, ho, hmem⟩ := applyFilters_spec iidx tfs.commonPrefix L none tfs.tfs hL 0 A
      (fun j tf _ h => by cases h)
    rw [ho]
    have hR : o.getD ∅ = expectedResult L A tfs.tfs := by
      ext id
      rw [hmem, mem_expectedResult]
    cases o with
    | none => simp only [Option.getD_none] at hR; rw [← hR]; simp
    | some r => simp only [Option.getD_some] at hR; rw [hR]
  | some kt =>
    obtain ⟨k, tf⟩ := kt
    obtain ⟨j, hk, hj, hneg⟩ := findFirst_some tfs.tfs 0 k tf hff
    have htf : tf ∈ tfs.tfs := List.getElem?_mem hj
    simp only [hL tf htf, Option.map_some']
    obtain ⟨o, ho, hmem⟩ := applyFilters_spec iidx tfs.commonPrefix L (some k) tfs.tfs hL 0
      (L tf ∩ A) (fun j2 tf2 h1 h2 => by
        have hjj : j2 = j := by
          have := Option.some.inj h2
          omega
        rw [hjj, hj] at h1
        have := Option.some.inj h1
        subst this
        exact ⟨hneg, Finset.inter_subset_left⟩)
    rw [ho]
    have hR : o.getD ∅ = expectedResult L A tfs.tfs := by
      ext id
      rw [hmem, mem_expectedResult, Finset.mem_inter]
      constructor
      · rintro ⟨⟨_, h1⟩, h2⟩
        exact ⟨h1, h2⟩
      · rintro ⟨h1, h2⟩
        exact ⟨⟨(h2 tf htf).mpr hneg, h1⟩, h2⟩
    cases o with
    | none => simp only [Option.getD_none] at hR; rw [← hR]; simp
    | some r => simp only [Option.getD_some] at hR; rw [hR]

theorem expectedResult_perm (L : tagFilter → Set64) (A : Set64) (l1 l2 : List tagFilter)
    (h : l1.Perm l2) : expectedResult L A l1 = expectedResult L A l2 := by
  ext id
  rw [mem_expectedResult, mem_expectedResult]
  constructor
  · rintro ⟨h1, h2⟩
    exact ⟨h1, fun tf htf => h2 tf (h.mem_iff.mpr htf)⟩
  · rintro ⟨h1, h2⟩
    exact ⟨h1, fun tf htf => h2 tf (h.mem_iff.mp htf)⟩

/-- The expected result for two positive filters and a negative one. -/
theorem expectedResult_three (L : tagFilter → Set64) (A : Set64) (F1 F2 F3 : tagFilter)
    (h1 : F1.isNegative = false) (h2 : F2.isNegative = false) (h3 : F3.isNegative = true) :
    expectedResult L A [F1, F2, F3] = ((L F1 ∩ L F2) \ L F3) ∩ A := by
  ext id
  rw [mem_expectedResult]
  simp only [List.mem_cons, List.mem_singleton, forall_eq_or_imp, forall_eq, h1, h2, h3,
    Finset.mem_inter, Finset.mem_sdiff, List.not_mem_nil, false_implies, implies_true]
  simp only [Bool.true_eq_false, iff_false, iff_true]
  tauto

/-- C2 (as stated, refuted): the only filter has a `prefix` that begins with
the (empty) common one, yet the call panics on the error of the suffix
predicate, so no accumulator value results. -/
theorem update_result_counterexample :
    (∀ tf ∈ [erringFilter], ([] : List Byte) <+: tf.pfx) ∧
      UpdateMetricIDsForTagFilters (some scenarioIndex) ∅ {1, 2, 3, 4, 5} ⟨[erringFilter], []⟩ =
        Run.panic :=
  ⟨fun _ _ => List.nil_prefix, by decide⟩

/-- C2 (amended): when every filter `prefix` begins with the common one and no
suffix predicate returns an error on a remainder the scan feeds it (the
bytes of a stored key after the filter's own part of the `prefix`), every
lookup returns a set, and after `UpdateMetricIDsForTagFilters` the
accumulator is its previous contents united with the allowed scope
intersected with the lookups of the filters that are not negated, minus the
lookups of the negated ones. -/
theorem update_result (iidx : inmemoryInvertedIndex) (acc A : Set64) (tfs : TagFilters)
    (hpfx : ∀ tf ∈ tfs.tfs, tfs.commonPrefix <+: tf.pfx)
    (ht : ∀ tf ∈ tfs.tfs, noErrorOnStoredKeys iidx tfs.commonPrefix tf) :
    ∃ lookup : tagFilter → Set64,
      (∀ tf ∈ tfs.tfs,
        getMetricIDsForTagFilterLocked iidx tf tfs.commonPrefix = .ret (lookup tf)) ∧
      UpdateMetricIDsForTagFilters (some iidx) acc A tfs =
        .ret (acc ∪ expectedResult lookup A tfs.tfs) := by
  obtain ⟨L, hL⟩ := lookup_function_of_returns iidx tfs.commonPrefix tfs.tfs
    (fun tf htf => lookup_returns_onKeys iidx tfs.commonPrefix tf (hpfx tf htf) (ht tf htf))
  exact ⟨L, hL, update_spec iidx acc A tfs L hL⟩

/-- The scenario of the spec, run: the accumulator ends as `1, 2, 3, 4`. -/
theorem scenario_result :
    UpdateMetricIDsForTagFilters (some scenarioIndex) ∅ {1, 2, 3, 4, 5} ⟨[scenarioFilter], []⟩ =
      .ret {1, 2, 3, 4} := by
  rfl

/-- The scenario with a filter whose predicate errors on the empty remainder
only: no stored key has that remainder, and the accumulator ends as
`1, 2, 3, 4` all the same. -/
theorem scenario_result_partial :
    UpdateMetricIDsForTagFilters (some scenarioIndex) ∅ {1, 2, 3, 4, 5} ⟨[partialFilter], []⟩ =
      .ret {1, 2, 3, 4} := by
  rfl

/-- Witness of `update_result`: the scenario of the spec, with a filter whose
predicate is not total: it errors on the empty remainder, which the scan
never feeds it. -/
theorem update_result_witness :
    (∀ tf ∈ [partialFilter], ([] : List Byte) <+: tf.pfx) ∧
    (∀ tf ∈ [partialFilter], noErrorOnStoredKeys scenarioIndex [] tf) ∧
    partialFilter.matchSuffix [] = none ∧
    ∃ lookup : tagFilter → Set64,
      (∀ tf ∈ [partialFilter],
        getMetricIDsForTagFilterLocked scenarioIndex tf [] = .ret (lookup tf)) ∧
      UpdateMetricIDsForTagFilters (some scenarioIndex) ∅ {1, 2, 3, 4, 5} ⟨[partialFilter], []⟩ =
        .ret (∅ ∪ expectedResult lookup {1, 2, 3, 4, 5} [partialFilter]) :=
  ⟨fun _ _ => List.nil_prefix,
    (by intro tf htf; simp at htf; subst htf; unfold noErrorOnStoredKeys; decide), rfl,
    update_result scenarioIndex ∅ {1, 2, 3, 4, 5} ⟨[partialFilter], []⟩
      (fun _ _ => List.nil_prefix)
      (by intro tf htf; simp at htf; subst htf; unfold noErrorOnStoredKeys; decide)⟩

/-- Two orders of the same three filters: in the first the loop returns early
before it reaches the filter whose predicate errors, in the second it
reaches that filter and panics; the seed and the point of the early return
depend on the order. -/
theorem order_changes_return_to_panic :
    [scenarioFilter, rejectingFilter, erringFilter].Perm
        [scenarioFilter, erringFilter, rejectingFilter] ∧
      UpdateMetricIDsForTagFilters (some scenarioIndex) {9} {1, 2, 3, 4, 5}
          ⟨[scenarioFilter, rejectingFilter, erringFilter], []⟩ = .ret {9} ∧
      UpdateMetricIDsForTagFilters (some scenarioIndex) {9} {1, 2, 3, 4, 5}
          ⟨[scenarioFilter, erringFilter, rejectingFilter], []⟩ = .panic :=
  ⟨List.Perm.cons _ (List.Perm.swap _ _ _), by rfl, by rfl⟩

/-- Over values, a permutation of the filter list does not change what the
evaluator returns when every lookup returns. -/
theorem update_perm_of_lookups (iidx : inmemoryInvertedIndex) (acc A : Set64)
    (c : List Byte) (l1 l2 : List tagFilter) (hperm : l1.Perm l2) (L : tagFilter → Set64)
    (hL : ∀ tf ∈ l1, getMetricIDsForTagFilterLocked iidx tf c = .ret (L tf)) :
    UpdateMetricIDsForTagFilters (some iidx) acc A ⟨l2, c⟩ =
      UpdateMetricIDsForTagFilters (some iidx) acc A ⟨l1, c⟩ := by
  rw [update_spec iidx acc A ⟨l1, c⟩ L hL,
    update_spec iidx acc A ⟨l2, c⟩ L (fun tf htf => hL tf (hperm.mem_iff.mpr htf))]
  exact congrArg (fun r => Run.ret (acc ∪ r)) (expectedResult_perm L A l2 l1 hperm.symm)

/-! ## The drain of the pending list -/

theorem addPendingEntriesLoop_eq_drainList (idb : Resolver) (n i : Nat)
    (entries : List pendingHourMetricIDEntry) (m : Table) (pending : List pendingHourMetricIDEntry)
    (hn : n = entries.length - i) (hp : pending.length ≤ i) :
    addPendingEntriesLoop idb n i entries m pending = drainList idb (entries.drop i) m pending := by
  induction n generalizing i entries m pending with
  | zero =>
    have : entries.drop i = [] := List.drop_eq_nil_of_le (by omega)
    rw [this]
    rfl
  | succ n ih =>
    have hi : i < entries.length := by omega
    have hd : entries.drop i = entries[i] :: entries.drop (i + 1) := List.drop_eq_getElem_cons hi
    rw [hd]
    unfold addPendingEntriesLoop drainList
    rw [List.getElem?_eq_getElem hi]
    simp only
    cases hs : idb.searchMetricName entries[i].MetricID entries[i].AccountID entries[i].ProjectID with
    | eof =>
      simp only
      rw [ih (i + 1) _ m _ (by rw [List.length_set]; omega) (by rw [List.length_append]; simp; omega)]
      rw [List.drop_set_of_lt _ _ (by omega)]
    | failed => rfl
    | found metricName =>
      simp only
      cases hu : idb.unmarshalMetricName metricName with
      | none => rfl
      | some mn =>
        simp only
        rw [ih (i + 1) entries _ pending (by omega) (by omega)]

theorem addPendingEntriesLocked_eq (idb : Resolver) (iidx : inmemoryInvertedIndex) :
    addPendingEntriesLocked idb iidx =
      ({ m := (drainList idb iidx.pendingEntries iidx.m []).1,
         pendingEntries := (drainList idb iidx.pendingEntries iidx.m []).2.1 },
        (drainList idb iidx.pendingEntries iidx.m []).2.2) := by
  unfold addPendingEntriesLocked
  rw [addPendingEntriesLoop_eq_drainList idb _ 0 _ _ _ (by omega) (by simp)]
  rfl

theorem posting_insert (m : Table) (k K : List Byte) (v : Set64) :
    Table.posting (m.insert k v) K = if K = k then v else m.posting K := by
  unfold Table.posting
  by_cases h : K = k
  · subst h
    simp [AList.lookup_insert]
  · simp [AList.lookup_insert_ne h, h]

theorem posting_addMetricIDLocked (m : Table) (k K : List Byte) (id : Nat) :
    (addMetricIDLocked m k id).posting K =
      if K = k then insert id (m.posting K) else m.posting K := by
  unfold addMetricIDLocked
  cases hl : m.lookup k with
  | none =>
    simp only [posting_insert]
    by_cases h : K = k
    · subst h
      simp [Table.posting, hl]
    · simp [h]
  | some v =>
    simp only [posting_insert]
    by_cases h : K = k
    · subst h
      simp [Table.posting, hl]
    · simp [h]

theorem keys_addMetricIDLocked (m : Table) (k K : List Byte) (id : Nat) :
    K ∈ (addMetricIDLocked m k id).keys ↔ K = k ∨ K ∈ m.keys := by
  unfold addMetricIDLocked
  cases hl : m.lookup k <;>
    exact (AList.mem_keys.trans (AList.mem_insert m)).trans (or_congr Iff.rfl AList.mem_keys.symm)

theorem posting_addTags (idb : Resolver) (tags : List Tag) (m : Table) (K : List Byte) (id : Nat) :
    (tags.foldl (fun m tag => addMetricIDLocked m (idb.marshalTag tag []) id) m).posting K =
      if K ∈ tags.map (fun tag => idb.marshalTag tag []) then insert id (m.posting K)
      else m.posting K := by
  induction tags generalizing m with
  | nil => simp
  | cons t rest ih =>
    rw [List.foldl_cons, ih, posting_addMetricIDLocked]
    by_cases h1 : K = idb.marshalTag t [] <;> by_cases h2 : K ∈ rest.map (fun tag => idb.marshalTag tag [])
      <;> simp [h1, h2]

theorem keys_addTags (idb : Resolver) (tags : List Tag) (m : Table) (K : List Byte) (id : Nat) :
    K ∈ (tags.foldl (fun m tag => addMetricIDLocked m (idb.marshalTag tag []) id) m).keys ↔
      K ∈ tags.map (fun tag => idb.marshalTag tag []) ∨ K ∈ m.keys := by
  induction tags generalizing m with
  | nil => simp
  | cons t rest ih =>
    rw [List.foldl_cons, ih, keys_addMetricIDLocked]
    simp only [List.map_cons, List.mem_cons]
    tauto

/-- The table after one resolved entry was indexed. -/
theorem posting_addName (idb : Resolver) (mn : MetricName) (m : Table) (K : List Byte) (id : Nat) :
    (mn.Tags.foldl (fun m tag => addMetricIDLocked m (idb.marshalTag tag []) id)
      (addMetricIDLocked m (idb.marshalTagValue (idb.marshalTagValue [] []) mn.MetricGroup)
        id)).posting K =
      if K ∈ keysOfName idb mn then insert id (m.posting K) else m.posting K := by
  rw [posting_addTags, posting_addMetricIDLocked]
  unfold keysOfName
  by_cases h1 : K = idb.marshalTagValue (idb.marshalTagValue [] []) mn.MetricGroup <;>
    by_cases h2 : K ∈ mn.Tags.map (fun tag => idb.marshalTag tag []) <;> simp [h1, h2]

theorem keys_addName (idb : Resolver) (mn : MetricName) (m : Table) (K : List Byte) (id : Nat) :
    K ∈ (mn.Tags.foldl (fun m tag => addMetricIDLocked m (idb.marshalTag tag []) id)
      (addMetricIDLocked m (idb.marshalTagValue (idb.marshalTagValue [] []) mn.MetricGroup)
        id)).keys ↔ K ∈ keysOfName idb mn ∨ K ∈ m.keys := by
  rw [keys_addTags, keys_addMetricIDLocked]
  unfold keysOfName
  simp only [List.mem_cons]
  tauto

/-- The three ways one entry can go. -/
theorem entry_cases (idb : Resolver) (e : pendingHourMetricIDEntry) :
    (notYetAvailable idb e = true ∧ resolvedName idb e = none ∧ failsFatally idb e = false) ∨
    (∃ mn, resolvedName idb e = some mn ∧ notYetAvailable idb e = false ∧
      failsFatally idb e = false) ∨
    (failsFatally idb e = true ∧ notYetAvailable idb e = false ∧ resolvedName idb e = none) := by
  unfold notYetAvailable resolvedName failsFatally
  cases hs : idb.searchMetricName e.MetricID e.AccountID e.ProjectID with
  | eof => simp
  | failed => simp
  | found metricName =>
    cases hu : idb.unmarshalMetricName metricName <;> simp [hu]

theorem drainList_cons_notYet (idb : Resolver) (e : pendingHourMetricIDEntry)
    (rest : List pendingHourMetricIDEntry) (m : Table) (pending : List pendingHourMetricIDEntry)
    (h : notYetAvailable idb e = true) :
    drainList idb (e :: rest) m pending = drainList idb rest m (pending ++ [e]) := by
  unfold notYetAvailable at h
  rw [drainList]
  cases hs : idb.searchMetricName e.MetricID e.AccountID e.ProjectID <;> simp_all

theorem drainList_cons_resolved (idb : Resolver) (e : pendingHourMetricIDEntry)
    (rest : List pendingHourMetricIDEntry) (m : Table) (pending : List pendingHourMetricIDEntry)
    (mn : MetricName) (h : resolvedName idb e = some mn) :
    drainList idb (e :: rest) m pending =
      drainList idb rest
        (mn.Tags.foldl (fun m tag => addMetricIDLocked m (idb.marshalTag tag []) e.MetricID)
          (addMetricIDLocked m
            (idb.marshalTagValue (idb.marshalTagValue [] []) mn.MetricGroup) e.MetricID))
        pending := by
  unfold resolvedName at h
  rw [drainList]
  cases hs : idb.searchMetricName e.MetricID e.AccountID e.ProjectID with
  | eof => simp [hs] at h
  | failed => simp [hs] at h
  | found metricName =>
    simp only [hs] at h
    simp only [h]

theorem drainList_cons_fatal (idb : Resolver) (e : pendingHourMetricIDEntry)
    (rest : List pendingHourMetricIDEntry) (m : Table) (pending : List pendingHourMetricIDEntry)
    (h : failsFatally idb e = true) :
    ∃ err, drainList idb (e :: rest) m pending = (m, pending, some err) := by
  unfold failsFatally at h
  rw [drainList]
  cases hs : idb.searchMetricName e.MetricID e.AccountID e.ProjectID with
  | eof => simp [hs] at h
  | failed => exact ⟨_, rfl⟩
  | found metricName =>
    simp only [hs] at h
    cases hu : idb.unmarshalMetricName metricName with
    | none => exact ⟨.cannotUnmarshal metricName, by simp only [hu]⟩
    | some mn => simp [hu] at h

theorem drainList_pending (idb : Resolver) (es : List pendingHourMetricIDEntry)
    (h : ∀ e ∈ es, failsFatally idb e = false) (m : Table)
    (pending : List pendingHourMetricIDEntry) :
    (drainList idb es m pending).2 = (pending ++ es.filter (notYetAvailable idb), none) := by
  induction es generalizing m pending with
  | nil => simp [drainList]
  | cons e rest ih =>
    have hr : ∀ e ∈ rest, failsFatally idb e = false := fun e he => h e (List.mem_cons_of_mem _ he)
    have he := h e (List.mem_cons_self _ _)
    rcases entry_cases idb e with ⟨h1, _, _⟩ | ⟨mn, h1, h2, _⟩ | ⟨h1, _, _⟩
    · rw [drainList_cons_notYet idb e rest m pending h1, ih hr, List.filter_cons]
      simp [h1]
    · rw [drainList_cons_resolved idb e rest m pending mn h1, ih hr, List.filter_cons]
      simp [h2]
    · rw [h1] at he
      cases he

theorem drainList_table (idb : Resolver) (es : List pendingHourMetricIDEntry)
    (h : ∀ e ∈ es, failsFatally idb e = false) (m : Table)
    (pending : List pendingHourMetricIDEntry) (K : List Byte) :
    (drainList idb es m pending).1.posting K =
        m.posting K ∪ ((es.filter (yieldsKey idb K)).map (fun e => e.MetricID)).toFinset ∧
      (K ∈ (drainList idb es m pending).1.keys ↔
        K ∈ m.keys ∨ ∃ e ∈ es, yieldsKey idb K e = true) := by
  induction es generalizing m pending with
  | nil => simp [drainList]
  | cons e rest ih =>
    have hr : ∀ e ∈ rest, failsFatally idb e = false := fun e he => h e (List.mem_cons_of_mem _ he)
    have he := h e (List.mem_cons_self _ _)
    rcases entry_cases idb e with ⟨h1, h2, _⟩ | ⟨mn, h1, h2, _⟩ | ⟨h1, _, _⟩
    · have hy : yieldsKey idb K e = false := by simp [yieldsKey, h2]
      obtain ⟨h3, h4⟩ := ih hr m (pending ++ [e])
      rw [drainList_cons_notYet idb e rest m pending h1, h3, h4, List.filter_cons]
      simp [hy]
    · have hy : yieldsKey idb K e = decide (K ∈ keysOfName idb mn) := by simp [yieldsKey, h1]
      rw [drainList_cons_resolved idb e rest m pending mn h1]
      obtain ⟨h3, h4⟩ := ih hr
        (mn.Tags.foldl (fun m tag => addMetricIDLocked m (idb.marshalTag tag []) e.MetricID)
          (addMetricIDLocked m
            (idb.marshalTagValue (idb.marshalTagValue [] []) mn.MetricGroup) e.MetricID)) pending
      rw [h3, h4, posting_addName, keys_addName, List.filter_cons, hy]
      by_cases hK : K ∈ keysOfName idb mn
      · simp only [hK, if_true, decide_True, List.map_cons, List.toFinset_cons, true_or,
          List.mem_cons, exists_eq_or_imp, true_iff]
        constructor
        · ext x
          simp only [Finset.mem_union, Finset.mem_insert]
          tauto
        · simp [hy, hK]
      · simp [hK, hy]
    · rw [h1] at he
      cases he

theorem drainList_append (idb : Resolver) (pre rest : List pendingHourMetricIDEntry)
    (h : ∀ e ∈ pre, failsFatally idb e = false) (m : Table)
    (pending : List pendingHourMetricIDEntry) :
    drainList idb (pre ++ rest) m pending =
      drainList idb rest (drainList idb pre m pending).1 (drainList idb pre m pending).2.1 := by
  induction pre generalizing m pending with
  | nil => simp [drainList]
  | cons e pre ih =>
    have hr : ∀ e ∈ pre, failsFatally idb e = false := fun e he => h e (List.mem_cons_of_mem _ he)
    have he := h e (List.mem_cons_self _ _)
    rw [List.cons_append]
    rcases entry_cases idb e with ⟨h1, _, _⟩ | ⟨mn, h1, _, _⟩ | ⟨h1, _, _⟩
    · rw [drainList_cons_notYet idb e _ m pending h1, drainList_cons_notYet idb e _ m pending h1,
        ih hr]
    · rw [drainList_cons_resolved idb e _ m pending mn h1,
        drainList_cons_resolved idb e _ m pending mn h1, ih hr]
    · rw [h1] at he
      cases he

/-- C5: when no pending entry fails fatally, `addPendingEntriesLocked` returns
no error and leaves as the pending list exactly the original entries the
resolver answered `io.EOF` for, in their original order and multiplicity;
and a later drain, under a resolver that no longer answers `io.EOF` for an
entry, leaves that entry out of the pending list. -/
theorem drain_pending_list (idb : Resolver) (iidx : inmemoryInvertedIndex)
    (h : ∀ e ∈ iidx.pendingEntries, failsFatally idb e = false) :
    (addPendingEntriesLocked idb iidx).2 = none ∧
    (addPendingEntriesLocked idb iidx).1.pendingEntries =
      iidx.pendingEntries.filter (notYetAvailable idb) ∧
    ∀ idb2 : Resolver,
      (∀ e ∈ (addPendingEntriesLocked idb iidx).1.pendingEntries, failsFatally idb2 e = false) →
      ∀ e, notYetAvailable idb2 e = false →
        e ∉ (addPendingEntriesLocked idb2 (addPendingEntriesLocked idb iidx).1).1.pendingEntries := by
  have h1 := drainList_pending idb iidx.pendingEntries h iidx.m []
  rw [addPendingEntriesLocked_eq]
  simp only [h1, List.nil_append, true_and]
  intro idb2 h2 e he
  rw [addPendingEntriesLocked_eq]
  simp only
  rw [drainList_pending idb2 _ h2]
  simp only [List.nil_append, List.mem_filter, not_and]
  intro _ hc
  rw [he] at hc
  cases hc

/-- Witness of `drain_pending_list`: three pending entries, none fatal. -/
theorem drain_pending_list_witness :
    (∀ e ∈ exampleIndex.pendingEntries, failsFatally exampleResolver e = false) ∧
    (addPendingEntriesLocked exampleResolver exampleIndex).2 = none ∧
    (addPendingEntriesLocked exampleResolver exampleIndex).1.pendingEntries =
      exampleIndex.pendingEntries.filter (notYetAvailable exampleResolver) :=
  ⟨by decide,
    (drain_pending_list exampleResolver exampleIndex (by decide)).1,
    (drain_pending_list exampleResolver exampleIndex (by decide)).2.1⟩

/-- C6: when no pending entry fails fatally, after `addPendingEntriesLocked`
the posting set of every key is its previous posting set plus the metric ids
of exactly the pending entries that resolved to a name yielding that key (the
metric-group key and one key per tag), and a key is stored afterwards exactly
when it was stored before or some resolved entry yields it. -/
theorem drain_table (idb : Resolver) (iidx : inmemoryInvertedIndex)
    (h : ∀ e ∈ iidx.pendingEntries, failsFatally idb e = false) (K : List Byte) :
    (addPendingEntriesLocked idb iidx).1.m.posting K =
        iidx.m.posting K ∪
          ((iidx.pendingEntries.filter (yieldsKey idb K)).map (fun e => e.MetricID)).toFinset ∧
      (K ∈ (addPendingEntriesLocked idb iidx).1.m.keys ↔
        K ∈ iidx.m.keys ∨ ∃ e ∈ iidx.pendingEntries, yieldsKey idb K e = true) := by
  rw [addPendingEntriesLocked_eq]
  exact drainList_table idb iidx.pendingEntries h iidx.m [] K

/-- Witness of `drain_table`: the metric-group key `[1, 10, 1]` of the
example. -/
theorem drain_table_witness :
    (∀ e ∈ exampleIndex.pendingEntries, failsFatally exampleResolver e = false) ∧
    (addPendingEntriesLocked exampleResolver exampleIndex).1.m.posting [1, 10, 1] =
        exampleIndex.m.posting [1, 10, 1] ∪
          ((exampleIndex.pendingEntries.filter (yieldsKey exampleResolver [1, 10, 1])).map
            (fun e => e.MetricID)).toFinset :=
  ⟨by decide, (drain_table exampleResolver exampleIndex (by decide) [1, 10, 1]).1⟩

/-- C7: when entry number `i` of the pending list is the first that fails
fatally, `addPendingEntriesLocked` returns an error and the table afterwards
is the table that draining only the entries before `i` produces. -/
theorem drain_fatal (idb : Resolver) (iidx : inmemoryInvertedIndex) (i : Nat)
    (e : pendingHourMetricIDEntry)
    (hpre : ∀ e ∈ iidx.pendingEntries.take i, failsFatally idb e = false)
    (hi : iidx.pendingEntries[i]? = some e) (hf : failsFatally idb e = true) :
    (∃ err, (addPendingEntriesLocked idb iidx).2 = some err) ∧
    (addPendingEntriesLocked idb iidx).1.m =
      (addPendingEntriesLocked idb { iidx with pendingEntries := iidx.pendingEntries.take i }).1.m := by
  have hlt : i < iidx.pendingEntries.length := by
    by_contra hc
    rw [List.getElem?_eq_none (by omega)] at hi
    cases hi
  have hget : iidx.pendingEntries[i] = e := by
    rw [List.getElem?_eq_getElem hlt] at hi
    exact Option.some.inj hi
  have hsplit : iidx.pendingEntries =
      iidx.pendingEntries.take i ++ e :: iidx.pendingEntries.drop (i + 1) := by
    rw [← hget, ← List.drop_eq_getElem_cons hlt, List.take_append_drop]
  obtain ⟨err, herr⟩ := drainList_cons_fatal idb e (iidx.pendingEntries.drop (i + 1))
    (drainList idb (iidx.pendingEntries.take i) iidx.m []).1
    (drainList idb (iidx.pendingEntries.take i) iidx.m []).2.1 hf
  have hall : drainList idb iidx.pendingEntries iidx.m [] =
      ((drainList idb (iidx.pendingEntries.take i) iidx.m []).1,
        (drainList idb (iidx.pendingEntries.take i) iidx.m []).2.1, some err) := by
    conv_lhs => rw [hsplit]
    rw [drainList_append idb _ _ hpre, herr]
  rw [addPendingEntriesLocked_eq, addPendingEntriesLocked_eq, hall]
  exact ⟨⟨err, rfl⟩, rfl⟩

/-- Witness of `drain_fatal`: the third entry is the first to fail. -/
theorem drain_fatal_witness :
    (∀ e ∈ exampleIndexFatal.pendingEntries.take 2, failsFatally exampleResolver e = false) ∧
    exampleIndexFatal.pendingEntries[2]? = some ⟨0, 0, 3⟩ ∧
    failsFatally exampleResolver ⟨0, 0, 3⟩ = true ∧
    (∃ err, (addPendingEntriesLocked exampleResolver exampleIndexFatal).2 = some err) ∧
    (addPendingEntriesLocked exampleResolver exampleIndexFatal).1.m =
      (addPendingEntriesLocked exampleResolver
        { exampleIndexFatal with pendingEntries := exampleIndexFatal.pendingEntries.take 2 }).1.m :=
  ⟨by decide, by decide, by decide,
    drain_fatal exampleResolver exampleIndexFatal 2 ⟨0, 0, 3⟩ (by decide) (by decide) (by decide)⟩

/-! ## Fixed-width integers -/

theorem putUintBE_length (w u : Nat) : (putUintBE w u).length = w := by
  induction w with
  | zero => rfl
  | succ w ih => simp [putUintBE, ih]

theorem foldl_getUint (bs : List Byte) (acc : Nat) :
    bs.foldl (fun acc b => acc * 256 + b.val) acc = acc * 256 ^ bs.length + getUintBE bs := by
  induction bs generalizing acc with
  | nil => simp [getUintBE]
  | cons b rest ih =>
    unfold getUintBE
    rw [List.foldl_cons, List.foldl_cons, ih, ih (0 * 256 + b.val), List.length_cons]
    ring

theorem getUintBE_putUintBE (w u : Nat) : getUintBE (putUintBE w u) = u % 256 ^ w := by
  induction w with
  | zero => simp [putUintBE, getUintBE, Nat.mod_one]
  | succ w ih =>
    unfold putUintBE getUintBE
    rw [List.foldl_cons, foldl_getUint, ih, putUintBE_length, Nat.mod_pow_succ]
    simp only [byteOf]
    ring

theorem getUintBE_lt (bs : List Byte) : getUintBE bs < 256 ^ bs.length := by
  induction bs using List.reverseRecOn with
  | nil => simp [getUintBE]
  | append_singleton l b ih =>
    unfold getUintBE at ih ⊢
    rw [List.foldl_append, List.length_append]
    simp only [List.foldl_cons, List.foldl_nil, List.length_singleton]
    have hb := b.isLt
    rw [pow_succ]
    nlinarith

theorem UnmarshalUint64_put (u : Nat) (rest : List Byte) :
    UnmarshalUint64 (putUintBE 8 u ++ rest) = some (u % 2 ^ 64) := by
  unfold UnmarshalUint64
  rw [if_neg (by simp [putUintBE_length]), List.take_left' (putUintBE_length 8 u),
    getUintBE_putUintBE]
  norm_num

theorem UnmarshalUint32_put (u : Nat) (rest : List Byte) :
    UnmarshalUint32 (putUintBE 4 u ++ rest) = some (u % 2 ^ 32) := by
  unfold UnmarshalUint32
  rw [if_neg (by simp [putUintBE_length]), List.take_left' (putUintBE_length 4 u),
    getUintBE_putUintBE]
  norm_num

theorem drop_put (w u : Nat) (rest : List Byte) : (putUintBE w u ++ rest).drop w = rest :=
  List.drop_left' (putUintBE_length w u)

theorem UnmarshalUint64_short (src : List Byte) (h : src.length < 8) :
    UnmarshalUint64 src = none := by
  unfold UnmarshalUint64
  rw [if_pos h]

theorem UnmarshalUint64_lt (src : List Byte) (u : Nat) (h : UnmarshalUint64 src = some u) :
    u < 2 ^ 64 := by
  unfold UnmarshalUint64 at h
  split at h
  · cases h
  · have := getUintBE_lt (src.take 8)
    rw [List.length_take, Nat.min_eq_left (by omega)] at this
    rw [← Option.some.inj h]
    norm_num at this ⊢
    exact this

theorem int64OfUint64_small (n : Nat) (h : n < 2 ^ 63) : int64OfUint64 n = (n : Int) := by
  unfold int64OfUint64
  have h2 : n % 2 ^ 64 = n := Nat.mod_eq_of_lt (by omega)
  rw [h2, if_pos h]

theorem mulInt64_small (a b : Int) (h0 : 0 ≤ a * b) (h : a * b < 2 ^ 63) :
    mulInt64 a b = a * b := by
  unfold mulInt64
  rw [Int.emod_eq_of_lt (by omega) (by omega)]
  omega

/-! ## Posting sets -/

theorem sortedElems_coe (s : Set64) : (↑s.sortedElems : Multiset Nat) = s.val := by
  rcases s with ⟨⟨l⟩, hl⟩
  exact Quot.sound (List.perm_insertionSort _ l)

theorem mem_sortedElems (s : Set64) (x : Nat) : x ∈ s.sortedElems ↔ x ∈ s := by
  rw [← Multiset.mem_coe, sortedElems_coe]
  rfl

theorem length_sortedElems (s : Set64) : s.sortedElems.length = s.card := by
  rw [← Multiset.coe_card, sortedElems_coe]
  rfl

theorem foldl_insert (l : List Nat) (s : Set64) :
    l.foldl (fun v metricID => insert metricID v) s = s ∪ l.toFinset := by
  induction l generalizing s with
  | nil => simp
  | cons x rest ih =>
    rw [List.foldl_cons, ih]
    ext y
    simp only [Finset.mem_union, Finset.mem_insert, List.toFinset_cons]
    tauto

theorem foldl_insert_sortedElems (s : Set64) :
    s.sortedElems.foldl (fun v metricID => insert metricID v) (∅ : Set64) = s := by
  rw [foldl_insert]
  ext y
  simp [mem_sortedElems]

/-! ## `Marshal` writes the layout of the spec -/

theorem foldl_MarshalUint64 (ids : List Nat) (dst : List Byte) :
    ids.foldl (fun dst metricID => MarshalUint64 dst metricID) dst = dst ++ layoutIDs ids := by
  induction ids generalizing dst with
  | nil => simp [layoutIDs]
  | cons x rest ih =>
    rw [List.foldl_cons, ih]
    simp [MarshalUint64, layoutIDs]

theorem marshalEntry_eq (dst key : List Byte) (v : Set64) :
    marshalMetricIDs (MarshalBytes dst key) (Set64.AppendTo v []) =
      dst ++ layoutEntry key v.sortedElems := by
  unfold marshalMetricIDs MarshalBytes Set64.AppendTo
  rw [foldl_MarshalUint64]
  simp [MarshalUint64, layoutEntry]

theorem foldl_marshalEntries (es : List (Sigma fun _ : List Byte => Set64)) (dst : List Byte) :
    es.foldl (fun dst kv => marshalMetricIDs (MarshalBytes dst kv.1) (Set64.AppendTo kv.2 [])) dst =
      dst ++ layoutEntries es := by
  induction es generalizing dst with
  | nil => simp [layoutEntries]
  | cons kv rest ih =>
    rw [List.foldl_cons, ih, marshalEntry_eq]
    simp [layoutEntries]

theorem foldl_marshalPending (es : List pendingHourMetricIDEntry) (dst : List Byte) :
    es.foldl (fun dst e =>
        MarshalUint64 (MarshalUint32 (MarshalUint32 dst e.AccountID) e.ProjectID) e.MetricID) dst =
      dst ++ layoutPending es := by
  induction es generalizing dst with
  | nil => simp [layoutPending]
  | cons e rest ih =>
    rw [List.foldl_cons, ih]
    simp [MarshalUint64, MarshalUint32, layoutPending]

theorem Marshal_eq (iidx : inmemoryInvertedIndex) (dst : List Byte) :
    Marshal iidx dst = dst ++ layoutSnapshot iidx := by
  unfold Marshal
  simp only
  rw [foldl_marshalPending, foldl_marshalEntries]
  simp only [MarshalUint64, layoutSnapshot, List.append_assoc]

theorem layoutIDs_length (ids : List Nat) : (layoutIDs ids).length = 8 * ids.length := by
  induction ids with
  | nil => rfl
  | cons x rest ih =>
    simp only [layoutIDs, List.length_append, putUintBE_length, ih, List.length_cons]
    omega

theorem layoutPending_length (es : List pendingHourMetricIDEntry) :
    (layoutPending es).length = 16 * es.length := by
  induction es with
  | nil => rfl
  | cons x rest ih =>
    simp only [layoutPending, List.length_append, putUintBE_length, ih, List.length_cons]
    omega

/-! ## Decoding what `Marshal` wrote -/

theorem unmarshalMetricIDsLoop_layout (ids dst : List Nat) (rest : List Byte)
    (h : ∀ id ∈ ids, id < 2 ^ 64) :
    unmarshalMetricIDsLoop ids.length dst (layoutIDs ids ++ rest) = .ret (rest, dst ++ ids) := by
  induction ids generalizing dst with
  | nil => simp [unmarshalMetricIDsLoop, layoutIDs]
  | cons x xs ih =>
    have hx : x % 2 ^ 64 = x := Nat.mod_eq_of_lt (h x (List.mem_cons_self _ _))
    simp only [List.length_cons, unmarshalMetricIDsLoop, layoutIDs, List.append_assoc,
      UnmarshalUint64_put, drop_put, hx]
    rw [ih _ (fun id hid => h id (List.mem_cons_of_mem _ hid))]
    simp

theorem unmarshalMetricIDs_layout (ids : List Nat) (rest : List Byte)
    (hlen : 8 * ids.length < 2 ^ 63) (h : ∀ id ∈ ids, id < 2 ^ 64) :
    unmarshalMetricIDs [] (putUintBE 8 (ids.length % 2 ^ 64) ++ layoutIDs ids ++ rest) =
      .ok (rest, ids) := by
  have hn : ids.length % 2 ^ 64 = ids.length := Nat.mod_eq_of_lt (by omega)
  unfold unmarshalMetricIDs
  rw [if_neg (by simp [putUintBE_length]), List.append_assoc, UnmarshalUint64_put]
  simp only [hn, drop_put]
  rw [int64OfUint64_small _ (by omega), mulInt64_small _ _ (by positivity) (by push_cast; omega)]
  rw [if_neg (by
    simp only [List.length_append, layoutIDs_length]
    push_cast
    omega)]
  rw [Int.toNat_ofNat, unmarshalMetricIDsLoop_layout ids [] rest h]
  simp

theorem UnmarshalBytes_layout (key rest : List Byte) (h : key.length < 2 ^ 64) :
    UnmarshalBytes (putUintBE 8 (key.length % 2 ^ 64) ++ key ++ rest) = (rest, some key) := by
  have hn : key.length % 2 ^ 64 = key.length := Nat.mod_eq_of_lt h
  unfold UnmarshalBytes
  rw [List.append_assoc, UnmarshalUint64_put]
  simp only [hn, drop_put]
  rw [if_neg (by simp)]
  simp

theorem unmarshalEntry_layout (kv : Sigma fun _ : List Byte => Set64) (rest : List Byte)
    (hk : kv.1.length < 2 ^ 63) (hc : 8 * kv.2.card < 2 ^ 63) (hid : ∀ id ∈ kv.2, id < 2 ^ 64)
    (n i : Nat) (m : Table) :
    unmarshalTableLoop (n + 1) i m (layoutEntry kv.1 kv.2.sortedElems ++ rest) =
      unmarshalTableLoop n (i + 1) (m.insert kv.1 kv.2) rest := by
  rw [unmarshalTableLoop]
  have h1 : layoutEntry kv.1 kv.2.sortedElems ++ rest =
      putUintBE 8 (kv.1.length % 2 ^ 64) ++ kv.1 ++
        (putUintBE 8 (kv.2.sortedElems.length % 2 ^ 64) ++ layoutIDs kv.2.sortedElems ++ rest) := by
    simp [layoutEntry]
  rw [h1, UnmarshalBytes_layout _ _ (by omega)]
  simp only
  rw [unmarshalMetricIDs_layout _ _ (by rw [length_sortedElems]; exact hc)
    (fun id h => hid id ((mem_sortedElems _ _).mp h))]
  simp only [foldl_insert_sortedElems]

theorem unmarshalTableLoop_layout (es : List (Sigma fun _ : List Byte => Set64))
    (hes : EntriesOK es) (rest : List Byte) (i : Nat) (m : Table) :
    unmarshalTableLoop es.length i m (layoutEntries es ++ rest) =
      .ok (es.foldl (fun m kv => m.insert kv.1 kv.2) m, rest) := by
  induction es generalizing i m with
  | nil => simp [unmarshalTableLoop, layoutEntries]
  | cons kv es ih =>
    obtain ⟨hk, hc, hid⟩ := hes kv (List.mem_cons_self _ _)
    rw [List.length_cons, layoutEntries, List.append_assoc,
      unmarshalEntry_layout kv _ hk hc hid, ih (fun kv h => hes kv (List.mem_cons_of_mem _ h))]
    simp

theorem unmarshalPendingLoop_layout (es pending : List pendingHourMetricIDEntry)
    (h : ∀ e ∈ es, e.AccountID < 2 ^ 32 ∧ e.ProjectID < 2 ^ 32 ∧ e.MetricID < 2 ^ 64)
    (rest : List Byte) :
    unmarshalPendingLoop es.length pending (layoutPending es ++ rest) =
      .ret (rest, pending ++ es) := by
  induction es generalizing pending with
  | nil => simp [unmarshalPendingLoop, layoutPending]
  | cons e es ih =>
    obtain ⟨h1, h2, h3⟩ := h e (List.mem_cons_self _ _)
    have e1 : e.AccountID % 2 ^ 32 = e.AccountID := Nat.mod_eq_of_lt h1
    have e2 : e.ProjectID % 2 ^ 32 = e.ProjectID := Nat.mod_eq_of_lt h2
    have e3 : e.MetricID % 2 ^ 64 = e.MetricID := Nat.mod_eq_of_lt h3
    simp only [List.length_cons, unmarshalPendingLoop, layoutPending, List.append_assoc,
      UnmarshalUint32_put, UnmarshalUint64_put, drop_put, e1, e2, e3]
    rw [ih _ (fun e he => h e (List.mem_cons_of_mem _ he))]
    simp

theorem lookup_foldl_insert (es : List (Sigma fun _ : List Byte => Set64)) (m : Table)
    (k : List Byte) :
    (es.foldl (fun m kv => m.insert kv.1 kv.2) m).lookup k =
      (es.reverse.dlookup k).orElse (fun _ => m.lookup k) := by
  induction es generalizing m with
  | nil => simp
  | cons kv es ih =>
    obtain ⟨a, b⟩ := kv
    rw [List.foldl_cons, ih, List.reverse_cons]
    simp only
    by_cases hk : k = a
    · subst hk
      rw [AList.lookup_insert]
      cases hd : List.dlookup k es.reverse with
      | none =>
        have : List.dlookup k (es.reverse ++ [⟨k, b⟩]) = some b := by
          rw [List.dlookup_append, hd]
          simp
        rw [this]
        simp
      | some v =>
        have : List.dlookup k (es.reverse ++ [⟨k, b⟩]) = some v := by
          rw [List.dlookup_append, hd]
          simp
        rw [this]
        simp
    · rw [AList.lookup_insert_ne hk]
      have : List.dlookup k (es.reverse ++ [⟨a, b⟩]) = List.dlookup k es.reverse := by
        rw [List.dlookup_append]
        have : List.dlookup k [(⟨a, b⟩ : Sigma fun _ : List Byte => Set64)] = none := by
          exact (List.dlookup_cons_ne [] (⟨a, b⟩ : Sigma fun _ : List Byte => Set64) hk).trans rfl
        rw [this]
        simp
      rw [this]

theorem lookup_foldl_insert_entries (s : Table) (k : List Byte) :
    (s.entries.foldl (fun m kv => m.insert kv.1 kv.2) (∅ : Table)).lookup k = s.lookup k := by
  rw [lookup_foldl_insert]
  have hperm : s.entries.reverse.Perm s.entries := List.reverse_perm _
  have hnd : s.entries.reverse.NodupKeys := (List.perm_nodupKeys hperm).mpr s.nodupKeys
  rw [List.perm_dlookup k hnd s.nodupKeys hperm]
  simp only [AList.lookup_empty]
  cases h : List.dlookup k s.entries <;> simp [AList.lookup, h]

theorem Representable.entriesOK {iidx : inmemoryInvertedIndex} (h : Representable iidx) :
    EntriesOK iidx.m.entries :=
  fun kv hkv => ⟨h.key_lt kv hkv, h.ids_lt kv hkv, h.id_range kv hkv⟩

/-- What `Unmarshal` does, from any prior state, with the bytes `Marshal`
wrote for a representable state. -/
theorem Unmarshal_layout (prior iidx : inmemoryInvertedIndex) (h : Representable iidx)
    (rest : List Byte) :
    Unmarshal prior (layoutSnapshot iidx ++ rest) =
      .ret ({ m := iidx.m.entries.foldl (fun m kv => m.insert kv.1 kv.2) ∅
              pendingEntries := prior.pendingEntries ++ iidx.pendingEntries }, rest, none) := by
  have hn : iidx.m.entries.length % 2 ^ 64 = iidx.m.entries.length :=
    Nat.mod_eq_of_lt (by have := h.entries_lt; omega)
  have hp : iidx.pendingEntries.length % 2 ^ 64 = iidx.pendingEntries.length :=
    Nat.mod_eq_of_lt (by have := h.pending_lt; omega)
  have hsrc : layoutSnapshot iidx ++ rest =
      putUintBE 8 iidx.m.entries.length ++ (layoutEntries iidx.m.entries ++
        (putUintBE 8 iidx.pendingEntries.length ++ (layoutPending iidx.pendingEntries ++ rest))) := by
    simp only [layoutSnapshot, hn, hp, List.append_assoc]
  unfold Unmarshal
  rw [hsrc, if_neg (by simp [putUintBE_length]), UnmarshalUint64_put]
  simp only [hn, drop_put]
  rw [int64OfUint64_small _ h.entries_lt, Int.toNat_ofNat,
    unmarshalTableLoop_layout _ h.entriesOK]
  simp only
  rw [if_neg (by simp [putUintBE_length]), UnmarshalUint64_put]
  simp only [hp, drop_put]
  have hpl := h.pending_lt
  rw [int64OfUint64_small _ (by omega),
    mulInt64_small _ _ (by positivity) (by push_cast; omega)]
  rw [if_neg (by
    simp only [List.length_append, layoutPending_length]
    push_cast
    omega)]
  rw [Int.toNat_ofNat, unmarshalPendingLoop_layout _ _ h.pending_range]

/-- C1: for every representable state and every byte string `rest`,
`Unmarshal` on a fresh empty index, given `Marshal(nil)` of the state followed
by `rest`, returns no error and exactly `rest`, and leaves a table with the
same keys and the same id set per key as the original and a pending list
equal to the original one, in the same order. -/
theorem marshal_unmarshal_roundtrip (iidx : inmemoryInvertedIndex) (h : Representable iidx)
    (rest : List Byte) :
    ∃ s, Unmarshal newInmemoryInvertedIndex (Marshal iidx [] ++ rest) = .ret (s, rest, none) ∧
      (∀ k, s.m.lookup k = iidx.m.lookup k) ∧ s.pendingEntries = iidx.pendingEntries := by
  rw [Marshal_eq, List.nil_append, Unmarshal_layout newInmemoryInvertedIndex iidx h rest]
  exact ⟨_, rfl, fun k => lookup_foldl_insert_entries iidx.m k, by simp [newInmemoryInvertedIndex]⟩

/-- Witness of `marshal_unmarshal_roundtrip`: one key with two ids, one
pending entry, two bytes after the snapshot. -/
theorem marshal_unmarshal_roundtrip_witness :
    Representable exampleSnapshotState ∧
    ∃ s, Unmarshal newInmemoryInvertedIndex (Marshal exampleSnapshotState [] ++ [9, 9]) =
        .ret (s, [9, 9], none) ∧
      (∀ k, s.m.lookup k = exampleSnapshotState.m.lookup k) ∧
      s.pendingEntries = exampleSnapshotState.pendingEntries :=
  ⟨⟨by decide, by decide, by decide, by decide, by decide, by decide⟩,
    marshal_unmarshal_roundtrip exampleSnapshotState
      ⟨by decide, by decide, by decide, by decide, by decide, by decide⟩ [9, 9]⟩

/-! ## The tail `Unmarshal` returns -/

theorem UnmarshalBytes_suffix (src : List Byte) : (UnmarshalBytes src).1 <:+ src := by
  unfold UnmarshalBytes
  cases UnmarshalUint64 src with
  | none => exact List.suffix_refl _
  | some n =>
    simp only
    split
    · exact List.suffix_refl _
    · exact (List.drop_suffix _ _).trans (List.drop_suffix _ _)

theorem unmarshalMetricIDsLoop_suffix (n : Nat) (dst r : List Nat) (src t : List Byte)
    (h : unmarshalMetricIDsLoop n dst src = .ret (t, r)) : t <:+ src := by
  induction n generalizing dst src with
  | zero =>
    simp only [unmarshalMetricIDsLoop, Run.ret.injEq, Prod.mk.injEq] at h
    rw [← h.1]
  | succ n ih =>
    rw [unmarshalMetricIDsLoop] at h
    cases hu : UnmarshalUint64 src with
    | none => simp [hu] at h
    | some id =>
      simp only [hu] at h
      exact (ih _ _ h).trans (List.drop_suffix _ _)

theorem unmarshalMetricIDs_suffix (dst : List Nat) (src : List Byte) :
    (∀ t r, unmarshalMetricIDs dst src = .ok (t, r) → t <:+ src) ∧
    (∀ t e, unmarshalMetricIDs dst src = .error t e → t <:+ src) := by
  unfold unmarshalMetricIDs
  split
  · exact ⟨fun t r h => (by cases h), fun t e h => by
      simp only [Stage.error.injEq] at h
      rw [← h.1]⟩
  · cases hu : UnmarshalUint64 src with
    | none => exact ⟨fun t r h => (by cases h), fun t e h => (by cases h)⟩
    | some u =>
      simp only
      split
      · exact ⟨fun t r h => (by cases h), fun t e h => by
          simp only [Stage.error.injEq] at h
          rw [← h.1]
          exact List.drop_suffix _ _⟩
      · cases hl : unmarshalMetricIDsLoop (int64OfUint64 u).toNat dst (src.drop 8) with
        | panic => exact ⟨fun t r h => (by cases h), fun t e h => (by cases h)⟩
        | ret r =>
          obtain ⟨t2, r2⟩ := r
          refine ⟨fun t r h => ?_, fun t e h => (by cases h)⟩
          simp only [Stage.ok.injEq, Prod.mk.injEq] at h
          rw [← h.1]
          exact (unmarshalMetricIDsLoop_suffix _ _ _ _ _ hl).trans (List.drop_suffix _ _)

theorem unmarshalTableLoop_suffix (n i : Nat) (m : Table) (src : List Byte) :
    (∀ m2 t, unmarshalTableLoop n i m src = .ok (m2, t) → t <:+ src) ∧
    (∀ t e, unmarshalTableLoop n i m src = .error t e → t <:+ src) := by
  induction n generalizing i m src with
  | zero =>
    refine ⟨fun m2 t h => ?_, fun t e h => by simp [unmarshalTableLoop] at h⟩
    simp only [unmarshalTableLoop, Stage.ok.injEq, Prod.mk.injEq] at h
    rw [← h.2]
  | succ n ih =>
    rw [unmarshalTableLoop]
    have hb1 := UnmarshalBytes_suffix src
    rcases hb : UnmarshalBytes src with ⟨t1, _ | k⟩
    · rw [hb] at hb1
      refine ⟨fun m2 t h => (by cases h), fun t e h => ?_⟩
      simp only [Stage.error.injEq] at h
      rw [← h.1]
      exact hb1
    · rw [hb] at hb1
      simp only
      have hm1 := unmarshalMetricIDs_suffix [] t1
      cases hm : unmarshalMetricIDs [] t1 with
      | panic => exact ⟨fun m2 t h => (by cases h), fun t e h => (by cases h)⟩
      | error t e =>
        refine ⟨fun m2 t h => (by cases h), fun t2 e2 h => ?_⟩
        simp only [Stage.error.injEq] at h
        rw [← h.1]
        exact (hm1.2 t e hm).trans hb1
      | ok r =>
        obtain ⟨t2, ids⟩ := r
        simp only
        have h2 := (hm1.1 t2 ids hm).trans hb1
        exact ⟨fun m2 t h => ((ih _ _ _).1 m2 t h).trans h2,
          fun t e h => ((ih _ _ _).2 t e h).trans h2⟩

theorem unmarshalPendingLoop_suffix (n : Nat) (pending r : List pendingHourMetricIDEntry)
    (src t : List Byte) (h : unmarshalPendingLoop n pending src = .ret (t, r)) : t <:+ src := by
  induction n generalizing pending src with
  | zero =>
    simp only [unmarshalPendingLoop, Run.ret.injEq, Prod.mk.injEq] at h
    rw [← h.1]
  | succ n ih =>
    rw [unmarshalPendingLoop] at h
    split at h
    · cases h
    · split at h
      · cases h
      · split at h
        · cases h
        · exact (ih _ _ h).trans (((List.drop_suffix _ _).trans (List.drop_suffix _ _)).trans
            (List.drop_suffix _ _))

/-- Whatever `Unmarshal` returns as the tail is a suffix of its input. -/
theorem Unmarshal_suffix (prior s : inmemoryInvertedIndex) (src tail : List Byte)
    (e : Option UnmarshalError) (h : Unmarshal prior src = .ret (s, tail, e)) : tail <:+ src := by
  unfold Unmarshal at h
  split at h
  · simp only [Run.ret.injEq, Prod.mk.injEq] at h
    rw [← h.2.1]
  · cases hu : UnmarshalUint64 src with
    | none => simp [hu] at h
    | some u =>
      simp only [hu] at h
      have hts := unmarshalTableLoop_suffix (int64OfUint64 u).toNat 0 ∅ (src.drop 8)
      cases ht : unmarshalTableLoop (int64OfUint64 u).toNat 0 ∅ (src.drop 8) with
      | panic => simp [ht] at h
      | error t e2 =>
        simp only [ht, Run.ret.injEq, Prod.mk.injEq] at h
        rw [← h.2.1]
        exact (hts.2 t e2 ht).trans (List.drop_suffix _ _)
      | ok r =>
        obtain ⟨m, t1⟩ := r
        have h1 : t1 <:+ src := (hts.1 m t1 ht).trans (List.drop_suffix _ _)
        simp only [ht] at h
        split at h
        · simp only [Run.ret.injEq, Prod.mk.injEq] at h
          rw [← h.2.1]
          exact h1
        · cases hv : UnmarshalUint64 t1 with
          | none => simp [hv] at h
          | some v =>
            simp only [hv] at h
            split at h
            · simp only [Run.ret.injEq, Prod.mk.injEq] at h
              rw [← h.2.1]
              exact (List.drop_suffix _ _).trans h1
            · cases hp : unmarshalPendingLoop (int64OfUint64 v).toNat prior.pendingEntries
                  (t1.drop 8) with
              | panic => simp [hp] at h
              | ret r =>
                obtain ⟨t2, pending⟩ := r
                simp only [hp, Run.ret.injEq, Prod.mk.injEq] at h
                rw [← h.2.1]
                exact ((unmarshalPendingLoop_suffix _ _ _ _ _ hp).trans
                  (List.drop_suffix _ _)).trans h1

/-! ## Counts that overflow -/

/-- C9 (the code at the failing inputs): a pending count of `2 ^ 60` with no
record after it passes the length check, because `16 * 2 ^ 60` wraps to `0`,
and the loop then reads past the end of the input, a panic; so does a posting
count of `2 ^ 61`; a pending count of `2 ^ 64 - 1` converts to `-1` and
`Unmarshal` returns without an error. -/
theorem unmarshal_overflowing_count :
    Unmarshal newInmemoryInvertedIndex snapshotHugePending = .panic ∧
    Unmarshal newInmemoryInvertedIndex snapshotHugePostings = .panic ∧
    Unmarshal newInmemoryInvertedIndex snapshotNegativePending =
      .ret (newInmemoryInvertedIndex, [], none) :=
  ⟨by rfl, by rfl, by rfl⟩

/-! ## `Unmarshal` replaces the table -/

theorem unmarshalTableLoop_decoded (n i : Nat) (m m2 : Table) (src tail : List Byte)
    (h : unmarshalTableLoop n i m src = .ok (m2, tail)) :
    ∃ es, decodedEntries n src = some (es, tail) ∧
      m2 = es.foldl (fun m e => m.insert e.1 e.2.toFinset) m := by
  induction n generalizing i m src with
  | zero =>
    simp only [unmarshalTableLoop, Stage.ok.injEq, Prod.mk.injEq] at h
    exact ⟨[], by simp [decodedEntries, h.2], by simp [h.1]⟩
  | succ n ih =>
    rw [unmarshalTableLoop] at h
    rw [decodedEntries]
    rcases hb : UnmarshalBytes src with ⟨t1, _ | k⟩
    · simp [hb] at h
    · simp only [hb] at h ⊢
      cases hm : unmarshalMetricIDs [] t1 with
      | panic => simp [hm] at h
      | error t e => simp [hm] at h
      | ok r =>
        obtain ⟨t2, ids⟩ := r
        simp only [hm] at h ⊢
        obtain ⟨es, h1, h2⟩ := ih _ _ _ h
        refine ⟨(k, ids) :: es, by simp [h1], ?_⟩
        rw [h2, List.foldl_cons, foldl_insert]
        simp

theorem lookup_foldl_decoded (es : List (List Byte × List Nat)) (m : Table) (k : List Byte) :
    (es.foldl (fun m e => m.insert e.1 e.2.toFinset) m).lookup k =
      (lastDecoded es k).orElse (fun _ => m.lookup k) := by
  unfold lastDecoded
  induction es generalizing m with
  | nil => simp
  | cons e es ih =>
    rw [List.foldl_cons, ih, List.reverse_cons, List.find?_append]
    by_cases hk : k = e.1
    · subst hk
      rw [AList.lookup_insert]
      cases List.find? (fun e2 => decide (e2.1 = e.1)) es.reverse <;> simp
    · rw [AList.lookup_insert_ne hk]
      have : List.find? (fun e2 => decide (e2.1 = k)) [e] = none := by
        simp [List.find?, Ne.symm hk]
      rw [this]
      simp

/-- How a call of `Unmarshal` that returns no error got there. -/
theorem Unmarshal_ok (prior s : inmemoryInvertedIndex) (src rest : List Byte)
    (h : Unmarshal prior src = .ret (s, rest, none)) :
    ∃ u m tail v pending,
      UnmarshalUint64 src = some u ∧
      unmarshalTableLoop (int64OfUint64 u).toNat 0 ∅ (src.drop 8) = .ok (m, tail) ∧
      UnmarshalUint64 tail = some v ∧
      unmarshalPendingLoop (int64OfUint64 v).toNat prior.pendingEntries (tail.drop 8) =
        .ret (rest, pending) ∧
      s = { m := m, pendingEntries := pending } := by
  unfold Unmarshal at h
  split at h
  · simp at h
  · cases hu : UnmarshalUint64 src with
    | none => simp [hu] at h
    | some u =>
      simp only [hu] at h
      cases ht : unmarshalTableLoop (int64OfUint64 u).toNat 0 ∅ (src.drop 8) with
      | panic => simp [ht] at h
      | error t e => simp [ht] at h
      | ok r =>
        obtain ⟨m, tail⟩ := r
        simp only [ht] at h
        split at h
        · simp at h
        · cases hv : UnmarshalUint64 tail with
          | none => simp [hv] at h
          | some v =>
            simp only [hv] at h
            split at h
            · simp at h
            · cases hp : unmarshalPendingLoop (int64OfUint64 v).toNat prior.pendingEntries
                  (tail.drop 8) with
              | panic => simp [hp] at h
              | ret r =>
                obtain ⟨rest2, pending⟩ := r
                simp only [hp, Run.ret.injEq, Prod.mk.injEq, and_true] at h
                refine ⟨u, m, tail, v, pending, rfl, ht, hv, ?_, h.1.symm⟩
                rw [hp, h.2]

/-- C10: whenever `Unmarshal` returns no error, from whatever prior state,
the table afterwards holds exactly the keys of the records decoded from the
input, each with the metric ids of its last record; nothing of the prior
table is kept. -/
theorem unmarshal_replaces_table (prior s : inmemoryInvertedIndex) (src rest : List Byte)
    (h : Unmarshal prior src = .ret (s, rest, none)) :
    ∃ u es tail,
      UnmarshalUint64 src = some u ∧
      decodedEntries (int64OfUint64 u).toNat (src.drop 8) = some (es, tail) ∧
      ∀ k, s.m.lookup k = lastDecoded es k := by
  obtain ⟨u, m, tail, v, pending, hu, ht, _, _, hs⟩ := Unmarshal_ok prior s src rest h
  obtain ⟨es, h1, h2⟩ := unmarshalTableLoop_decoded _ _ _ _ _ _ ht
  refine ⟨u, es, tail, hu, h1, fun k => ?_⟩
  rw [hs, h2, lookup_foldl_decoded]
  simp

/-- Witness of `unmarshal_replaces_table`: a snapshot with two records for one
key, read into an index that held another key. -/
theorem unmarshal_replaces_table_witness :
    Unmarshal priorIndex snapshotTwice =
        .ret ({ m := AList.insert [1, 2] ({5} : Set64) ∅, pendingEntries := [⟨7, 8, 9⟩] },
          [], none) ∧
    ∃ u es tail,
      UnmarshalUint64 snapshotTwice = some u ∧
      decodedEntries (int64OfUint64 u).toNat (snapshotTwice.drop 8) = some (es, tail) ∧
      ∀ k, (AList.insert [1, 2] ({5} : Set64) ∅ : Table).lookup k = lastDecoded es k :=
  ⟨by rfl, unmarshal_replaces_table priorIndex
    { m := AList.insert [1, 2] ({5} : Set64) ∅, pendingEntries := [⟨7, 8, 9⟩] }
    snapshotTwice [] (by rfl)⟩

/-! ## Truncated snapshots -/

theorem split_prefix (q A B : List Byte) (h : q <+: A ++ B) (hl : A.length ≤ q.length) :
    ∃ q2, q = A ++ q2 ∧ q2 <+: B := by
  obtain ⟨q2, hq⟩ := List.prefix_of_prefix_length_le (List.prefix_append A B) h hl
  subst hq
  exact ⟨q2, rfl, (List.prefix_append_right_inj A).mp h⟩

theorem UnmarshalBytes_truncated (key B q : List Byte)
    (hq : q <+: putUintBE 8 (key.length % 2 ^ 64) ++ key ++ B)
    (hlen : q.length < 8 + key.length) (hk : key.length < 2 ^ 64) :
    UnmarshalBytes q = (q, none) := by
  unfold UnmarshalBytes
  by_cases h8 : q.length < 8
  · rw [UnmarshalUint64_short q h8]
  · rw [List.append_assoc] at hq
    obtain ⟨q2, hq2, _⟩ := split_prefix q _ _ hq (by rw [putUintBE_length]; omega)
    have hl2 : q2.length < key.length := by
      have := congrArg List.length hq2
      rw [List.length_append, putUintBE_length] at this
      omega
    rw [hq2, UnmarshalUint64_put]
    simp only [drop_put, Nat.mod_mod]
    rw [Nat.mod_eq_of_lt hk, if_pos hl2]

theorem unmarshalMetricIDs_truncated (ids : List Nat) (B q : List Byte)
    (hq : q <+: putUintBE 8 (ids.length % 2 ^ 64) ++ layoutIDs ids ++ B)
    (hlen : q.length < 8 + 8 * ids.length) (h8n : 8 * ids.length < 2 ^ 63) :
    ∃ t e, unmarshalMetricIDs [] q = .error t e := by
  unfold unmarshalMetricIDs
  by_cases h8 : q.length < 8
  · rw [if_pos h8]
    exact ⟨_, _, rfl⟩
  · rw [if_neg h8]
    rw [List.append_assoc] at hq
    obtain ⟨q2, hq2, _⟩ := split_prefix q _ _ hq (by rw [putUintBE_length]; omega)
    have hl2 : q2.length < 8 * ids.length := by
      have := congrArg List.length hq2
      rw [List.length_append, putUintBE_length] at this
      omega
    have hn : ids.length % 2 ^ 64 = ids.length := Nat.mod_eq_of_lt (by omega)
    rw [hq2, UnmarshalUint64_put]
    simp only [drop_put, Nat.mod_mod]
    rw [hn, int64OfUint64_small _ (by omega),
      mulInt64_small _ _ (by positivity) (by push_cast; omega)]
    rw [if_pos (by omega)]
    exact ⟨_, _, rfl⟩

theorem layoutEntry_length (key : List Byte) (ids : List Nat) :
    (layoutEntry key ids).length = 8 + key.length + (8 + 8 * ids.length) := by
  simp only [layoutEntry, List.length_append, putUintBE_length, layoutIDs_length]

theorem unmarshalEntry_truncated (kv : Sigma fun _ : List Byte => Set64) (B q : List Byte)
    (hk : kv.1.length < 2 ^ 63) (hc : 8 * kv.2.card < 2 ^ 63)
    (hq : q <+: layoutEntry kv.1 kv.2.sortedElems ++ B)
    (hlen : q.length < (layoutEntry kv.1 kv.2.sortedElems).length) (n i : Nat) (m : Table) :
    ∃ t e, unmarshalTableLoop (n + 1) i m q = .error t e := by
  rw [layoutEntry_length, length_sortedElems] at hlen
  rw [unmarshalTableLoop]
  have hq1 : q <+: putUintBE 8 (kv.1.length % 2 ^ 64) ++ kv.1 ++
      (putUintBE 8 (kv.2.sortedElems.length % 2 ^ 64) ++ layoutIDs kv.2.sortedElems ++ B) := by
    simpa [layoutEntry] using hq
  by_cases h1 : q.length < 8 + kv.1.length
  · rw [UnmarshalBytes_truncated kv.1 _ q hq1 h1 (by omega)]
    exact ⟨_, _, rfl⟩
  · obtain ⟨q2, hq2, hq3⟩ := split_prefix q _ _ hq1
      (by rw [List.length_append, putUintBE_length]; omega)
    have hl2 : q2.length < 8 + 8 * kv.2.sortedElems.length := by
      have := congrArg List.length hq2
      rw [List.length_append, List.length_append, putUintBE_length] at this
      rw [length_sortedElems]
      omega
    rw [hq2, UnmarshalBytes_layout _ _ (by omega)]
    simp only
    obtain ⟨t, e, he⟩ := unmarshalMetricIDs_truncated _ B q2 hq3 hl2
      (by rw [length_sortedElems]; exact hc)
    rw [he]
    exact ⟨_, _, rfl⟩

theorem unmarshalTableLoop_truncated (es : List (Sigma fun _ : List Byte => Set64))
    (hes : EntriesOK es) (B q : List Byte) (hq : q <+: layoutEntries es ++ B)
    (hlen : q.length < (layoutEntries es).length) (i : Nat) (m : Table) :
    ∃ t e, unmarshalTableLoop es.length i m q = .error t e := by
  induction es generalizing q i m with
  | nil => simp [layoutEntries] at hlen
  | cons kv es ih =>
    obtain ⟨hk, hc, hid⟩ := hes kv (List.mem_cons_self _ _)
    rw [layoutEntries, List.append_assoc] at hq
    rw [layoutEntries, List.length_append] at hlen
    rw [List.length_cons]
    by_cases h1 : q.length < (layoutEntry kv.1 kv.2.sortedElems).length
    · exact unmarshalEntry_truncated kv _ q hk hc hq h1 _ i m
    · obtain ⟨q2, hq2, hq3⟩ := split_prefix q _ _ hq (by omega)
      have hl2 : q2.length < (layoutEntries es).length := by
        have := congrArg List.length hq2
        rw [List.length_append] at this
        omega
      rw [hq2, unmarshalEntry_layout kv q2 hk hc hid]
      exact ih (fun kv h => hes kv (List.mem_cons_of_mem _ h)) q2 hq3 hl2 _ _

theorem Unmarshal_truncated (prior iidx : inmemoryInvertedIndex) (h : Representable iidx)
    (p : List Byte) (hp : p <+: layoutSnapshot iidx)
    (hlen : p.length < (layoutSnapshot iidx).length) :
    ∃ s t e, Unmarshal prior p = .ret (s, t, some e) := by
  have hn : iidx.m.entries.length % 2 ^ 64 = iidx.m.entries.length :=
    Nat.mod_eq_of_lt (by have := h.entries_lt; omega)
  have hpn : iidx.pendingEntries.length % 2 ^ 64 = iidx.pendingEntries.length :=
    Nat.mod_eq_of_lt (by have := h.pending_lt; omega)
  have hpl := h.pending_lt
  unfold layoutSnapshot at hp hlen
  rw [hn, hpn] at hp hlen
  rw [List.append_assoc] at hp
  simp only [List.length_append, putUintBE_length, layoutPending_length] at hlen
  unfold Unmarshal
  by_cases h8 : p.length < 8
  · rw [if_pos h8]
    exact ⟨_, _, _, rfl⟩
  · rw [if_neg h8]
    obtain ⟨q, hq, hq1⟩ := split_prefix p _ _ hp (by rw [putUintBE_length]; omega)
    have hlq : p.length = 8 + q.length := by
      rw [hq, List.length_append, putUintBE_length]
    rw [hq, UnmarshalUint64_put]
    simp only [drop_put, hn]
    rw [int64OfUint64_small _ h.entries_lt, Int.toNat_ofNat]
    by_cases h2 : q.length < (layoutEntries iidx.m.entries).length
    · obtain ⟨t, e, he⟩ := unmarshalTableLoop_truncated _ h.entriesOK _ q hq1 h2 0 ∅
      rw [he]
      exact ⟨_, _, _, rfl⟩
    · obtain ⟨q2, hq2, hq3⟩ := split_prefix q _ _ hq1 (by omega)
      have hlq2 : q.length = (layoutEntries iidx.m.entries).length + q2.length := by
        rw [hq2, List.length_append]
      rw [hq2, unmarshalTableLoop_layout _ h.entriesOK]
      simp only
      by_cases h3 : q2.length < 8
      · rw [if_pos h3]
        exact ⟨_, _, _, rfl⟩
      · rw [if_neg h3]
        obtain ⟨q3, hq4, _⟩ := split_prefix q2 _ _ hq3 (by rw [putUintBE_length]; omega)
        have hlq3 : q2.length = 8 + q3.length := by
          rw [hq4, List.length_append, putUintBE_length]
        rw [hq4, UnmarshalUint64_put]
        simp only [drop_put, hpn]
        rw [int64OfUint64_small _ (by omega),
          mulInt64_small _ _ (by positivity) (by push_cast; omega)]
        rw [if_pos (by omega)]
        exact ⟨_, _, _, rfl⟩

/-- C8: for every representable state, every proper prefix `p` of the bytes
`Marshal(nil)` produces for it (the empty string included), and whatever the
index held before, `Unmarshal(p)` returns an error, and the tail it returns
with the error is a suffix of `p`. -/
theorem truncated_snapshot_rejected (prior iidx : inmemoryInvertedIndex) (h : Representable iidx)
    (p : List Byte) (hp : p <+: Marshal iidx []) (hne : p ≠ Marshal iidx []) :
    ∃ s tail e, Unmarshal prior p = .ret (s, tail, some e) ∧ tail <:+ p := by
  rw [Marshal_eq, List.nil_append] at hp hne
  have hlen : p.length < (layoutSnapshot iidx).length := by
    rcases Nat.lt_or_ge p.length (layoutSnapshot iidx).length with hl | hl
    · exact hl
    · exact absurd (hp.eq_of_length (Nat.le_antisymm hp.length_le hl)) hne
  obtain ⟨s, t, e, he⟩ := Unmarshal_truncated prior iidx h p hp hlen
  exact ⟨s, t, e, he, Unmarshal_suffix prior s p t (some e) he⟩

/-- Witness of `truncated_snapshot_rejected`: the first twenty bytes of a
snapshot, which end inside the posting count of its only entry. -/
theorem truncated_snapshot_rejected_witness :
    Representable exampleSnapshotState ∧
    (Marshal exampleSnapshotState []).take 20 <+: Marshal exampleSnapshotState [] ∧
    (Marshal exampleSnapshotState []).take 20 ≠ Marshal exampleSnapshotState [] ∧
    ∃ s tail e,
      Unmarshal priorIndex ((Marshal exampleSnapshotState []).take 20) =
        .ret (s, tail, some e) ∧
      tail <:+ (Marshal exampleSnapshotState []).take 20 :=
  ⟨⟨by decide, by decide, by decide, by decide, by decide, by decide⟩, by decide, by decide,
    truncated_snapshot_rejected priorIndex exampleSnapshotState
      ⟨by decide, by decide, by decide, by decide, by decide, by decide⟩ _ (by decide)
      (by decide)⟩

/-! ## `addMetricIDLocked` -/

theorem lookup_addMetricIDLocked_ne (m : Table) (k K : List Byte) (id : Nat) (h : K ≠ k) :
    (addMetricIDLocked m k id).lookup K = m.lookup K := by
  unfold addMetricIDLocked
  cases hl : m.lookup k <;> exact AList.lookup_insert_ne h

theorem lookup_addMetricIDLocked_self (m : Table) (k : List Byte) (id : Nat) :
    (addMetricIDLocked m k id).lookup k = some (insert id (m.posting k)) := by
  unfold addMetricIDLocked Table.posting
  cases hl : m.lookup k <;> simp [AList.lookup_insert]

theorem addMetricIDLocked_eq_insert (m : Table) (k : List Byte) (id : Nat) :
    addMetricIDLocked m k id = m.insert k (insert id (m.posting k)) := by
  unfold addMetricIDLocked Table.posting
  cases hl : m.lookup k <;> simp

theorem addMetricIDLocked_twice (m : Table) (k : List Byte) (id : Nat) :
    addMetricIDLocked (addMetricIDLocked m k id) k id = addMetricIDLocked m k id := by
  rw [addMetricIDLocked_eq_insert (addMetricIDLocked m k id), addMetricIDLocked_eq_insert m,
    posting_insert, if_pos rfl, AList.insert_insert, Finset.insert_idem]

/-- C12: after `addMetricIDLocked(key, id)` the key is stored and its posting
set is its previous set (empty when the key was absent) with `id` added; what
is stored under every other key is unchanged; and a second
`addMetricIDLocked(key, id)` leaves the table as the first one left it. -/
theorem addMetricIDLocked_idempotent_local (m : Table) (key : List Byte) (id : Nat) :
    (addMetricIDLocked m key id).lookup key = some (insert id (m.posting key)) ∧
    (∀ K, K ≠ key → (addMetricIDLocked m key id).lookup K = m.lookup K) ∧
    addMetricIDLocked (addMetricIDLocked m key id) key id = addMetricIDLocked m key id :=
  ⟨lookup_addMetricIDLocked_self m key id,
    fun K h => lookup_addMetricIDLocked_ne m key K id h,
    addMetricIDLocked_twice m key id⟩

/-! ## The fatal failure of the filter lookup -/

theorem lookup_panics (iidx : inmemoryInvertedIndex) (c : List Byte) (tf : tagFilter)
    (h : ¬ c <+: tf.pfx) : getMetricIDsForTagFilterLocked iidx tf c = .panic := by
  unfold getMetricIDsForTagFilterLocked
  rw [if_pos (by rw [List.isPrefixOf_iff_prefix]; exact h)]

/-- C13: for every table and common part `c`, `getMetricIDsForTagFilterLocked`
panics, returning no set, on a filter whose `prefix` does not begin with `c`;
on a filter whose `prefix` begins with `c` and whose suffix predicate never
errors it returns a set. -/
theorem getMetricIDsForTagFilterLocked_fatal (iidx : inmemoryInvertedIndex) (c : List Byte)
    (tf : tagFilter) :
    (¬ c <+: tf.pfx → getMetricIDsForTagFilterLocked iidx tf c = .panic) ∧
    (c <+: tf.pfx → (∀ b, (tf.matchSuffix b).isSome = true) →
      ∃ s, getMetricIDsForTagFilterLocked iidx tf c = .ret s) :=
  ⟨lookup_panics iidx c tf, lookup_returns iidx c tf⟩

/-- Witness of `getMetricIDsForTagFilterLocked_fatal`: the filter of the
scenario, on the empty table with a common part it does not begin with, and
on the table of the scenario with the empty common part. -/
theorem getMetricIDsForTagFilterLocked_fatal_witness :
    ¬ ([9] : List Byte) <+: scenarioFilter.pfx ∧
    getMetricIDsForTagFilterLocked newInmemoryInvertedIndex scenarioFilter [9] = .panic ∧
    ([] : List Byte) <+: scenarioFilter.pfx ∧
    (∀ b, (scenarioFilter.matchSuffix b).isSome = true) ∧
    ∃ s, getMetricIDsForTagFilterLocked scenarioIndex scenarioFilter [] = .ret s :=
  ⟨by decide,
    (getMetricIDsForTagFilterLocked_fatal newInmemoryInvertedIndex [9] scenarioFilter).1
      (by decide),
    List.nil_prefix, fun _ => rfl,
    (getMetricIDsForTagFilterLocked_fatal scenarioIndex [] scenarioFilter).2 List.nil_prefix
      (fun _ => rfl)⟩

/-! ## The pending list after an aborted drain -/

theorem drainList_first_fatal (idb : Resolver) (es : List pendingHourMetricIDEntry) (i : Nat)
    (e : pendingHourMetricIDEntry)
    (hpre : ∀ e ∈ es.take i, failsFatally idb e = false)
    (hi : es[i]? = some e) (hf : failsFatally idb e = true) (m : Table)
    (pending : List pendingHourMetricIDEntry) :
    ∃ err, drainList idb es m pending =
      ((drainList idb (es.take i) m pending).1,
        pending ++ (es.take i).filter (notYetAvailable idb), some err) := by
  have hlt : i < es.length := by
    by_contra hc
    rw [List.getElem?_eq_none (by omega)] at hi
    cases hi
  have hget : es[i] = e := by
    rw [List.getElem?_eq_getElem hlt] at hi
    exact Option.some.inj hi
  have hsplit : es = es.take i ++ e :: es.drop (i + 1) := by
    rw [← hget, ← List.drop_eq_getElem_cons hlt, List.take_append_drop]
  obtain ⟨err, herr⟩ := drainList_cons_fatal idb e (es.drop (i + 1))
    (drainList idb (es.take i) m pending).1 (drainList idb (es.take i) m pending).2.1 hf
  refine ⟨err, ?_⟩
  conv_lhs => rw [hsplit]
  rw [drainList_append idb _ _ hpre, herr]
  have h2 := drainList_pending idb (es.take i) hpre m pending
  rw [show (drainList idb (es.take i) m pending).2.1 =
    pending ++ (es.take i).filter (notYetAvailable idb) from by rw [h2]]

/-- C20: when entry number `i` of the pending list is the first that fails
fatally, `addPendingEntriesLocked` returns an error and leaves as the pending
list exactly the entries before `i` the resolver answered `io.EOF` for, in
their original order; entry `i` and the entries after it are not carried
over. -/
theorem drain_fatal_pending_list (idb : Resolver) (iidx : inmemoryInvertedIndex) (i : Nat)
    (e : pendingHourMetricIDEntry)
    (hpre : ∀ e ∈ iidx.pendingEntries.take i, failsFatally idb e = false)
    (hi : iidx.pendingEntries[i]? = some e) (hf : failsFatally idb e = true) :
    (∃ err, (addPendingEntriesLocked idb iidx).2 = some err) ∧
    (addPendingEntriesLocked idb iidx).1.pendingEntries =
      (iidx.pendingEntries.take i).filter (notYetAvailable idb) := by
  obtain ⟨err, herr⟩ := drainList_first_fatal idb iidx.pendingEntries i e hpre hi hf iidx.m []
  rw [addPendingEntriesLocked_eq, herr]
  exact ⟨⟨err, rfl⟩, rfl⟩

/-- Witness of `drain_fatal_pending_list`: the third of four entries is the
first to fail; the fourth would resolve and is dropped with it. -/
theorem drain_fatal_pending_list_witness :
    (∀ e ∈ exampleIndexFatal.pendingEntries.take 2, failsFatally exampleResolver e = false) ∧
    exampleIndexFatal.pendingEntries[2]? = some ⟨0, 0, 3⟩ ∧
    failsFatally exampleResolver ⟨0, 0, 3⟩ = true ∧
    (∃ err, (addPendingEntriesLocked exampleResolver exampleIndexFatal).2 = some err) ∧
    (addPendingEntriesLocked exampleResolver exampleIndexFatal).1.pendingEntries =
      (exampleIndexFatal.pendingEntries.take 2).filter (notYetAvailable exampleResolver) :=
  ⟨by decide, by decide, by decide,
    drain_fatal_pending_list exampleResolver exampleIndexFatal 2 ⟨0, 0, 3⟩ (by decide)
      (by decide) (by decide)⟩

/-! ## Introspection -/

theorem sum_entries_eq_sum_keys (m : Table) (G : List Byte → Set64 → Nat) :
    (m.entries.map (fun kv => G kv.1 kv.2)).sum = ∑ k in m.keys.toFinset, G k (m.posting k) := by
  have hnd : m.keys.Nodup := m.nodupKeys
  rw [List.sum_toFinset (fun k => G k (m.posting k)) hnd]
  unfold AList.keys List.keys
  rw [List.map_map]
  congr 1
  apply List.map_congr_left
  intro kv hkv
  have hl : m.lookup kv.1 = some kv.2 := AList.mem_lookup_iff.mpr (by cases kv; exact hkv)
  simp [Table.posting, hl]

theorem foldl_add_eq_sum {α : Type} (g : α → Nat) (l : List α) (n : Nat) :
    l.foldl (fun n x => n + g x) n = n + (l.map g).sum := by
  induction l generalizing n with
  | nil => simp
  | cons x xs ih => rw [List.foldl_cons, ih, List.map_cons, List.sum_cons]; omega

theorem foldl_sizeBytes (est : Set64 → Nat) (es : List (Sigma fun _ : List Byte => Set64))
    (n : Nat) :
    es.foldl (fun n kv => ((n + kv.1.length % 2 ^ 64) % 2 ^ 64 + est kv.2 % 2 ^ 64) % 2 ^ 64) n
        % 2 ^ 64 =
      (n + (es.map (fun kv => kv.1.length + est kv.2)).sum) % 2 ^ 64 := by
  induction es generalizing n with
  | nil => simp
  | cons kv es ih =>
    rw [List.foldl_cons, ih, List.map_cons, List.sum_cons]
    omega

theorem SizeBytes_eq (est : Set64 → Nat) (iidx : inmemoryInvertedIndex) :
    SizeBytes est iidx = referenceSizeBytes est iidx % 2 ^ 64 := by
  unfold SizeBytes referenceSizeBytes sizeofPendingEntry
  rw [← sum_entries_eq_sum_keys iidx.m (fun k v => k.length + est v)]
  have h := foldl_sizeBytes est iidx.m.entries 0
  simp only at h ⊢
  omega

/-- C14: `GetUniqueTagPairsLen` returns the number of distinct stored keys,
`GetEntriesCount` the sum over the stored keys of the cardinality of the
key's posting set, `GetPendingMetricIDsLen` the length of the pending list,
and `SizeBytes` the sum over the stored keys of key length plus size
estimate of the posting set, plus 16 bytes per pending entry, as a `uint64`
(so exactly that sum whenever it is below `2 ^ 64`). Each is a function of
the index that returns a number and nothing else. -/
theorem introspection_reference (est : Set64 → Nat) (iidx : inmemoryInvertedIndex) :
    GetUniqueTagPairsLen (some iidx) = iidx.m.keys.toFinset.card ∧
    GetEntriesCount (some iidx) = referenceEntriesCount iidx ∧
    GetPendingMetricIDsLen (some iidx) = iidx.pendingEntries.length ∧
    SizeBytes est iidx = referenceSizeBytes est iidx % 2 ^ 64 ∧
    (referenceSizeBytes est iidx < 2 ^ 64 → SizeBytes est iidx = referenceSizeBytes est iidx) := by
  refine ⟨?_, ?_, rfl, SizeBytes_eq est iidx, fun h => ?_⟩
  · unfold GetUniqueTagPairsLen
    simp only
    have hnd : iidx.m.keys.Nodup := iidx.m.nodupKeys
    rw [List.toFinset_card_of_nodup hnd]
    simp [AList.keys, List.keys]
  · unfold GetEntriesCount referenceEntriesCount
    simp only
    rw [foldl_add_eq_sum (fun kv : Sigma fun _ : List Byte => Set64 => kv.2.card), Nat.zero_add]
    exact sum_entries_eq_sum_keys iidx.m (fun _ v => v.card)
  · rw [SizeBytes_eq, Nat.mod_eq_of_lt h]

/-- Witness of `introspection_reference`: the table of the scenario, with
eight bytes per id as the size estimate. -/
theorem introspection_reference_witness :
    referenceSizeBytes (fun s => 8 * s.card) scenarioIndex < 2 ^ 64 ∧
    SizeBytes (fun s => 8 * s.card) scenarioIndex =
      referenceSizeBytes (fun s => 8 * s.card) scenarioIndex :=
  ⟨by decide,
    (introspection_reference (fun s => 8 * s.card) scenarioIndex).2.2.2.2 (by decide)⟩

/-! ## The layout `Marshal` writes -/

theorem layoutEntries_length (es : List (Sigma fun _ : List Byte => Set64)) :
    (layoutEntries es).length =
      (es.map (fun kv => 8 + kv.1.length + 8 + 8 * kv.2.card)).sum := by
  induction es with
  | nil => rfl
  | cons kv es ih =>
    rw [layoutEntries, List.length_append, ih, layoutEntry_length, length_sortedElems,
      List.map_cons, List.sum_cons]
    omega

/-- C15: for every state and every `dst`, `Marshal(dst)` is `dst` followed by
the layout of the spec (entry count; per entry key length, key bytes, posting
count, one `u64` per id; pending count; per pending entry account id, project
id, metric id), and the bytes appended number 8, plus for every table entry
8 + key length + 8 + 8 times the cardinality of its posting set, plus 8, plus
16 per pending entry. -/
theorem marshal_layout (iidx : inmemoryInvertedIndex) (dst : List Byte) :
    Marshal iidx dst = dst ++ layoutSnapshot iidx ∧
    (Marshal iidx dst).length = dst.length +
      (8 + (iidx.m.entries.map (fun kv => 8 + kv.1.length + 8 + 8 * kv.2.card)).sum + 8 +
        16 * iidx.pendingEntries.length) := by
  refine ⟨Marshal_eq iidx dst, ?_⟩
  rw [Marshal_eq, List.length_append]
  unfold layoutSnapshot
  simp only [List.length_append, putUintBE_length, layoutEntries_length, layoutPending_length]
  omega

/-! ## The short-circuit of the evaluator -/

theorem applyFiltersNoReturn_empty (iidx : inmemoryInvertedIndex) (c : List Byte)
    (L : tagFilter → Set64) (tfFirst : Option Nat) (tfs : List tagFilter)
    (hL : ∀ tf ∈ tfs, getMetricIDsForTagFilterLocked iidx tf c = .ret (L tf)) (i : Nat) :
    applyFiltersNoReturn iidx c tfFirst tfs i ∅ = .ret ∅ := by
  induction tfs generalizing i with
  | nil => rfl
  | cons tf rest ih =>
    have hLr : ∀ tf ∈ rest, getMetricIDsForTagFilterLocked iidx tf c = .ret (L tf) :=
      fun tf h => hL tf (List.mem_cons_of_mem _ h)
    unfold applyFiltersNoReturn
    by_cases hf : tfFirst = some i
    · rw [if_pos hf, ih hLr]
    · rw [if_neg hf, hL tf (List.mem_cons_self _ _)]
      simp only [Finset.empty_sdiff, Finset.empty_inter, ite_self]
      exact ih hLr (i + 1)

theorem applyFilters_noReturn (iidx : inmemoryInvertedIndex) (c : List Byte)
    (L : tagFilter → Set64) (tfFirst : Option Nat) (tfs : List tagFilter)
    (hL : ∀ tf ∈ tfs, getMetricIDsForTagFilterLocked iidx tf c = .ret (L tf))
    (i : Nat) (result : Set64) :
    ∃ o, applyFilters iidx c tfFirst tfs i result = .ret o ∧
      applyFiltersNoReturn iidx c tfFirst tfs i result = .ret (o.getD ∅) := by
  induction tfs generalizing i result with
  | nil => exact ⟨some result, rfl, rfl⟩
  | cons tf rest ih =>
    have hLr : ∀ tf ∈ rest, getMetricIDsForTagFilterLocked iidx tf c = .ret (L tf) :=
      fun tf h => hL tf (List.mem_cons_of_mem _ h)
    unfold applyFilters applyFiltersNoReturn
    by_cases hf : tfFirst = some i
    · rw [if_pos hf, if_pos hf]
      exact ih hLr (i + 1) result
    · rw [if_neg hf, if_neg hf, hL tf (List.mem_cons_self _ _)]
      simp only
      by_cases hc : (if tf.isNegative = true then result \ L tf else result ∩ L tf).card = 0
      · rw [if_pos hc, Finset.card_eq_zero.mp hc]
        exact ⟨none, rfl, applyFiltersNoReturn_empty iidx c L tfFirst rest hLr (i + 1)⟩
      · rw [if_neg hc]
        exact ih hLr (i + 1) _

theorem update_eq_noReturn (iidx : inmemoryInvertedIndex) (acc A : Set64) (tfs : TagFilters)
    (L : tagFilter → Set64)
    (hL : ∀ tf ∈ tfs.tfs, getMetricIDsForTagFilterLocked iidx tf tfs.commonPrefix = .ret (L tf)) :
    UpdateMetricIDsForTagFilters (some iidx) acc A tfs =
      UpdateMetricIDsForTagFiltersNoReturn (some iidx) acc A tfs := by
  unfold UpdateMetricIDsForTagFilters UpdateMetricIDsForTagFiltersNoReturn
  simp only
  cases hff : findFirst tfs.tfs 0 with
  | none =>
    simp only [Option.map_none']
    obtain ⟨o, h1, h2⟩ := applyFilters_noReturn iidx tfs.commonPrefix L none tfs.tfs hL 0 A
    rw [h1, h2]
    cases o <;> simp
  | some kt =>
    obtain ⟨k, tf⟩ := kt
    obtain ⟨j, _, hj, _⟩ := findFirst_some tfs.tfs 0 k tf hff
    simp only [hL tf (List.getElem?_mem hj), Option.map_some']
    obtain ⟨o, h1, h2⟩ := applyFilters_noReturn iidx tfs.commonPrefix L (some k) tfs.tfs hL 0
      (L tf ∩ A)
    rw [h1, h2]
    cases o <;> simp

/-- C17: when every filter has a `prefix` beginning with the common one and a
suffix predicate that never errors, `UpdateMetricIDsForTagFilters`, which
returns as soon as the running result is empty, leaves the accumulator with
the same contents as the same algorithm without the early return. -/
theorem short_circuit_same_outcome (iidx : inmemoryInvertedIndex) (acc A : Set64)
    (tfs : TagFilters)
    (hpfx : ∀ tf ∈ tfs.tfs, tfs.commonPrefix <+: tf.pfx)
    (ht : ∀ tf ∈ tfs.tfs, ∀ b, (tf.matchSuffix b).isSome = true) :
    UpdateMetricIDsForTagFilters (some iidx) acc A tfs =
      UpdateMetricIDsForTagFiltersNoReturn (some iidx) acc A tfs := by
  obtain ⟨L, hL⟩ := lookup_function iidx tfs.commonPrefix tfs.tfs hpfx ht
  exact update_eq_noReturn iidx acc A tfs L hL

/-- Witness of `short_circuit_same_outcome`: the seed selects ids and the
second filter empties the result, so the early return is taken before the
third filter. -/
theorem short_circuit_same_outcome_witness :
    (∀ tf ∈ [scenarioFilter, rejectingFilter, scenarioFilter], ([] : List Byte) <+: tf.pfx) ∧
    (∀ tf ∈ [scenarioFilter, rejectingFilter, scenarioFilter],
      ∀ b, (tf.matchSuffix b).isSome = true) ∧
    UpdateMetricIDsForTagFilters (some scenarioIndex) {9} {1, 2, 3, 4, 5}
        ⟨[scenarioFilter, rejectingFilter, scenarioFilter], []⟩ =
      UpdateMetricIDsForTagFiltersNoReturn (some scenarioIndex) {9} {1, 2, 3, 4, 5}
        ⟨[scenarioFilter, rejectingFilter, scenarioFilter], []⟩ :=
  ⟨fun _ _ => List.nil_prefix,
    (by intro tf htf b; simp at htf; rcases htf with h | h | h <;> subst h <;> rfl),
    short_circuit_same_outcome scenarioIndex {9} {1, 2, 3, 4, 5}
      ⟨[scenarioFilter, rejectingFilter, scenarioFilter], []⟩ (fun _ _ => List.nil_prefix)
      (by intro tf htf b; simp at htf; rcases htf with h | h | h <;> subst h <;> rfl)⟩

/-! ## The pending list and the state after `Unmarshal` -/

theorem unmarshalPendingLoop_append (n : Nat) (P : List pendingHourMetricIDEntry)
    (src : List Byte) :
    unmarshalPendingLoop n P src =
      match unmarshalPendingLoop n [] src with
      | .ret (rest, Q) => .ret (rest, P ++ Q)
      | .panic => .panic := by
  induction n generalizing P src with
  | zero => simp [unmarshalPendingLoop]
  | succ n ih =>
    rw [unmarshalPendingLoop, unmarshalPendingLoop]
    cases UnmarshalUint32 src with
    | none => rfl
    | some a =>
      simp only
      cases UnmarshalUint32 (src.drop 4) with
      | none => rfl
      | some b =>
        simp only
        cases UnmarshalUint64 ((src.drop 4).drop 4) with
        | none => rfl
        | some c =>
          simp only
          rw [ih (P ++ _), ih ([] ++ _)]
          cases unmarshalPendingLoop n [] (((src.drop 4).drop 4).drop 8) with
          | panic => rfl
          | ret r => simp

/-- C18: whenever `Unmarshal` returns no error from a prior state with pending
list `P`, it returns no error and the same tail from a fresh index too, the
pending list afterwards is `P` followed by the pending entries `Q` the fresh
index decodes from the same input, in input order (so it is `Q` only when `P`
is empty), and the table afterwards is the one the fresh index gets: the
table is replaced, the pending list is appended to. -/
theorem unmarshal_appends_pending (prior s : inmemoryInvertedIndex) (src rest : List Byte)
    (h : Unmarshal prior src = .ret (s, rest, none)) :
    ∃ fresh, Unmarshal newInmemoryInvertedIndex src = .ret (fresh, rest, none) ∧
      s.pendingEntries = prior.pendingEntries ++ fresh.pendingEntries ∧
      s.m = fresh.m ∧
      (s.pendingEntries = fresh.pendingEntries ↔ prior.pendingEntries = []) := by
  obtain ⟨u, m, tail, v, pending, hu, ht, hv, hp, hs⟩ := Unmarshal_ok prior s src rest h
  rw [unmarshalPendingLoop_append] at hp
  cases hq : unmarshalPendingLoop (int64OfUint64 v).toNat [] (tail.drop 8) with
  | panic => rw [hq] at hp; cases hp
  | ret r =>
    obtain ⟨rest2, Q⟩ := r
    rw [hq] at hp
    simp only [Run.ret.injEq, Prod.mk.injEq] at hp
    obtain ⟨hr, hpq⟩ := hp
    subst hr
    have hfresh : Unmarshal newInmemoryInvertedIndex src =
        .ret ({ m := m, pendingEntries := Q }, rest2, none) := by
      unfold Unmarshal at h ⊢
      split at h
      · simp at h
      · rename_i h8
        rw [if_neg h8]
        simp only [hu, ht] at h ⊢
        split at h
        · simp at h
        · rename_i h8b
          rw [if_neg h8b]
          simp only [hv] at h ⊢
          split at h
          · simp at h
          · rename_i hlen
            rw [if_neg hlen]
            simp only [newInmemoryInvertedIndex, hq]
    refine ⟨_, hfresh, ?_, ?_, ?_⟩
    · rw [hs, ← hpq]
    · rw [hs]
    · rw [hs, ← hpq]
      simp

/-- Witness of `unmarshal_appends_pending`: the snapshot of a state with one
pending entry, read into an index that already holds one. -/
theorem unmarshal_appends_pending_witness :
    Unmarshal priorIndex (Marshal exampleSnapshotState []) =
        .ret ({ m := AList.insert [1, 2] ({7, 3} : Set64) ∅,
                pendingEntries := [⟨7, 8, 9⟩, ⟨1, 2, 3⟩] }, [], none) ∧
    ∃ fresh, Unmarshal newInmemoryInvertedIndex (Marshal exampleSnapshotState []) =
        .ret (fresh, [], none) ∧
      ([⟨7, 8, 9⟩, ⟨1, 2, 3⟩] : List pendingHourMetricIDEntry) =
        priorIndex.pendingEntries ++ fresh.pendingEntries ∧
      (AList.insert [1, 2] ({7, 3} : Set64) ∅ : Table) = fresh.m ∧
      (([⟨7, 8, 9⟩, ⟨1, 2, 3⟩] : List pendingHourMetricIDEntry) = fresh.pendingEntries ↔
        priorIndex.pendingEntries = []) :=
  ⟨by rfl, unmarshal_appends_pending priorIndex
    { m := AList.insert [1, 2] ({7, 3} : Set64) ∅, pendingEntries := [⟨7, 8, 9⟩, ⟨1, 2, 3⟩] }
    (Marshal exampleSnapshotState []) [] (by rfl)⟩

/-! ## The state a failed `Unmarshal` leaves -/

theorem unmarshalTableLoop_error_kind (n i : Nat) (m : Table) (src t : List Byte)
    (e : UnmarshalError) (h : unmarshalTableLoop n i m src = .error t e) :
    e.inPendingSection = false := by
  induction n generalizing i m src with
  | zero => simp [unmarshalTableLoop] at h
  | succ n ih =>
    rw [unmarshalTableLoop] at h
    rcases hb : UnmarshalBytes src with ⟨t1, _ | k⟩
    · simp only [hb, Stage.error.injEq] at h
      rw [← h.2]
      rfl
    · simp only [hb] at h
      cases hm : unmarshalMetricIDs [] t1 with
      | panic => simp [hm] at h
      | error t2 e2 =>
        simp only [hm, Stage.error.injEq] at h
        rw [← h.2]
        rfl
      | ok r =>
        obtain ⟨t2, ids⟩ := r
        simp only [hm] at h
        exact ih _ _ _ h

/-- How a call of `Unmarshal` that returns an error got there. -/
theorem Unmarshal_error (prior s : inmemoryInvertedIndex) (src tail : List Byte)
    (e : UnmarshalError) (h : Unmarshal prior src = .ret (s, tail, some e)) :
    (e.inPendingSection = false ∧ s = prior) ∨
    (e.inPendingSection = true ∧ ∃ u m t,
      UnmarshalUint64 src = some u ∧
      unmarshalTableLoop (int64OfUint64 u).toNat 0 ∅ (src.drop 8) = .ok (m, t) ∧
      s = { m := m, pendingEntries := prior.pendingEntries } ∧
      ((t.length < 8 ∧ tail = t) ∨
        ∃ v, UnmarshalUint64 t = some v ∧ tail = t.drop 8 ∧
          (tail.length : Int) < mulInt64 (int64OfUint64 v) 16)) := by
  unfold Unmarshal at h
  split at h
  · simp only [Run.ret.injEq, Prod.mk.injEq, Option.some.injEq] at h
    left
    rw [← h.2.2, h.1]
    exact ⟨rfl, rfl⟩
  · cases hu : UnmarshalUint64 src with
    | none => simp [hu] at h
    | some u =>
      simp only [hu] at h
      cases ht : unmarshalTableLoop (int64OfUint64 u).toNat 0 ∅ (src.drop 8) with
      | panic => simp [ht] at h
      | error t2 e2 =>
        simp only [ht, Run.ret.injEq, Prod.mk.injEq, Option.some.injEq] at h
        left
        rw [← h.2.2, h.1]
        exact ⟨unmarshalTableLoop_error_kind _ _ _ _ _ _ ht, rfl⟩
      | ok r =>
        obtain ⟨m, t⟩ := r
        simp only [ht] at h
        right
        split at h
        · rename_i h8
          simp only [Run.ret.injEq, Prod.mk.injEq, Option.some.injEq] at h
          rw [← h.2.2, ← h.1, ← h.2.1]
          exact ⟨rfl, u, m, t, rfl, ht, rfl, Or.inl ⟨h8, rfl⟩⟩
        · cases hv : UnmarshalUint64 t with
          | none => simp [hv] at h
          | some v =>
            simp only [hv] at h
            split at h
            · rename_i hlen
              simp only [Run.ret.injEq, Prod.mk.injEq, Option.some.injEq] at h
              rw [← h.2.2, ← h.1, ← h.2.1]
              exact ⟨rfl, u, m, t, rfl, ht, rfl, Or.inr ⟨v, hv, rfl, hlen⟩⟩
            · cases hp : unmarshalPendingLoop (int64OfUint64 v).toNat prior.pendingEntries
                  (t.drop 8) with
              | panic => simp [hp] at h
              | ret r => simp [hp] at h

/-- C19: whenever `Unmarshal` returns an error, the pending list is the prior
one; when the error comes from the entry count, a key or a posting list the
table is the prior one too; when it comes from the pending section (fewer
than 8 bytes left for the pending count, or fewer bytes left after it than
the check `pendingEntriesLen*16` asks for) the table has been replaced by
the table of the records decoded from the input. -/
theorem unmarshal_failed_state (prior s : inmemoryInvertedIndex) (src tail : List Byte)
    (e : UnmarshalError) (h : Unmarshal prior src = .ret (s, tail, some e)) :
    s.pendingEntries = prior.pendingEntries ∧
    (e.inPendingSection = false → s.m = prior.m) ∧
    (e.inPendingSection = true → ∃ u es t,
      UnmarshalUint64 src = some u ∧
      decodedEntries (int64OfUint64 u).toNat (src.drop 8) = some (es, t) ∧
      (∀ k, s.m.lookup k = lastDecoded es k) ∧
      ((t.length < 8 ∧ tail = t) ∨
        ∃ v, UnmarshalUint64 t = some v ∧ tail = t.drop 8 ∧
          (tail.length : Int) < mulInt64 (int64OfUint64 v) 16)) := by
  rcases Unmarshal_error prior s src tail e h with ⟨he, hs⟩ | ⟨he, u, m, t, hu, ht, hs, hw⟩
  · refine ⟨by rw [hs], fun _ => by rw [hs], fun hc => ?_⟩
    rw [he] at hc
    cases hc
  · refine ⟨by rw [hs], fun hc => ?_, fun _ => ?_⟩
    · rw [he] at hc
      cases hc
    · obtain ⟨es, h1, h2⟩ := unmarshalTableLoop_decoded _ _ _ _ _ _ ht
      refine ⟨u, es, t, hu, h1, fun k => ?_, hw⟩
      rw [hs, h2, lookup_foldl_decoded]
      simp

/-- Witness of `unmarshal_failed_state`: one table entry and then nothing,
read into an index that holds another key and a pending entry; the error
comes from the pending count and the table is already the decoded one. -/
theorem unmarshal_failed_state_witness :
    Unmarshal priorIndex (putUintBE 8 1 ++ layoutEntry [1, 2] [5]) =
        .ret ({ m := AList.insert [1, 2] ({5} : Set64) ∅, pendingEntries := [⟨7, 8, 9⟩] }, [],
          some (.pendingLen 0)) ∧
    ([⟨7, 8, 9⟩] : List pendingHourMetricIDEntry) = priorIndex.pendingEntries ∧
    ∃ u es t,
      UnmarshalUint64 (putUintBE 8 1 ++ layoutEntry [1, 2] [5]) = some u ∧
      decodedEntries (int64OfUint64 u).toNat ((putUintBE 8 1 ++ layoutEntry [1, 2] [5]).drop 8) =
        some (es, t) ∧
      (∀ k, (AList.insert [1, 2] ({5} : Set64) ∅ : Table).lookup k = lastDecoded es k) ∧
      ((t.length < 8 ∧ ([] : List Byte) = t) ∨
        ∃ v, UnmarshalUint64 t = some v ∧ ([] : List Byte) = t.drop 8 ∧
          ((([] : List Byte).length : Nat) : Int) < mulInt64 (int64OfUint64 v) 16) :=
  ⟨by rfl,
    (unmarshal_failed_state priorIndex
      { m := AList.insert [1, 2] ({5} : Set64) ∅, pendingEntries := [⟨7, 8, 9⟩] }
      (putUintBE 8 1 ++ layoutEntry [1, 2] [5]) [] (.pendingLen 0) (by rfl)).1,
    (unmarshal_failed_state priorIndex
      { m := AList.insert [1, 2] ({5} : Set64) ∅, pendingEntries := [⟨7, 8, 9⟩] }
      (putUintBE 8 1 ++ layoutEntry [1, 2] [5]) [] (.pendingLen 0) (by rfl)).2.2 rfl⟩

/-! ## What the evaluator writes -/

theorem scanTableHeap_frame (tf : tagFilter) (p : List Byte) (m : Nat)
    (es : List (Sigma fun _ : List Byte => Nat)) (h : Heap) :
    (scanTableHeap tf p m es h).heap.length = h.length ∧
      ∀ a, a ≠ m → (scanTableHeap tf p m es h).heap[a]? = h[a]? := by
  induction es generalizing h with
  | nil => exact ⟨rfl, fun _ _ => rfl⟩
  | cons kv rest ih =>
    unfold scanTableHeap
    split
    · exact ih h
    · split
      · exact ⟨rfl, fun _ _ => rfl⟩
      · exact ih h
      · obtain ⟨h1, h2⟩ := ih (h.set m (h.read m ∪ h.read kv.2))
        refine ⟨by rw [h1, List.length_set], fun a ha => ?_⟩
        rw [h2 a ha, List.getElem?_set_ne (Ne.symm ha)]

theorem getMetricIDsForTagFilterLockedHeap_frame (iidx : inmemoryInvertedIndexPtr)
    (tf : tagFilter) (c : List Byte) (h : Heap) :
    h.length ≤ (getMetricIDsForTagFilterLockedHeap iidx tf c h).heap.length ∧
    (∀ a, a < h.length → (getMetricIDsForTagFilterLockedHeap iidx tf c h).heap[a]? = h[a]?) ∧
    ∀ h2 m, getMetricIDsForTagFilterLockedHeap iidx tf c h = .ret h2 m → m = h.length := by
  unfold getMetricIDsForTagFilterLockedHeap
  split
  · exact ⟨Nat.le_refl _, fun _ _ => rfl, fun _ _ hc => by cases hc⟩
  · obtain ⟨h1, h2⟩ := scanTableHeap_frame tf (tf.pfx.drop c.length) h.length iidx.m.entries
      (h ++ [∅])
    have hlen : (h ++ [(∅ : Set64)]).length = h.length + 1 := by simp
    cases hs : scanTableHeap tf (tf.pfx.drop c.length) h.length iidx.m.entries (h ++ [∅]) with
    | panic h3 =>
      rw [hs] at h1 h2
      simp only [HeapRun.heap] at h1 h2 ⊢
      refine ⟨by omega, fun a ha => ?_, fun _ _ hc => by cases hc⟩
      rw [h2 a (by omega), List.getElem?_append_left ha]
    | ret h3 u =>
      rw [hs] at h1 h2
      simp only [HeapRun.heap] at h1 h2 ⊢
      refine ⟨by omega, fun a ha => ?_, fun _ _ hc => ?_⟩
      · rw [h2 a (by omega), List.getElem?_append_left ha]
      · simp only [HeapRun.ret.injEq] at hc
        exact hc.2.symm

theorem applyFiltersHeap_frame (iidx : inmemoryInvertedIndexPtr) (c : List Byte)
    (tfFirst : Option Nat) (result n : Nat) (tfs : List tagFilter) (i : Nat) (h : Heap)
    (hn : n ≤ h.length) :
    n ≤ (applyFiltersHeap iidx c tfFirst result tfs i h).heap.length ∧
    ∀ a, a < n → a ≠ result → (applyFiltersHeap iidx c tfFirst result tfs i h).heap[a]? = h[a]? := by
  induction tfs generalizing i h with
  | nil => exact ⟨hn, fun _ _ _ => rfl⟩
  | cons tf rest ih =>
    unfold applyFiltersHeap
    split
    · exact ih (i + 1) h hn
    · obtain ⟨f1, f2, _⟩ := getMetricIDsForTagFilterLockedHeap_frame iidx tf c h
      cases hg : getMetricIDsForTagFilterLockedHeap iidx tf c h with
      | panic h2 =>
        rw [hg] at f1 f2
        simp only [HeapRun.heap] at f1 f2 ⊢
        exact ⟨by omega, fun a ha _ => f2 a (by omega)⟩
      | ret h2 m =>
        rw [hg] at f1 f2
        simp only [HeapRun.heap] at f1 f2 ⊢
        generalize (if tf.isNegative = true then Heap.read h2 result \ Heap.read h2 m
          else Heap.read h2 result ∩ Heap.read h2 m) = V
        by_cases hc : (Heap.read (h2.set result V) result).card = 0
        · rw [if_pos hc]
          simp only [HeapRun.heap]
          refine ⟨by rw [List.length_set]; omega, fun a ha har => ?_⟩
          rw [List.getElem?_set_ne (Ne.symm har), f2 a (by omega)]
        · rw [if_neg hc]
          obtain ⟨g1, g2⟩ := ih (i + 1) (h2.set result V) (by rw [List.length_set]; omega)
          refine ⟨g1, fun a ha har => (g2 a ha har).trans ?_⟩
          rw [List.getElem?_set_ne (Ne.symm har), f2 a (by omega)]

theorem read_set_self (h : Heap) (a : Nat) (s : Set64) (ha : a < h.length) :
    Heap.read (h.set a s) a = s := by
  unfold Heap.read
  rw [List.getElem?_set_self ha]
  rfl

theorem read_congr (h1 h2 : Heap) (a : Nat) (h : h2[a]? = h1[a]?) :
    Heap.read h2 a = Heap.read h1 a := by
  unfold Heap.read
  rw [h]

theorem read_of_length_le (h : Heap) (a : Nat) (ha : h.length ≤ a) : Heap.read h a = ∅ := by
  unfold Heap.read
  rw [List.getElem?_eq_none ha]
  rfl

/-- The seed of the evaluator: its heap extends the given one, keeps every
old cell, and the address of the running result is a new one. -/
theorem seed_frame (iidx : inmemoryInvertedIndexPtr) (allMetricIDs : Nat) (c : List Byte)
    (first : Option (Nat × tagFilter)) (h : Heap) :
    let seed : HeapRun Nat :=
      match first with
      | none => .ret (h ++ [h.read allMetricIDs]) h.length
      | some (_, tf) =>
        match getMetricIDsForTagFilterLockedHeap iidx tf c h with
        | .panic h2 => .panic h2
        | .ret h2 result => .ret (h2.set result (h2.read result ∩ h2.read allMetricIDs)) result
    h.length ≤ seed.heap.length ∧ (∀ a, a < h.length → seed.heap[a]? = h[a]?) ∧
      ∀ h2 result, seed = .ret h2 result → h.length ≤ result := by
  intro seed
  cases first with
  | none =>
    refine ⟨by simp [seed, HeapRun.heap], fun a ha => ?_, fun h2 result hc => ?_⟩
    · simp only [seed, HeapRun.heap]
      exact List.getElem?_append_left ha
    · simp only [seed, HeapRun.ret.injEq] at hc
      omega
  | some kt =>
    obtain ⟨k, tf⟩ := kt
    obtain ⟨f1, f2, f3⟩ := getMetricIDsForTagFilterLockedHeap_frame iidx tf c h
    cases hg : getMetricIDsForTagFilterLockedHeap iidx tf c h with
    | panic h2 =>
      rw [hg] at f1 f2
      simp only [HeapRun.heap] at f1 f2
      refine ⟨by simp only [seed, hg, HeapRun.heap]; exact f1, fun a ha => ?_,
        fun h3 result hc => ?_⟩
      · simp only [seed, hg, HeapRun.heap]
        exact f2 a ha
      · simp [seed, hg] at hc
    | ret h2 m =>
      rw [hg] at f1 f2
      simp only [HeapRun.heap] at f1 f2
      have hm := f3 h2 m hg
      refine ⟨by simp only [seed, hg, HeapRun.heap, List.length_set]; exact f1, fun a ha => ?_,
        fun h3 result hc => ?_⟩
      · simp only [seed, hg, HeapRun.heap]
        rw [List.getElem?_set_ne (by omega), f2 a ha]
      · simp only [seed, hg, HeapRun.ret.injEq] at hc
        omega

theorem updateHeap_frame (iidx : inmemoryInvertedIndexPtr) (metricIDs allMetricIDs : Nat)
    (tfs : TagFilters) (h : Heap) :
    h.length ≤ (UpdateMetricIDsForTagFiltersHeap (some iidx) metricIDs allMetricIDs tfs h).heap.length ∧
    (∀ a, a < h.length → a ≠ metricIDs →
      (UpdateMetricIDsForTagFiltersHeap (some iidx) metricIDs allMetricIDs tfs h).heap[a]? = h[a]?) ∧
    Heap.read h metricIDs ⊆
      Heap.read (UpdateMetricIDsForTagFiltersHeap (some iidx) metricIDs allMetricIDs tfs h).heap
        metricIDs := by
  have key : h.length ≤
      (UpdateMetricIDsForTagFiltersHeap (some iidx) metricIDs allMetricIDs tfs h).heap.length ∧
      (∀ a, a < h.length → a ≠ metricIDs →
        (UpdateMetricIDsForTagFiltersHeap (some iidx) metricIDs allMetricIDs tfs h).heap[a]? =
          h[a]?) ∧
      (metricIDs < h.length → Heap.read h metricIDs ⊆
        Heap.read (UpdateMetricIDsForTagFiltersHeap (some iidx) metricIDs allMetricIDs tfs h).heap
          metricIDs) := by
    unfold UpdateMetricIDsForTagFiltersHeap
    simp only
    obtain ⟨s1, s2, s3⟩ := seed_frame iidx allMetricIDs tfs.commonPrefix (findFirst tfs.tfs 0) h
    generalize (match findFirst tfs.tfs 0 with
      | none => HeapRun.ret (h ++ [Heap.read h allMetricIDs]) h.length
      | some (_, tf) =>
        match getMetricIDsForTagFilterLockedHeap iidx tf tfs.commonPrefix h with
        | .panic h2 => HeapRun.panic h2
        | .ret h2 result =>
          HeapRun.ret (h2.set result (Heap.read h2 result ∩ Heap.read h2 allMetricIDs)) result) =
      seed at s1 s2 s3
    cases seed with
    | panic h2 =>
      simp only [HeapRun.heap] at s1 s2 ⊢
      exact ⟨s1, fun a ha _ => s2 a ha, fun hm => by rw [read_congr _ _ _ (s2 _ hm)]⟩
    | ret h2 result =>
      simp only [HeapRun.heap] at s1 s2 ⊢
      have hr : h.length ≤ result := s3 h2 result rfl
      obtain ⟨a1, a2⟩ := applyFiltersHeap_frame iidx tfs.commonPrefix
        ((findFirst tfs.tfs 0).map Prod.fst) result h.length tfs.tfs 0 h2 s1
      cases ha : applyFiltersHeap iidx tfs.commonPrefix ((findFirst tfs.tfs 0).map Prod.fst)
          result tfs.tfs 0 h2 with
      | panic h3 =>
        rw [ha] at a1 a2
        simp only [HeapRun.heap] at a1 a2 ⊢
        refine ⟨a1, fun a hlt _ => ?_, fun hm => ?_⟩
        · rw [a2 a hlt (by omega), s2 a hlt]
        · rw [read_congr _ _ _ ((a2 _ hm (by omega)).trans (s2 _ hm))]
      | ret h3 b =>
        rw [ha] at a1 a2
        simp only [HeapRun.heap] at a1 a2
        cases b with
        | false =>
          simp only [HeapRun.heap]
          refine ⟨a1, fun a hlt _ => ?_, fun hm => ?_⟩
          · rw [a2 a hlt (by omega), s2 a hlt]
          · rw [read_congr _ _ _ ((a2 _ hm (by omega)).trans (s2 _ hm))]
        | true =>
          simp only [HeapRun.heap]
          refine ⟨by rw [List.length_set]; exact a1, fun a hlt hne => ?_, fun hm => ?_⟩
          · rw [List.getElem?_set_ne (Ne.symm hne), a2 a hlt (by omega), s2 a hlt]
          · rw [read_set_self _ _ _ (by omega),
              read_congr h h3 metricIDs ((a2 _ hm (by omega)).trans (s2 _ hm))]
            exact Finset.subset_union_left
  refine ⟨key.1, key.2.1, ?_⟩
  rcases Nat.lt_or_ge metricIDs h.length with hm | hm
  · exact key.2.2 hm
  · rw [read_of_length_le h metricIDs hm]
    exact Finset.empty_subset _

/-! ## The evaluator over the heap computes what the evaluator over values does -/

theorem set_read_self (h : Heap) (a : Nat) : h.set a (Heap.read h a) = h := by
  rcases Nat.lt_or_ge a h.length with ha | ha
  · apply List.ext_getElem? 
    intro j
    by_cases hj : a = j
    · subst hj
      rw [List.getElem?_set_self ha]
      unfold Heap.read
      rw [List.getElem?_eq_getElem ha]
      rfl
    · rw [List.getElem?_set_ne hj]
  · exact List.set_eq_of_length_le ha

theorem read_set_ne (h : Heap) (a b : Nat) (s : Set64) (hab : a ≠ b) :
    Heap.read (h.set a s) b = Heap.read h b := by
  unfold Heap.read
  rw [List.getElem?_set_ne hab]

theorem read_append_left (h : Heap) (s : Set64) (a : Nat) (ha : a < h.length) :
    Heap.read (h ++ [s]) a = Heap.read h a := by
  unfold Heap.read
  rw [List.getElem?_append_left ha]

theorem read_append_length (h : Heap) (s : Set64) : Heap.read (h ++ [s]) h.length = s := by
  unfold Heap.read
  rw [List.getElem?_concat_length]
  rfl

theorem map_read_congr (es : List (Sigma fun _ : List Byte => Nat)) (h1 h2 : Heap)
    (h : ∀ kv ∈ es, Heap.read h2 kv.2 = Heap.read h1 kv.2) :
    es.map (fun kv => (⟨kv.1, Heap.read h2 kv.2⟩ : Sigma fun _ : List Byte => Set64)) =
      es.map (fun kv => ⟨kv.1, Heap.read h1 kv.2⟩) := by
  apply List.map_congr_left
  intro kv hkv
  rw [h kv hkv]

theorem deref_congr (iidx : inmemoryInvertedIndexPtr) (h1 h2 : Heap)
    (h : ∀ kv ∈ iidx.m.entries, Heap.read h2 kv.2 = Heap.read h1 kv.2) :
    iidx.deref h2 = iidx.deref h1 := by
  unfold inmemoryInvertedIndexPtr.deref
  congr 1
  exact AList.ext (map_read_congr iidx.m.entries h1 h2 h)

theorem scanTableHeap_sim (tf : tagFilter) (p : List Byte) (ma : Nat)
    (es : List (Sigma fun _ : List Byte => Nat)) (h : Heap)
    (hma : ma < h.length) (hne : ∀ kv ∈ es, kv.2 ≠ ma) :
    (∀ s, scanTable tf p (es.map (fun kv => ⟨kv.1, Heap.read h kv.2⟩)) (Heap.read h ma) = .ret s →
      scanTableHeap tf p ma es h = .ret (h.set ma s) ()) ∧
    (scanTable tf p (es.map (fun kv => ⟨kv.1, Heap.read h kv.2⟩)) (Heap.read h ma) = .panic →
      ∃ h2, scanTableHeap tf p ma es h = .panic h2) := by
  induction es generalizing h with
  | nil =>
    refine ⟨fun s hs => ?_, fun hc => by simp [scanTable] at hc⟩
    simp only [List.map_nil, scanTable, Run.ret.injEq] at hs
    rw [← hs, set_read_self]
    rfl
  | cons kv rest ih =>
    have hner : ∀ kv ∈ rest, kv.2 ≠ ma := fun kv hkv => hne kv (List.mem_cons_of_mem _ hkv)
    rw [List.map_cons]
    unfold scanTable scanTableHeap
    simp only
    by_cases hg : kv.1.length < p.length ∨ kv.1.take p.length ≠ p
    · rw [if_pos hg, if_pos hg]
      exact ih h hma hner
    · rw [if_neg hg, if_neg hg]
      cases hm : tf.matchSuffix (kv.1.drop p.length) with
      | none => exact ⟨fun s hs => (by cases hs), fun _ => ⟨h, rfl⟩⟩
      | some b =>
        cases b with
        | false => exact ih h hma hner
        | true =>
          simp only
          have h1 := ih (h.set ma (Heap.read h ma ∪ Heap.read h kv.2))
            (by rw [List.length_set]; exact hma) hner
          rw [read_set_self h ma _ hma, map_read_congr rest h _
            (fun kv2 hkv2 => read_set_ne h ma kv2.2 _ (Ne.symm (hner kv2 hkv2)))] at h1
          refine ⟨fun s hs => ?_, h1.2⟩
          rw [h1.1 s hs, List.set_set]

theorem getMetricIDsForTagFilterLockedHeap_sim (iidx : inmemoryInvertedIndexPtr)
    (tf : tagFilter) (c : List Byte) (h : Heap)
    (hv : ∀ kv ∈ iidx.m.entries, kv.2 < h.length) :
    (∀ s, getMetricIDsForTagFilterLocked (iidx.deref h) tf c = .ret s →
      getMetricIDsForTagFilterLockedHeap iidx tf c h = .ret (h ++ [s]) h.length) ∧
    (getMetricIDsForTagFilterLocked (iidx.deref h) tf c = .panic →
      ∃ h2, getMetricIDsForTagFilterLockedHeap iidx tf c h = .panic h2) := by
  unfold getMetricIDsForTagFilterLocked getMetricIDsForTagFilterLockedHeap
  split
  · exact ⟨fun s hs => (by cases hs), fun _ => ⟨h, rfl⟩⟩
  · have hs := scanTableHeap_sim tf (tf.pfx.drop c.length) h.length iidx.m.entries (h ++ [∅])
      (by simp) (fun kv hkv => Nat.ne_of_lt (hv kv hkv))
    rw [read_append_length, map_read_congr iidx.m.entries h (h ++ [∅])
      (fun kv hkv => read_append_left h ∅ kv.2 (hv kv hkv))] at hs
    have hd : (iidx.deref h).m.entries =
        iidx.m.entries.map (fun kv => ⟨kv.1, Heap.read h kv.2⟩) := rfl
    rw [hd]
    refine ⟨fun s hr => ?_, fun hr => ?_⟩
    · rw [hs.1 s hr]
      simp
    · obtain ⟨h2, hh⟩ := hs.2 hr
      rw [hh]
      exact ⟨h2, rfl⟩

theorem applyFiltersHeap_sim (iidx : inmemoryInvertedIndexPtr) (c : List Byte)
    (tfFirst : Option Nat) (result : Nat) (tfs : List tagFilter) (i : Nat) (h : Heap)
    (hv : ∀ kv ∈ iidx.m.entries, kv.2 < h.length ∧ kv.2 ≠ result) (hr : result < h.length) :
    (∀ R, applyFilters (iidx.deref h) c tfFirst tfs i (Heap.read h result) = .ret (some R) →
      ∃ h2, applyFiltersHeap iidx c tfFirst result tfs i h = .ret h2 true ∧
        Heap.read h2 result = R) ∧
    (applyFilters (iidx.deref h) c tfFirst tfs i (Heap.read h result) = .ret none →
      ∃ h2, applyFiltersHeap iidx c tfFirst result tfs i h = .ret h2 false) ∧
    (applyFilters (iidx.deref h) c tfFirst tfs i (Heap.read h result) = .panic →
      ∃ h2, applyFiltersHeap iidx c tfFirst result tfs i h = .panic h2) := by
  induction tfs generalizing i h with
  | nil =>
    refine ⟨fun R hR => ?_, fun hc => (by simp [applyFilters] at hc),
      fun hc => (by simp [applyFilters] at hc)⟩
    simp only [applyFilters, Run.ret.injEq, Option.some.injEq] at hR
    exact ⟨h, rfl, hR⟩
  | cons tf rest ih =>
    unfold applyFilters applyFiltersHeap
    by_cases hf : tfFirst = some i
    · rw [if_pos hf, if_pos hf]
      exact ih (i + 1) h hv hr
    · rw [if_neg hf, if_neg hf]
      have hl := getMetricIDsForTagFilterLockedHeap_sim iidx tf c h (fun kv hkv => (hv kv hkv).1)
      cases hg : getMetricIDsForTagFilterLocked (iidx.deref h) tf c with
      | panic =>
        obtain ⟨h2, hh⟩ := hl.2 hg
        rw [hh]
        exact ⟨fun R hR => (by cases hR), fun hc => (by cases hc), fun _ => ⟨h2, rfl⟩⟩
      | ret s =>
        rw [hl.1 s hg]
        simp only [read_append_left h s result hr, read_append_length]
        generalize (if tf.isNegative = true then Heap.read h result \ s
          else Heap.read h result ∩ s) = V
        have hlen : result < (h ++ [s]).length := by rw [List.length_append]; omega
        rw [read_set_self _ result V hlen]
        by_cases hc : V.card = 0
        · rw [if_pos hc, if_pos hc]
          exact ⟨fun R hR => (by cases hR), fun _ => ⟨_, rfl⟩, fun hc2 => (by cases hc2)⟩
        · rw [if_neg hc, if_neg hc]
          have hd : iidx.deref ((h ++ [s]).set result V) = iidx.deref h :=
            deref_congr iidx h _ (fun kv hkv => by
              rw [read_set_ne _ _ _ _ (Ne.symm (hv kv hkv).2),
                read_append_left h s kv.2 (hv kv hkv).1])
          have h3 := ih (i + 1) ((h ++ [s]).set result V)
            (fun kv hkv => ⟨(by
              rw [List.length_set, List.length_append]
              have := (hv kv hkv).1
              omega), (hv kv hkv).2⟩)
            (by rw [List.length_set]; exact hlen)
          rw [hd, read_set_self _ result V hlen] at h3
          exact h3

/-- The two embeddings of the evaluator agree: over a heap in which the
pointers of the table, the accumulator and the allowed scope are addresses
of objects and the accumulator is not one of the table's sets, the
evaluator over the heap panics exactly when the evaluator over the values
does, and otherwise leaves at the address of the accumulator the set the
evaluator over the values returns. -/
theorem updateHeap_sim (iidx : inmemoryInvertedIndexPtr) (metricIDs allMetricIDs : Nat)
    (tfs : TagFilters) (h : Heap)
    (hv : ∀ kv ∈ iidx.m.entries, kv.2 < h.length)
    (hacc : metricIDs < h.length) (hall : allMetricIDs < h.length) :
    UpdateMetricIDsForTagFilters (some (iidx.deref h)) (Heap.read h metricIDs)
        (Heap.read h allMetricIDs) tfs =
      match UpdateMetricIDsForTagFiltersHeap (some iidx) metricIDs allMetricIDs tfs h with
      | .ret h2 _ => .ret (Heap.read h2 metricIDs)
      | .panic _ => .panic := by
  unfold UpdateMetricIDsForTagFilters UpdateMetricIDsForTagFiltersHeap
  simp only
  have finish : ∀ (h1 : Heap) (result : Nat) (S : Set64),
      h.length ≤ result → result < h1.length → Heap.read h1 result = S →
      (∀ a, a < h.length → Heap.read h1 a = Heap.read h a) →
      (match applyFilters (iidx.deref h) tfs.commonPrefix ((findFirst tfs.tfs 0).map Prod.fst)
          tfs.tfs 0 S with
        | .panic => Run.panic
        | .ret none => .ret (Heap.read h metricIDs)
        | .ret (some R) => .ret (Heap.read h metricIDs ∪ R)) =
      match (match applyFiltersHeap iidx tfs.commonPrefix ((findFirst tfs.tfs 0).map Prod.fst)
          result tfs.tfs 0 h1 with
        | .panic h3 => HeapRun.panic h3
        | .ret h3 false => .ret h3 ()
        | .ret h3 true =>
          .ret (h3.set metricIDs (Heap.read h3 metricIDs ∪ Heap.read h3 result)) ()) with
      | .ret h2 _ => .ret (Heap.read h2 metricIDs)
      | .panic _ => .panic := by
    intro h1 result S hres hlt hS hold
    have hd : iidx.deref h1 = iidx.deref h :=
      deref_congr iidx h h1 (fun kv hkv => hold kv.2 (hv kv hkv))
    have hlen1 : h.length ≤ h1.length := by omega
    have hsim := applyFiltersHeap_sim iidx tfs.commonPrefix ((findFirst tfs.tfs 0).map Prod.fst)
      result tfs.tfs 0 h1
      (fun kv hkv => ⟨(by have := hv kv hkv; omega), (by have := hv kv hkv; omega)⟩) hlt
    rw [hd, hS] at hsim
    have hfr := applyFiltersHeap_frame iidx tfs.commonPrefix ((findFirst tfs.tfs 0).map Prod.fst)
      result h.length tfs.tfs 0 h1 hlen1
    cases hv2 : applyFilters (iidx.deref h) tfs.commonPrefix ((findFirst tfs.tfs 0).map Prod.fst)
        tfs.tfs 0 S with
    | panic =>
      obtain ⟨h2, hh⟩ := hsim.2.2 hv2
      rw [hh]
    | ret o =>
      cases o with
      | none =>
        obtain ⟨h2, hh⟩ := hsim.2.1 hv2
        rw [hh] at hfr ⊢
        simp only [HeapRun.heap] at hfr ⊢
        rw [read_congr h1 h2 metricIDs (hfr.2 metricIDs hacc (by omega)), hold metricIDs hacc]
      | some R =>
        obtain ⟨h2, hh, hR⟩ := hsim.1 R hv2
        rw [hh] at hfr ⊢
        simp only [HeapRun.heap] at hfr ⊢
        rw [read_set_self _ _ _ (by omega), hR,
          read_congr h1 h2 metricIDs (hfr.2 metricIDs hacc (by omega)), hold metricIDs hacc]
  cases hff : findFirst tfs.tfs 0 with
  | none =>
    simp only [Option.map_none']
    have := finish (h ++ [Heap.read h allMetricIDs]) h.length (Heap.read h allMetricIDs)
      (Nat.le_refl _) (by simp) (read_append_length h _)
      (fun a ha => read_append_left h _ a ha)
    rw [hff] at this
    simpa using this
  | some kt =>
    obtain ⟨k, tf⟩ := kt
    simp only [Option.map_some']
    have hl := getMetricIDsForTagFilterLockedHeap_sim iidx tf tfs.commonPrefix h hv
    cases hg : getMetricIDsForTagFilterLocked (iidx.deref h) tf tfs.commonPrefix with
    | panic =>
      obtain ⟨h2, hh⟩ := hl.2 hg
      rw [hh]
    | ret s =>
      rw [hl.1 s hg]
      simp only
      have hlen : h.length < (h ++ [s]).length := by simp
      have := finish ((h ++ [s]).set h.length
          (Heap.read (h ++ [s]) h.length ∩ Heap.read (h ++ [s]) allMetricIDs)) h.length
        (s ∩ Heap.read h allMetricIDs) (Nat.le_refl _) (by rw [List.length_set]; exact hlen)
        (by rw [read_set_self _ _ _ hlen, read_append_length, read_append_left h s _ hall])
        (fun a ha => by
          rw [read_set_ne _ _ _ _ (by omega), read_append_left h s a ha])
      rw [hff] at this
      simpa using this

/-- C11: over a heap in which the table's pointers are addresses of objects
and the accumulator is not one of the table's sets, the heap
`UpdateMetricIDsForTagFilters` leaves (whether it returns or panics) still
holds at the accumulator's address every id that was there before, and the
index read through its pointers (keys, posting sets, pending list) is the
index as it was before; every other object that existed before the call is
unchanged as well. -/
theorem evaluator_additive_read_only (iidx : inmemoryInvertedIndexPtr)
    (metricIDs allMetricIDs : Nat) (tfs : TagFilters) (h : Heap)
    (hv : ∀ kv ∈ iidx.m.entries, kv.2 < h.length)
    (hsep : ∀ kv ∈ iidx.m.entries, kv.2 ≠ metricIDs) :
    Heap.read h metricIDs ⊆
      Heap.read (UpdateMetricIDsForTagFiltersHeap (some iidx) metricIDs allMetricIDs tfs h).heap
        metricIDs ∧
    iidx.deref (UpdateMetricIDsForTagFiltersHeap (some iidx) metricIDs allMetricIDs tfs h).heap =
      iidx.deref h ∧
    ∀ a, a < h.length → a ≠ metricIDs →
      (UpdateMetricIDsForTagFiltersHeap (some iidx) metricIDs allMetricIDs tfs h).heap[a]? =
        h[a]? := by
  obtain ⟨_, h2, h3⟩ := updateHeap_frame iidx metricIDs allMetricIDs tfs h
  exact ⟨h3, deref_congr iidx h _ (fun kv hkv =>
    read_congr h _ kv.2 (h2 kv.2 (hv kv hkv) (hsep kv hkv))), h2⟩

/-- Witness of `evaluator_additive_read_only`: the scenario of the spec on a
heap. -/
theorem evaluator_additive_read_only_witness :
    (∀ kv ∈ scenarioIndexPtr.m.entries, kv.2 < scenarioHeap.length) ∧
    (∀ kv ∈ scenarioIndexPtr.m.entries, kv.2 ≠ 2) ∧
    Heap.read scenarioHeap 2 ⊆
      Heap.read (UpdateMetricIDsForTagFiltersHeap (some scenarioIndexPtr) 2 3
        ⟨[scenarioFilter], []⟩ scenarioHeap).heap 2 ∧
    scenarioIndexPtr.deref (UpdateMetricIDsForTagFiltersHeap (some scenarioIndexPtr) 2 3
        ⟨[scenarioFilter], []⟩ scenarioHeap).heap =
      scenarioIndexPtr.deref scenarioHeap :=
  ⟨by decide, by decide,
    (evaluator_additive_read_only scenarioIndexPtr 2 3 ⟨[scenarioFilter], []⟩ scenarioHeap
      (by decide) (by decide)).1,
    (evaluator_additive_read_only scenarioIndexPtr 2 3 ⟨[scenarioFilter], []⟩ scenarioHeap
      (by decide) (by decide)).2.1⟩

/-- The scenario on the heap, run: the accumulator at address 2 gains the ids
`1, 2, 3, 4`, the result is a new object at address 4, and the four objects
that existed keep their addresses. -/
theorem scenario_heap_result :
    (UpdateMetricIDsForTagFiltersHeap (some scenarioIndexPtr) 2 3 ⟨[scenarioFilter], []⟩
      scenarioHeap).heap =
      [{1, 2, 3}, {3, 4}, {9, 1, 2, 3, 4}, {1, 2, 3, 4, 5}, {1, 2, 3, 4}] := by
  rfl

/-! ## The order of the filters -/

theorem lookup_ret_or_panic (iidx : inmemoryInvertedIndex) (c : List Byte) (tf : tagFilter) :
    (∃ s, getMetricIDsForTagFilterLocked iidx tf c = .ret s) ∨
      getMetricIDsForTagFilterLocked iidx tf c = .panic := by
  cases getMetricIDsForTagFilterLocked iidx tf c with
  | ret s => exact Or.inl ⟨s, rfl⟩
  | panic => exact Or.inr rfl

/-- When the second loop runs to its end, the lookup of every filter but the
seed has returned. -/
theorem applyFilters_complete (iidx : inmemoryInvertedIndex) (c : List Byte)
    (tfFirst : Option Nat) (tfs : List tagFilter) (i : Nat) (result R : Set64)
    (h : applyFilters iidx c tfFirst tfs i result = .ret (some R)) :
    ∀ j tf, tfs[j]? = some tf → tfFirst ≠ some (i + j) →
      ∃ s, getMetricIDsForTagFilterLocked iidx tf c = .ret s := by
  induction tfs generalizing i result with
  | nil => intro j tf hj; simp at hj
  | cons tf0 rest ih =>
    unfold applyFilters at h
    intro j tf hj hne
    by_cases hf : tfFirst = some i
    · rw [if_pos hf] at h
      cases j with
      | zero => exact absurd hf (by simpa using hne)
      | succ j =>
        exact ih (i + 1) result h j tf (by simpa using hj)
          (fun hc => hne (by rw [hc]; congr 1; omega))
    · rw [if_neg hf] at h
      cases hg : getMetricIDsForTagFilterLocked iidx tf0 c with
      | panic => simp [hg] at h
      | ret m =>
        simp only [hg] at h
        cases j with
        | zero =>
          simp only [List.getElem?_cons_zero, Option.some.injEq] at hj
          rw [← hj]
          exact ⟨m, hg⟩
        | succ j =>
          generalize (if tf0.isNegative = true then result \ m else result ∩ m) = V at h
          by_cases hc0 : V.card = 0
          · rw [if_pos hc0] at h
            cases h
          · rw [if_neg hc0] at h
            exact ih (i + 1) V h j tf (by simpa using hj)
              (fun hc => hne (by rw [hc]; congr 1; omega))

/-- With a filter in the list whose lookup panics, the evaluator over values
panics or returns early: in both cases before the final union. -/
theorem update_not_complete (iidx : inmemoryInvertedIndex) (acc A : Set64) (c : List Byte)
    (l : List tagFilter) (tf : tagFilter) (htf : tf ∈ l)
    (hp : getMetricIDsForTagFilterLocked iidx tf c = .panic) :
    accumulatorAfter acc (UpdateMetricIDsForTagFilters (some iidx) acc A ⟨l, c⟩) = acc := by
  obtain ⟨j, hj⟩ := List.getElem?_of_mem htf
  unfold UpdateMetricIDsForTagFilters
  simp only
  cases hff : findFirst l 0 with
  | none =>
    simp only [Option.map_none']
    cases ha : applyFilters iidx c none l 0 A with
    | panic => rfl
    | ret o =>
      cases o with
      | none => rfl
      | some R =>
        obtain ⟨s, hs⟩ := applyFilters_complete iidx c none l 0 A R ha j tf hj (by simp)
        rw [hp] at hs
        cases hs
  | some kt =>
    obtain ⟨k, tf0⟩ := kt
    obtain ⟨j0, hk, hj0, _⟩ := findFirst_some l 0 k tf0 hff
    simp only [Option.map_some']
    cases hg : getMetricIDsForTagFilterLocked iidx tf0 c with
    | panic => rfl
    | ret s0 =>
      simp only
      cases ha : applyFilters iidx c (some k) l 0 (s0 ∩ A) with
      | panic => rfl
      | ret o =>
        cases o with
        | none => rfl
        | some R =>
          by_cases hjk : j = j0
          · rw [hjk, hj0] at hj
            rw [Option.some.inj hj, hp] at hg
            cases hg
          · obtain ⟨s, hs⟩ := applyFilters_complete iidx c (some k) l 0 (s0 ∩ A) R ha j tf hj
              (by intro hc; have := Option.some.inj hc; omega)
            rw [hp] at hs
            cases hs

/-- Over values: the contents the accumulator is left with do not depend on
the order of the filters, whether the call returns or panics. -/
theorem accumulatorAfter_perm (iidx : inmemoryInvertedIndex) (acc A : Set64) (c : List Byte)
    (l1 l2 : List tagFilter) (hperm : l1.Perm l2) :
    accumulatorAfter acc (UpdateMetricIDsForTagFilters (some iidx) acc A ⟨l2, c⟩) =
      accumulatorAfter acc (UpdateMetricIDsForTagFilters (some iidx) acc A ⟨l1, c⟩) := by
  by_cases hall : ∀ tf ∈ l1, ∃ s, getMetricIDsForTagFilterLocked iidx tf c = .ret s
  · obtain ⟨L, hL⟩ := lookup_function_of_returns iidx c l1 hall
    rw [update_perm_of_lookups iidx acc A c l1 l2 hperm L hL]
  · have hex : ∃ tf ∈ l1, getMetricIDsForTagFilterLocked iidx tf c = .panic := by
      by_contra hc
      apply hall
      intro tf htf
      rcases lookup_ret_or_panic iidx c tf with h1 | h1
      · exact h1
      · exact absurd ⟨tf, htf, h1⟩ hc
    obtain ⟨tf, htf, hp⟩ := hex
    rw [update_not_complete iidx acc A c l1 tf htf hp,
      update_not_complete iidx acc A c l2 tf (hperm.mem_iff.mp htf) hp]

/-- A call over the heap that panics leaves every object that existed before
it as it was: until the final union it writes only objects it allocated. -/
theorem updateHeap_panic_frame (iidx : inmemoryInvertedIndexPtr) (metricIDs allMetricIDs : Nat)
    (tfs : TagFilters) (h h2 : Heap)
    (hp : UpdateMetricIDsForTagFiltersHeap (some iidx) metricIDs allMetricIDs tfs h = .panic h2) :
    ∀ a, a < h.length → h2[a]? = h[a]? := by
  unfold UpdateMetricIDsForTagFiltersHeap at hp
  simp only at hp
  obtain ⟨s1, s2, s3⟩ := seed_frame iidx allMetricIDs tfs.commonPrefix (findFirst tfs.tfs 0) h
  generalize (match findFirst tfs.tfs 0 with
    | none => HeapRun.ret (h ++ [Heap.read h allMetricIDs]) h.length
    | some (_, tf) =>
      match getMetricIDsForTagFilterLockedHeap iidx tf tfs.commonPrefix h with
      | .panic h2 => HeapRun.panic h2
      | .ret h2 result =>
        HeapRun.ret (h2.set result (Heap.read h2 result ∩ Heap.read h2 allMetricIDs)) result) =
    seed at s1 s2 s3 hp
  cases seed with
  | panic h1 =>
    simp only [HeapRun.heap, HeapRun.panic.injEq] at s1 s2 hp
    rw [← hp]
    exact s2
  | ret h1 result =>
    simp only [HeapRun.heap] at s1 s2 hp
    have hr : h.length ≤ result := s3 h1 result rfl
    obtain ⟨_, a2⟩ := applyFiltersHeap_frame iidx tfs.commonPrefix
      ((findFirst tfs.tfs 0).map Prod.fst) result h.length tfs.tfs 0 h1 s1
    cases ha : applyFiltersHeap iidx tfs.commonPrefix ((findFirst tfs.tfs 0).map Prod.fst)
        result tfs.tfs 0 h1 with
    | panic h3 =>
      rw [ha] at a2 hp
      simp only [HeapRun.heap, HeapRun.panic.injEq] at a2 hp
      rw [← hp]
      intro a hlt
      rw [a2 a hlt (by omega), s2 a hlt]
    | ret h3 b =>
      rw [ha] at hp
      cases b <;> simp at hp

/-- The contents of the accumulator in the heap a call leaves are what the
evaluator over values leaves. -/
theorem updateHeap_accumulator (iidx : inmemoryInvertedIndexPtr) (metricIDs allMetricIDs : Nat)
    (tfs : TagFilters) (h : Heap)
    (hv : ∀ kv ∈ iidx.m.entries, kv.2 < h.length)
    (hacc : metricIDs < h.length) (hall : allMetricIDs < h.length) :
    Heap.read (UpdateMetricIDsForTagFiltersHeap (some iidx) metricIDs allMetricIDs tfs h).heap
        metricIDs =
      accumulatorAfter (Heap.read h metricIDs)
        (UpdateMetricIDsForTagFilters (some (iidx.deref h)) (Heap.read h metricIDs)
          (Heap.read h allMetricIDs) tfs) := by
  rw [updateHeap_sim iidx metricIDs allMetricIDs tfs h hv hacc hall]
  cases hu : UpdateMetricIDsForTagFiltersHeap (some iidx) metricIDs allMetricIDs tfs h with
  | ret h2 u => rfl
  | panic h2 =>
    simp only [HeapRun.heap, accumulatorAfter]
    exact read_congr h h2 metricIDs
      (updateHeap_panic_frame iidx metricIDs allMetricIDs tfs h h2 hu metricIDs hacc)

/-- C3: for every table, allowed scope, accumulator and filter list, over a
heap in which the pointers of the table, the accumulator and the allowed
scope are addresses of objects, running `UpdateMetricIDsForTagFilters` with
any permutation of the filter list leaves the accumulator with the same
contents as running it with the original order. This holds whether the two
runs return or panic, and so in particular for filter lists whose
`prefix`es all begin with the common one. -/
theorem update_order_independent (iidx : inmemoryInvertedIndexPtr)
    (metricIDs allMetricIDs : Nat) (c : List Byte) (l1 l2 : List tagFilter) (h : Heap)
    (hperm : l1.Perm l2)
    (hv : ∀ kv ∈ iidx.m.entries, kv.2 < h.length)
    (hacc : metricIDs < h.length) (hall : allMetricIDs < h.length) :
    Heap.read (UpdateMetricIDsForTagFiltersHeap (some iidx) metricIDs allMetricIDs ⟨l2, c⟩ h).heap
        metricIDs =
      Heap.read (UpdateMetricIDsForTagFiltersHeap (some iidx) metricIDs allMetricIDs ⟨l1, c⟩ h).heap
        metricIDs := by
  rw [updateHeap_accumulator iidx metricIDs allMetricIDs ⟨l2, c⟩ h hv hacc hall,
    updateHeap_accumulator iidx metricIDs allMetricIDs ⟨l1, c⟩ h hv hacc hall]
  exact accumulatorAfter_perm (iidx.deref h) _ _ c l1 l2 hperm

/-- Witness of `update_order_independent`: two positive filters in both
orders; the seed is the filter of the scenario in one order and the filter
for `value1` in the other, no run returns early, and the accumulator gains
`1, 2, 3` either way. -/
theorem update_order_independent_witness :
    [scenarioFilter, value1Filter].Perm [value1Filter, scenarioFilter] ∧
    (∀ kv ∈ scenarioIndexPtr.m.entries, kv.2 < scenarioHeap.length) ∧
    2 < scenarioHeap.length ∧ 3 < scenarioHeap.length ∧
    Heap.read (UpdateMetricIDsForTagFiltersHeap (some scenarioIndexPtr) 2 3
        ⟨[value1Filter, scenarioFilter], []⟩ scenarioHeap).heap 2 =
      Heap.read (UpdateMetricIDsForTagFiltersHeap (some scenarioIndexPtr) 2 3
        ⟨[scenarioFilter, value1Filter], []⟩ scenarioHeap).heap 2 :=
  ⟨List.Perm.swap _ _ _, by decide, by decide, by decide,
    update_order_independent scenarioIndexPtr 2 3 [] [scenarioFilter, value1Filter]
      [value1Filter, scenarioFilter] scenarioHeap (List.Perm.swap _ _ _) (by decide) (by decide)
      (by decide)⟩

/-- The two orders of the witness, run: the accumulator at address 2 ends as
`9, 1, 2, 3` in both. -/
theorem order_witness_result :
    Heap.read (UpdateMetricIDsForTagFiltersHeap (some scenarioIndexPtr) 2 3
        ⟨[scenarioFilter, value1Filter], []⟩ scenarioHeap).heap 2 = {9, 1, 2, 3} ∧
    Heap.read (UpdateMetricIDsForTagFiltersHeap (some scenarioIndexPtr) 2 3
        ⟨[value1Filter, scenarioFilter], []⟩ scenarioHeap).heap 2 = {9, 1, 2, 3} :=
  ⟨by rfl, by rfl⟩

/-- The two orders of `order_changes_return_to_panic` over the heap: one run
returns early and the other panics, and both leave the accumulator at
address 2 as it was, holding `9`. -/
theorem order_return_or_panic_same_accumulator :
    Heap.read (UpdateMetricIDsForTagFiltersHeap (some scenarioIndexPtr) 2 3
        ⟨[scenarioFilter, rejectingFilter, erringFilter], []⟩ scenarioHeap).heap 2 = {9} ∧
    Heap.read (UpdateMetricIDsForTagFiltersHeap (some scenarioIndexPtr) 2 3
        ⟨[scenarioFilter, erringFilter, rejectingFilter], []⟩ scenarioHeap).heap 2 = {9} :=
  ⟨by rfl, by rfl⟩

end InmemoryInvertedIndex
